import Mathlib

/-!
Verification of the road-graph navigation and pursuit-AI core of a
tile-based driving game (road graph extraction, grid and graph A*,
Dijkstra cost tables, interception planning, waypoint building).

The JavaScript source is shallowly embedded: JavaScript numbers are
modelled by exact rationals (the Euclidean A* heuristic, a square root,
is carried symbolically as a pair and compared by an exact decision
procedure proved equivalent to the real-number order).  Typed arrays
are modelled as total functions with explicit bounds guards matching
out-of-bounds read/write semantics.  Unbounded while-loops are modelled
with explicit fuel chosen large enough to be unreachable on the loops
of interest.
-/

namespace GTA2Web

/-- A cardinal step direction. -/
structure Dir where
  dx : Int
  dy : Int
deriving DecidableEq, Repr

/-- Integer tile coordinate. -/
structure Tile where
  tx : Int
  ty : Int
deriving DecidableEq, Repr

/-- The DIRS4 constant of RoadGraph.js: east, west, south, north (in that order). -/
def DIRS4 : List Dir := [⟨1, 0⟩, ⟨-1, 0⟩, ⟨0, 1⟩, ⟨0, -1⟩]

/-- Read interface of the TileMap collaborator.  Optional members of the
JavaScript map object are modelled with Option. -/
structure GameMap where
  width : Int
  height : Int
  tileSize : Option ℚ
  tileAt : Int → Int → Nat
  oneWayAt : Option (Int → Int → Nat)
  laneCountAt : Option (Int → Int → Int)
  isSolidTile : Nat → Bool

/-- Effective tile size: map.tileSize with default 64. -/
def GameMap.ts (m : GameMap) : ℚ := m.tileSize.getD 64

/-- Linear tile index: idx(x, y, w) = y * w + x. -/
def idx (x y w : Int) : Int := y * w + x

/-- worldToTile from RoadGraph.js: floor divide by the tile size. -/
def worldToTile (m : GameMap) (wx wy : ℚ) : Tile :=
  ⟨(wx / m.ts).floor, (wy / m.ts).floor⟩

/-- tileToWorldCenter from RoadGraph.js. -/
def tileToWorldCenter (m : GameMap) (tx ty : Int) : ℚ × ℚ :=
  ((tx + 1/2) * m.ts, (ty + 1/2) * m.ts)

/-- Bounds check used throughout: 0 ≤ x < width and 0 ≤ y < height. -/
def inBoundsB (m : GameMap) (x y : Int) : Bool :=
  0 ≤ x && 0 ≤ y && x < m.width && y < m.height

/-- Road test used by the graph builder: in bounds and carrying the road tile id. -/
def isRoadB (m : GameMap) (roadTile : Nat) (x y : Int) : Bool :=
  inBoundsB m x y && m.tileAt x y == roadTile

/-- Inclusive integer range list from a to b. -/
def intRange (a b : Int) : List Int :=
  (List.range (b - a + 1).toNat).map fun i => a + (i : Int)

/-- snapWorldToRoadTile from RoadGraph.js: spiral ring search for the nearest
road tile around a world position. -/
def snapWorldToRoadTile (m : GameMap) (wx wy : ℚ) (roadTile : Nat := 2)
    (maxRadiusTiles : Nat := 12) : Option Tile :=
  let t := worldToTile m wx wy
  if inBoundsB m t.tx t.ty && m.tileAt t.tx t.ty == roadTile then some t
  else
    (List.range maxRadiusTiles).findSome? fun r0 =>
      let r : Int := (r0 : Int) + 1
      (intRange (-r) r).findSome? fun dy =>
        (intRange (-r) r).findSome? fun dx =>
          if dx.natAbs ≠ r.toNat ∧ dy.natAbs ≠ r.toNat then none
          else
            let x := t.tx + dx
            let y := t.ty + dy
            if inBoundsB m x y && m.tileAt x y == roadTile then some ⟨x, y⟩
            else none

/-- isOpposite from RoadGraph.js. -/
def isOpposite (a b : Dir) : Bool :=
  a.dx == -b.dx && a.dy == -b.dy

/-- Graph node: a road tile that is an intersection, dead end or turn. -/
structure Node where
  id : Nat
  tx : Int
  ty : Int
  x : ℚ
  y : ℚ
deriving DecidableEq, Repr

/-- Directed edge of the road graph. -/
structure DirEdge where
  id : Nat
  fromId : Nat
  toId : Nat
  tiles : List Tile
  cost : ℚ
  dirX : Int
  dirY : Int
  lanes : Int
  undirectedId : Nat
deriving DecidableEq, Repr

/-- Undirected edge of the road graph (one per unordered node pair). -/
structure UndirEdge where
  id : Nat
  u : Nat
  v : Nat
  cost : ℚ
  isBridge : Bool
  bridgeScore : ℚ
  dirEdgeIds : List Nat
deriving DecidableEq, Repr

/-- Adjacency entry pushed alongside each directed edge. -/
structure OutEdge where
  toId : Nat
  edge : Nat
  cost : ℚ
  dirX : Int
  dirY : Int
  lanes : Int
  undirectedId : Nat
deriving DecidableEq, Repr

/-- The built road graph.  The lookup arrays (adjacency, tile-to-node maps)
are modelled as functions. -/
structure RoadGraph where
  roadTile : Nat
  nodes : List Node
  dirEdges : List DirEdge
  undirEdges : List UndirEdge
  adj : Nat → List OutEdge
  nodeId : Tile → Option Nat
  tileToNode : Tile → Option Nat
  tileToNodeDist : Tile → Nat

/-- One-way metadata accessor with the default used when the map has none. -/
def oneWayAtD (m : GameMap) (x y : Int) : Nat :=
  (m.oneWayAt.getD fun _ _ => 0) x y

/-- Lane-count metadata accessor with the default used when the map has none. -/
def laneCountAtD (m : GameMap) (x y : Int) : Int :=
  (m.laneCountAt.getD fun _ _ => 1) x y

/-- tileAllowsDir from buildRoadGraph: the per-tile one-way code
(0 = both ways, 1 = E, 2 = W, 3 = S, 4 = N) gates a travel direction. -/
def tileAllowsDir (m : GameMap) (tx ty dx dy : Int) : Bool :=
  let ow := oneWayAtD m tx ty
  if ow = 0 then true
  else if ow = 1 then dx == 1 && dy == 0
  else if ow = 2 then dx == -1 && dy == 0
  else if ow = 3 then dx == 0 && dy == 1
  else if ow = 4 then dx == 0 && dy == -1
  else true

/-- segmentLaneCount from buildRoadGraph: max lane metadata over the walked
tiles, clamped to [1, 4]. -/
def segmentLaneCount (m : GameMap) (tiles : List Tile) : Int :=
  let mx := tiles.foldl (fun acc t => max acc (laneCountAtD m t.tx t.ty)) 1
  max 1 (min 4 mx)

/-- Open 4-neighbor directions of a road tile, in DIRS4 order. -/
def neighborDirs (m : GameMap) (roadTile : Nat) (tx ty : Int) : List Dir :=
  DIRS4.filter fun d => isRoadB m roadTile (tx + d.dx) (ty + d.dy)

/-- Pass-1 classification: a road tile is a node when its open-neighbor degree
differs from 2, or equals 2 with the two openings not opposite (a turn). -/
def isNodeTile (m : GameMap) (roadTile : Nat) (tx ty : Int) : Bool :=
  isRoadB m roadTile tx ty &&
    match neighborDirs m roadTile tx ty with
    | [a, b] => !isOpposite a b
    | _ => true

/-- Row-major list of all tile coordinates of the map (the pass-1 scan order). -/
def rowMajorTiles (m : GameMap) : List Tile :=
  (List.range m.height.toNat).flatMap fun ty =>
    (List.range m.width.toNat).map fun tx => ⟨(tx : Int), (ty : Int)⟩

/-- Tiles marked as nodes by pass 1, in scan order; a node's id is its index here. -/
def nodeTiles (m : GameMap) (roadTile : Nat) : List Tile :=
  (rowMajorTiles m).filter fun t => isNodeTile m roadTile t.tx t.ty

/-- The node list built by pass 1. -/
def buildNodes (m : GameMap) (roadTile : Nat) : List Node :=
  (nodeTiles m roadTile).enum.map fun p =>
    let c := tileToWorldCenter m p.2.tx p.2.ty
    ⟨p.1, p.2.tx, p.2.ty, c.1, c.2⟩

/-- The nodeId lookup (Int32Array tileIndex → node id or -1, modelled by Option):
the id of the node whose tile this is. -/
def nodeIdOf (m : GameMap) (roadTile : Nat) (t : Tile) : Option Nat :=
  (nodeTiles m roadTile).findIdx? fun s => s == t

/-- Accumulated edge state of pass 2. -/
structure EdgeState where
  dirEdges : List DirEdge
  undirEdges : List UndirEdge
deriving Repr

/-- The pass-2 walk loop: starting one step away from a node, push road tiles
while walking straight in direction d until another node tile is reached
(some (tiles, id)) or the road ends (none in the second component).  The outer
Option is fuel exhaustion, which never occurs for the fuel supplied by
buildRoadGraph since a straight walk leaves the map after at most
width + height steps. -/
def walkLoop (m : GameMap) (roadTile : Nat) (selfId : Nat) (d : Dir) :
    Nat → Int → Int → List Tile → Option (List Tile × Option Nat)
  | 0, _, _, _ => none
  | fuel + 1, x, y, tiles =>
    if isRoadB m roadTile x y then
      let tiles2 := tiles ++ [⟨x, y⟩]
      match nodeIdOf m roadTile ⟨x, y⟩ with
      | some nid =>
        if nid ≠ selfId then some (tiles2, some nid)
        else walkLoop m roadTile selfId d fuel (x + d.dx) (y + d.dy) tiles2
      | none => walkLoop m roadTile selfId d fuel (x + d.dx) (y + d.dy) tiles2
    else some (tiles, none)

/-- Cost of a walked segment: tiles traversed, minimum 1. -/
def segCost (tiles : List Tile) : ℚ := ((max 1 (tiles.length - 1) : Nat) : ℚ)

/-- Record one accepted directed edge (and its undirected counterpart) in the
edge state, mirroring the dirEdgeSet / undirMap bookkeeping of pass 2. -/
def addEdge (m : GameMap) (st : EdgeState) (fromId toId : Nat) (tiles : List Tile)
    (d : Dir) : EdgeState :=
  match st.undirEdges.findIdx? fun e => e.u == min fromId toId && e.v == max fromId toId with
  | some uid =>
    { dirEdges := st.dirEdges ++ [⟨st.dirEdges.length, fromId, toId, tiles,
        segCost tiles, d.dx, d.dy, segmentLaneCount m tiles, uid⟩],
      undirEdges :=
        match st.undirEdges[uid]? with
        | some e => st.undirEdges.set uid
            { e with dirEdgeIds := e.dirEdgeIds ++ [st.dirEdges.length],
                     cost := min e.cost (segCost tiles) }
        | none => st.undirEdges }
  | none =>
    { dirEdges := st.dirEdges ++ [⟨st.dirEdges.length, fromId, toId, tiles,
        segCost tiles, d.dx, d.dy, segmentLaneCount m tiles, st.undirEdges.length⟩],
      undirEdges := st.undirEdges ++ [⟨st.undirEdges.length, min fromId toId,
        max fromId toId, segCost tiles, false, 0, [st.dirEdges.length]⟩] }

/-- Process one outgoing direction of one node in pass 2: walk the segment and
accept the edge when the one-way gating passes (the initial node tile is
exempted) and the (from, to) pair is not yet present. -/
def processDir (m : GameMap) (roadTile : Nat) (n : Node) (d : Dir)
    (st : EdgeState) : EdgeState :=
  let sx := n.tx + d.dx
  let sy := n.ty + d.dy
  if isRoadB m roadTile sx sy then
    match walkLoop m roadTile n.id d (2 * (m.width.toNat + m.height.toNat) + 4)
        sx sy [⟨n.tx, n.ty⟩] with
    | some (tiles, some nid) =>
      if ((tiles.drop 1).all fun t => tileAllowsDir m t.tx t.ty d.dx d.dy) &&
          !(st.dirEdges.any fun e => e.fromId == n.id && e.toId == nid) then
        addEdge m st n.id nid tiles d
      else st
    | _ => st
  else st

/-- Pass 2: connect nodes by walking straight segments in node order, direction
order DIRS4. -/
def buildEdges (m : GameMap) (roadTile : Nat) (nodes : List Node) : EdgeState :=
  nodes.foldl (fun st n => DIRS4.foldl (fun st2 d => processDir m roadTile n d st2) st)
    ⟨[], []⟩

/-- Pointwise update of a function-modelled array. -/
def updF {β : Type} (f : Nat → β) (i : Nat) (v : β) : Nat → β :=
  fun j => if j = i then v else f j

/-- Pointwise update of a tile-indexed function-modelled array. -/
def updTile {β : Type} (f : Tile → β) (k : Tile) (v : β) : Tile → β :=
  fun j => if j = k then v else f j

/-- Undirected adjacency precomputed by pass 2b: per edge, an entry on each
endpoint side, in edge order (entries are (other endpoint, edge id)). -/
def undNeighbors (undirEdges : List UndirEdge) (u : Nat) : List (Nat × Nat) :=
  undirEdges.filterMap fun e =>
    if e.u = u then some (e.v, e.id)
    else if e.v = u then some (e.u, e.id)
    else none

/-- Mutable state of the Tarjan bridge DFS (discovery times, low links, parents
as Int32Array-style functions with -1 for unset, plus the flagged edge ids). -/
structure BridgeState where
  disc : Nat → Int
  low : Nat → Int
  parent : Nat → Int
  time : Nat
  bridges : List Nat

/-- The recursive dfs of computeBridges, with explicit fuel bounding the
recursion depth (at most one nested call per undiscovered vertex). -/
def dfsB (neighbors : Nat → List (Nat × Nat)) :
    Nat → Nat → BridgeState → BridgeState
  | 0, _, s => s
  | fuel + 1, u, s =>
    let s1 : BridgeState :=
      { s with disc := updF s.disc u (s.time : Int), low := updF s.low u (s.time : Int),
               time := s.time + 1 }
    (neighbors u).foldl
      (fun s2 p =>
        let v := p.1
        let eId := p.2
        if s2.disc v = -1 then
          let s3 := { s2 with parent := updF s2.parent v (u : Int) }
          let s4 := dfsB neighbors fuel v s3
          let s5 := { s4 with low := updF s4.low u (min (s4.low u) (s4.low v)) }
          if s5.disc u < s5.low v then { s5 with bridges := s5.bridges ++ [eId] }
          else s5
        else if (v : Int) ≠ s2.parent u then
          { s2 with low := updF s2.low u (min (s2.low u) (s2.disc v)) }
        else s2)
      s1

/-- computeBridges from RoadGraph.js: Tarjan bridge-finding over the undirected
graph.  The source mutates isBridge flags in place; here the flagged undirected
edge ids are returned and applied by the caller. -/
def computeBridges (n : Nat) (neighbors : Nat → List (Nat × Nat)) : List Nat :=
  let init : BridgeState := ⟨fun _ => -1, fun _ => -1, fun _ => -1, 0, []⟩
  ((List.range n).foldl
    (fun s i => if s.disc i = -1 then dfsB neighbors (n + 1) i s else s) init).bridges

/-- Queue entry of the pass-3 multi-source BFS. -/
structure QEntry where
  tx : Int
  ty : Int
  id : Nat
deriving DecidableEq, Repr

/-- The pass-3 BFS loop: label every road tile with its nearest node id and hop
distance (first writer wins on ties).  Fuel bounds the number of queue pops;
each push strictly decreases a distance value, so the fuel supplied by
buildRoadGraph is never exhausted. -/
def bfsLoop (m : GameMap) (roadTile : Nat) :
    Nat → List QEntry → (Tile → Option Nat) → (Tile → Nat) →
    (Tile → Option Nat) × (Tile → Nat)
  | _, [], t2n, t2d => (t2n, t2d)
  | 0, _, t2n, t2d => (t2n, t2d)
  | fuel + 1, cur :: rest, t2n, t2d =>
    let cd := t2d ⟨cur.tx, cur.ty⟩
    let step := DIRS4.foldl
      (fun acc d =>
        let nx := cur.tx + d.dx
        let ny := cur.ty + d.dy
        if isRoadB m roadTile nx ny then
          let k : Tile := ⟨nx, ny⟩
          if acc.2.1 k ≤ cd + 1 then acc
          else (updTile acc.1 k (some cur.id), updTile acc.2.1 k (cd + 1),
                acc.2.2 ++ [⟨nx, ny, cur.id⟩])
        else acc)
      (t2n, t2d, ([] : List QEntry))
    bfsLoop m roadTile fuel (rest ++ step.2.2) step.1 step.2.1

/-- buildRoadGraph from RoadGraph.js: node classification, directed/undirected
edge walking, bridge flagging (skipped above the 1600-node safety threshold),
bridge scores, and the multi-source BFS tile-to-node index. -/
def buildRoadGraph (m : GameMap) (roadTile : Nat := 2) : RoadGraph :=
  let nodes := buildNodes m roadTile
  let st := buildEdges m roadTile nodes
  let flagged :=
    if nodes.length ≤ 1600 then computeBridges nodes.length (undNeighbors st.undirEdges)
    else []
  let undir2 := st.undirEdges.map fun e =>
    if flagged.contains e.id then { e with isBridge := true } else e
  let undir3 := undir2.map fun e =>
    { e with bridgeScore := if e.isBridge then e.cost * 1 else 0 }
  let seeded := nodes.foldl
    (fun a n => (updTile a.1 ⟨n.tx, n.ty⟩ (some n.id), updTile a.2 ⟨n.tx, n.ty⟩ 0))
    ((fun _ => none : Tile → Option Nat), (fun _ => 65535 : Tile → Nat))
  let q0 : List QEntry := nodes.map fun n => ⟨n.tx, n.ty, n.id⟩
  let bfsFuel := (m.width.toNat * m.height.toNat) * 65537 + nodes.length + 1
  let bfsRes := bfsLoop m roadTile bfsFuel q0 seeded.1 seeded.2
  { roadTile := roadTile
    nodes := nodes
    dirEdges := st.dirEdges
    undirEdges := undir3
    adj := fun i => (st.dirEdges.filter fun e => e.fromId == i).map fun e =>
      ⟨e.toId, e.id, e.cost, e.dirX, e.dirY, e.lanes, e.undirectedId⟩
    nodeId := nodeIdOf m roadTile
    tileToNode := bfsRes.1
    tileToNodeDist := bfsRes.2 }

/-! RoadGraphNav (Effects.js): helpers driving cars on the road graph.
Lazy graph caching on the map object collapses to a direct build. -/

/-- ensureRoadGraph: the graph cached on the map (built with road tile id 2). -/
def ensureRoadGraph (m : GameMap) : RoadGraph := buildRoadGraph m 2

/-- snapWorldToNearestRoadNode: nearest road node id for a world position. -/
def snapWorldToNearestRoadNode (m : GameMap) (wx wy : ℚ) (maxRadiusTiles : Nat := 14) :
    Option Nat :=
  let g := ensureRoadGraph m
  match snapWorldToRoadTile m wx wy g.roadTile maxRadiusTiles with
  | none => none
  | some rt => g.tileToNode rt

/-- Exact decision of the real inequality sqrt na < c + sqrt nb. -/
def sqrtLtB (na : ℕ) (c : ℚ) (nb : ℕ) : Bool :=
  if 0 ≤ c then
    let t : ℚ := (na : ℚ) - c ^ 2 - (nb : ℚ)
    if t < 0 then true else decide (t ^ 2 < 4 * c ^ 2 * (nb : ℚ))
  else
    let s : ℚ := (nb : ℚ) - (na : ℚ) - c ^ 2
    decide (0 < s ∧ 4 * c ^ 2 * (na : ℚ) < s ^ 2)

/-- Symbolic f-score value q + sqrt n (gScore plus Euclidean heuristic). -/
def fLt (a b : ℚ × ℕ) : Bool := sqrtLtB a.2 (b.1 - a.1) b.2

/-- Swap two positions of a list (the destructuring swap of MinHeap). -/
def listSwap {α : Type} [Inhabited α] (a : List α) (i j : Nat) : List α :=
  (a.set i (a.getD j default)).set j (a.getD i default)

theorem listSwap_length {α : Type} [Inhabited α] (a : List α) (i j : Nat) :
    (listSwap a i j).length = a.length := by
  simp [listSwap]

/-- MinHeap._up, fuel recursion (the sift index strictly decreases, so fuel
i + 1 never runs out). -/
def heapUpFuel {α : Type} [Inhabited α] (lt : α → α → Bool) :
    Nat → List α → Nat → List α
  | 0, a, _ => a
  | fuel + 1, a, i =>
    if i = 0 then a
    else
      let p := (i - 1) / 2
      if lt (a.getD i default) (a.getD p default) then
        heapUpFuel lt fuel (listSwap a i p) p
      else a

/-- MinHeap._up: sift a value toward the root while it compares below its parent. -/
def heapUp {α : Type} [Inhabited α] (lt : α → α → Bool) (a : List α) (i : Nat) :
    List α :=
  heapUpFuel lt (i + 1) a i

/-- Child index selected by one MinHeap._down step (the m variable: i, or the
smaller in-range child). -/
def downTarget {α : Type} [Inhabited α] (lt : α → α → Bool) (a : List α) (i : Nat) :
    Nat :=
  let n := a.length
  let l := 2 * i + 1
  let r := l + 1
  let m1 := if l < n && lt (a.getD l default) (a.getD i default) then l else i
  if r < n && lt (a.getD r default) (a.getD m1 default) then r else m1

theorem downTarget_spec {α : Type} [Inhabited α] (lt : α → α → Bool) (a : List α)
    (i : Nat) : downTarget lt a i = i ∨
      (i < downTarget lt a i ∧ downTarget lt a i < a.length) := by
  simp only [downTarget, Bool.and_eq_true, decide_eq_true_eq]
  split_ifs <;> simp_all <;> omega

/-- MinHeap._down, fuel recursion (the sift index strictly increases while
staying below the fixed length, so fuel length + 1 never runs out). -/
def heapDownFuel {α : Type} [Inhabited α] (lt : α → α → Bool) :
    Nat → List α → Nat → List α
  | 0, a, _ => a
  | fuel + 1, a, i =>
    let m2 := downTarget lt a i
    if m2 = i then a
    else heapDownFuel lt fuel (listSwap a i m2) m2

/-- MinHeap._down: sift the value at i toward the leaves. -/
def heapDown {α : Type} [Inhabited α] (lt : α → α → Bool) (a : List α) (i : Nat) :
    List α :=
  heapDownFuel lt (a.length + 1) a i

/-- MinHeap.push. -/
def heapPush {α : Type} [Inhabited α] (lt : α → α → Bool) (a : List α) (v : α) :
    List α :=
  heapUp lt (a ++ [v]) a.length

/-- MinHeap.pop: returns the popped element and the remaining heap. -/
def heapPop {α : Type} [Inhabited α] (lt : α → α → Bool) (a : List α) :
    Option α × List α :=
  match a with
  | [] => (none, [])
  | [x] => (some x, [])
  | top :: _ =>
    let last := a.getD (a.length - 1) default
    (some top, heapDown lt (a.dropLast.set 0 last) 0)

/-- Heap entry of graph A*: node id and symbolic f-score. -/
structure AEntry where
  id : Nat
  f : ℚ × ℕ
deriving DecidableEq, Repr, Inhabited

/-- Comparator of the A* heap: cmp(a, b) = a.f - b.f < 0. -/
def aLt (a b : AEntry) : Bool := fLt a.f b.f

/-- Heap entry of Dijkstra: node id and distance. -/
structure DEntry where
  id : Nat
  d : ℚ
deriving DecidableEq, Repr, Inhabited

/-- Comparator of the Dijkstra heap: cmp(a, b) = a.d - b.d < 0. -/
def dLt (a b : DEntry) : Bool := a.d < b.d

/-- Node lookup with the out-of-range placeholder. -/
def nodeAt (g : RoadGraph) (i : Nat) : Node := g.nodes.getD i ⟨0, 0, 0, 0, 0⟩

/-- Radicand of the Euclidean heuristic h(a, b) = hypot(tx difference, ty difference). -/
def hsq (g : RoadGraph) (a b : Nat) : ℕ :=
  (((nodeAt g b).tx - (nodeAt g a).tx) ^ 2 +
    ((nodeAt g b).ty - (nodeAt g a).ty) ^ 2).toNat

/-- Path reconstruction loop of findNodePathAStar (pushes parents until -1 or
the start id; the caller reverses).  Fuel bounds the chain length; parent
chains of A* are acyclic so it is never exhausted in reachable states. -/
def reconLoop (cameFrom : Nat → Int) (startId : Nat) :
    Nat → Int → List Nat → List Nat
  | 0, _, out => out
  | fuel + 1, p, out =>
    if p = -1 then out
    else
      let out2 := out ++ [p.toNat]
      if p = (startId : Int) then out2
      else reconLoop cameFrom startId fuel (cameFrom p.toNat) out2

/-- Infinity-aware strict comparison: some q is below none (Infinity), and
nothing is below a finite value except a smaller finite value. -/
def qiLt (a : ℚ) (b : Option ℚ) : Bool :=
  match b with
  | none => true
  | some bq => a < bq

/-- Main loop of findNodePathAStar.  State: heap, gScore (none = Infinity),
cameFrom (-1 = unset), closed flags.  Typed-array reads out of [0, N) follow
JavaScript semantics (undefined is falsy and never satisfies a comparison). -/
def astarLoop (graph : RoadGraph) (startId goalId n : Nat) :
    Nat → List AEntry → (Nat → Option ℚ) → (Nat → Int) → (Nat → Bool) →
    Option (List Nat)
  | 0, _, _, _, _ => none
  | fuel + 1, heap, g, cf, cl =>
    match heapPop aLt heap with
    | (none, _) => none
    | (some cur, heap1) =>
      let curId := cur.id
      if (if curId < n then cl curId else false) then
        astarLoop graph startId goalId n fuel heap1 g cf cl
      else if curId = goalId then
        some ((reconLoop cf startId (n + 1)
          (if curId < n then cf curId else -1) [curId]).reverse)
      else
        let cl2 := updF cl curId true
        let gu := if curId < n then g curId else none
        let st2 := (graph.adj curId).foldl
          (fun (acc : List AEntry × (Nat → Option ℚ) × (Nat → Int)) e =>
            let nb := e.toId
            if (if nb < n then cl2 nb else false) then acc
            else
              match gu with
              | none => acc
              | some gq =>
                let tentative := gq + e.cost
                if nb < n ∧ qiLt tentative (acc.2.1 nb) then
                  (heapPush aLt acc.1 ⟨nb, (tentative, hsq graph nb goalId)⟩,
                   updF acc.2.1 nb (some tentative), updF acc.2.2 nb (curId : Int))
                else acc)
          (heap1, g, cf)
        astarLoop graph startId goalId n fuel st2.1 st2.2.1 st2.2.2 cl2

/-- findNodePathAStar from Effects.js: A* on the node graph with Euclidean
heuristic, lazy-deletion binary heap and closed-set skip on pop. -/
def findNodePathAStar (graph : RoadGraph) (startId goalId : Nat)
    (maxIters : Nat := 8000) : Option (List Nat) :=
  if startId = goalId then some [startId]
  else
    let n := graph.nodes.length
    if startId ≥ n ∨ goalId ≥ n then none
    else
      let g0 := updF (fun _ => (none : Option ℚ)) startId (some 0)
      let heap0 := heapPush aLt [] ⟨startId, (0, hsq graph startId goalId)⟩
      astarLoop graph startId goalId n maxIters heap0 g0 (fun _ => -1) (fun _ => false)

/-- Cost of an adjacency step a → b, defaulting to 1 when no edge matches
(the ad?.cost ?? 1 pattern). -/
def adjCostD (g : RoadGraph) (a b : Nat) : ℚ :=
  (((g.adj a).find? fun x => x.toId == b).map (·.cost)).getD 1

/-- pathCost from Effects.js: total cost of consecutive adjacency steps. -/
def pathCost (graph : RoadGraph) (nodePath : List Nat) : ℚ :=
  (nodePath.zip nodePath.tail).foldl (fun c p => c + adjCostD graph p.1 p.2) 0

/-- estimateETASeconds from Effects.js, with the minimum-speed floor of 60
world units per second (the JavaScript speedWorld || 0 coercion is the
identity on rational speeds). -/
def estimateETASeconds (costTiles : ℚ) (speedWorld : ℚ) (m : GameMap) : ℚ :=
  (costTiles * m.ts) / max 60 speedWorld

/-- Pointwise update guarded by the array length (out-of-bounds typed-array
writes are silently dropped). -/
def updFGuard {β : Type} (n : Nat) (f : Nat → β) (i : Nat) (v : β) : Nat → β :=
  fun j => if i < n ∧ j = i then v else f j

/-- Main loop of dijkstraCosts: standard relaxation with stale-entry skip
(cur.d must still equal dist[u] when popped). -/
def dijkstraLoop (graph : RoadGraph) (n : Nat) :
    Nat → List DEntry → (Nat → Option ℚ) → (Nat → Option ℚ)
  | 0, _, dist => dist
  | fuel + 1, heap, dist =>
    match heapPop dLt heap with
    | (none, _) => dist
    | (some cur, heap1) =>
      let u := cur.id
      if (if u < n then dist u else none) ≠ some cur.d then
        dijkstraLoop graph n fuel heap1 dist
      else
        let res := (graph.adj u).foldl
          (fun (acc : List DEntry × (Nat → Option ℚ)) e =>
            let v := e.toId
            let nd := cur.d + e.cost
            if v < n ∧ qiLt nd (acc.2 v) then
              (heapPush dLt acc.1 ⟨v, nd⟩, updF acc.2 v (some nd))
            else acc)
          (heap1, dist)
        dijkstraLoop graph n fuel res.1 res.2

/-- dijkstraCosts from Effects.js: single-source shortest-path costs from
startId to every node (none = Infinity = unreachable). -/
def dijkstraCosts (graph : RoadGraph) (startId : Nat) (maxIters : Nat := 12000) :
    Nat → Option ℚ :=
  let n := graph.nodes.length
  let dist0 := updFGuard n (fun _ => (none : Option ℚ)) startId (some 0)
  dijkstraLoop graph n maxIters [⟨startId, 0⟩] dist0

/-- JavaScript remainder (truncated toward zero). -/
def jsMod (a b : Int) : Int := a.tmod b

/-- Optional laneWidth / laneBias overrides of the waypoint builders. -/
structure WaypointOpts where
  laneWidth : Option ℚ
  laneBias : Option Int
deriving Repr

/-- nodePathToWaypoints from Effects.js: per edge of the path, lane-offset
world centers of the retained tiles (seam deduplication, decimation of odd
interior tiles, optional first-point drop). -/
def nodePathToWaypoints (m : GameMap) (graph : RoadGraph) (nodePath : List Nat)
    (dropFirst : Bool := true) (opts : WaypointOpts := ⟨none, none⟩) :
    Option (List (ℚ × ℚ)) :=
  if nodePath.length < 2 then none
  else
    let laneWidth := opts.laneWidth.getD (max 4 (m.ts * 0.18))
    let laneBias := opts.laneBias.getD 0
    let out := (List.range (nodePath.length - 1)).flatMap fun i =>
      let a := nodePath.getD i 0
      let b := nodePath.getD (i + 1) 0
      match (graph.adj a).find? fun x => x.toId == b with
      | none => []
      | some ad =>
        match graph.dirEdges[ad.edge]? with
        | none => []
        | some edge =>
          let lanes := max 1 (min 4 edge.lanes)
          let laneIndex := jsMod (jsMod laneBias lanes + lanes) lanes
          let centered := (laneIndex : ℚ) - ((lanes : ℚ) - 1) / 2
          let off := centered * laneWidth
          let perpX : ℚ := ((-edge.dirY : Int) : ℚ)
          let perpY : ℚ := ((edge.dirX : Int) : ℚ)
          (List.range edge.tiles.length).filterMap fun t =>
            if dropFirst && i == 0 && t == 0 then none
            else if decide (0 < i) && t == 0 then none
            else
              let isEnd := t == edge.tiles.length - 1
              if !isEnd && decide (0 < t) && t % 2 == 1 then none
              else
                match edge.tiles[t]? with
                | none => none
                | some p =>
                  let c := tileToWorldCenter m p.tx p.ty
                  some (c.1 + perpX * off, c.2 + perpY * off)
    if out.length ≠ 0 then some out else none

/-- findGraphWaypoints from Effects.js: snap both endpoints to road nodes, run
graph A*, and convert the node path to waypoints.  Equal snapped nodes yield
none (the caller aims directly). -/
def findGraphWaypoints (m : GameMap) (startX startY goalX goalY : ℚ)
    (opts : WaypointOpts := ⟨none, none⟩) : Option (List (ℚ × ℚ)) :=
  let g := ensureRoadGraph m
  match snapWorldToNearestRoadNode m startX startY 14,
        snapWorldToNearestRoadNode m goalX goalY 14 with
  | some startNode, some goalNode =>
    if startNode = goalNode then none
    else
      match findNodePathAStar g startNode goalNode 8000 with
      | none => none
      | some nodePath => nodePathToWaypoints m g nodePath true opts
  | _, _ => none

/-- Cumulative route costs of pickSmartInterceptNode: cum[0] = 0 and
cum[i+1] = cum[i] + cost of route step i (default 1). -/
def cumCosts (g : RoadGraph) (route : List Nat) : List ℚ :=
  (route.zip route.tail).scanl (fun c p => c + adjCostD g p.1 p.2) 0

/-- pickSmartInterceptNode from Effects.js: among route nodes from index 2 on,
pick the reachable node minimizing |copETA - playerETA| with a 2.2 factor
extra penalty for arriving late, skipping targets closer than 1.2 seconds. -/
def pickSmartInterceptNode (m : GameMap) (copWx copWy : ℚ) (playerRoute : List Nat)
    (playerSpeedWorld copSpeedWorld : ℚ) : Option Nat :=
  let g := ensureRoadGraph m
  if playerRoute.length < 3 then none
  else
    match snapWorldToNearestRoadNode m copWx copWy 14 with
    | none => none
    | some copNode =>
      let copCosts := dijkstraCosts g copNode 12000
      let cum := cumCosts g playerRoute
      let res := ((List.range playerRoute.length).drop 2).foldl
        (fun (best : Option Nat × Option ℚ) i =>
          let nodeId := playerRoute.getD i 0
          let playerETA := estimateETASeconds (cum.getD i 0) playerSpeedWorld m
          match copCosts nodeId with
          | none => best
          | some copCost =>
            let copETA := estimateETASeconds copCost copSpeedWorld m
            let diff := copETA - playerETA
            let score := |diff| + (if 0 < diff then diff * 2.2 else 0)
            if playerETA < 1.2 then best
            else
              match best.2 with
              | none => (some nodeId, some score)
              | some bs => if score < bs then (some nodeId, some score) else best)
        (none, none)
      res.1

/-! PoliceNav (Effects.js): grid-based A* helpers. -/

/-- tileCost from PoliceNav: mode-dependent tile cost, none = Infinity
(impassable). -/
def tileCost (m : GameMap) (tx ty : Int) (mode : String := "car") : Option ℚ :=
  let t := m.tileAt tx ty
  if m.isSolidTile t then none
  else if mode == "car" then
    if t == 2 then some 1 else if t == 3 then some 2.6
    else if t == 0 then some 1.8 else some 2
  else
    if t == 3 then some 1 else if t == 2 then some 1.3
    else if t == 0 then some 1.2 else some 1.4

/-- snapToNearestPassableTile from PoliceNav: spiral ring search for a
finite-cost tile. -/
def snapToNearestPassableTile (m : GameMap) (wx wy : ℚ) (mode : String := "car")
    (maxRadiusTiles : Nat := 10) : Option Tile :=
  let t := worldToTile m wx wy
  if inBoundsB m t.tx t.ty && (tileCost m t.tx t.ty mode).isSome then some t
  else
    (List.range maxRadiusTiles).findSome? fun r0 =>
      let r : Int := (r0 : Int) + 1
      (intRange (-r) r).findSome? fun dy =>
        (intRange (-r) r).findSome? fun dx =>
          if dx.natAbs ≠ r.toNat ∧ dy.natAbs ≠ r.toNat then none
          else
            let x := t.tx + dx
            let y := t.ty + dy
            if inBoundsB m x y && (tileCost m x y mode).isSome then some ⟨x, y⟩
            else none

/-- Search node of grid A*: immutable snapshot with a parent pointer, exactly
like the JavaScript node objects. -/
inductive GridNode where
  | mk (tx : Int) (ty : Int) (g : ℚ) (f : ℚ) (parent : Option GridNode)

/-- Tile x coordinate of a grid node. -/
def GridNode.tx : GridNode → Int
  | .mk tx _ _ _ _ => tx

/-- Tile y coordinate of a grid node. -/
def GridNode.ty : GridNode → Int
  | .mk _ ty _ _ _ => ty

/-- Accumulated cost of a grid node. -/
def GridNode.g : GridNode → ℚ
  | .mk _ _ g _ _ => g

/-- f-score of a grid node. -/
def GridNode.f : GridNode → ℚ
  | .mk _ _ _ f _ => f

/-- Parent pointer of a grid node. -/
def GridNode.parent : GridNode → Option GridNode
  | .mk _ _ _ _ p => p

/-- Manhattan heuristic of findPathAStar. -/
def hManhattan (a b : Tile) : ℚ :=
  (((a.tx - b.tx).natAbs + (a.ty - b.ty).natAbs : ℕ) : ℚ)

/-- Insertion-ordered Map.set: replace in place when the key exists, else
append. -/
def openSet (opn : List (Int × GridNode)) (k : Int) (v : GridNode) :
    List (Int × GridNode) :=
  if opn.any fun e => e.1 == k then
    opn.map fun e => if e.1 == k then (k, v) else e
  else opn ++ [(k, v)]

/-- Map.delete. -/
def openDelete (opn : List (Int × GridNode)) (k : Int) : List (Int × GridNode) :=
  opn.filter fun e => !(e.1 == k)

/-- Linear scan for the open node with the lowest f (first strict minimum, in
Map insertion order). -/
def selectMin (opn : List (Int × GridNode)) : Option (Int × GridNode) :=
  opn.foldl
    (fun best e =>
      match best with
      | none => some e
      | some b => if e.2.f < b.2.f then some e else b)
    none

/-- Parent-chain reconstruction of findPathAStar (push then reverse). -/
def chainToList : GridNode → List Tile
  | .mk tx ty _ _ none => [⟨tx, ty⟩]
  | .mk tx ty _ _ (some p) => chainToList p ++ [⟨tx, ty⟩]

/-- Main loop of findPathAStar: pick the open node with lowest f, close it,
return on goal, otherwise relax the four neighbors. -/
def gridAstarLoop (m : GameMap) (goal : Tile) (mode : String) :
    Nat → List (Int × GridNode) → List Int → Option (List Tile)
  | 0, _, _ => none
  | fuel + 1, opn, closed =>
    if opn.isEmpty then none
    else
      match selectMin opn with
      | none => none
      | some best =>
        let bestK := best.1
        let bestN := best.2
        let opn1 := openDelete opn bestK
        let closed1 := closed ++ [bestK]
        if bestN.tx == goal.tx && bestN.ty == goal.ty then some (chainToList bestN)
        else
          let opn2 := DIRS4.foldl
            (fun acc d =>
              let nx := bestN.tx + d.dx
              let ny := bestN.ty + d.dy
              if !inBoundsB m nx ny then acc
              else
                match tileCost m nx ny mode with
                | none => acc
                | some c =>
                  let nk := idx nx ny m.width
                  if closed1.contains nk then acc
                  else
                    let ng := bestN.g + c
                    let keep :=
                      match acc.find? fun e => e.1 == nk with
                      | none => true
                      | some ex => ng < ex.2.g
                    if keep then
                      openSet acc nk
                        (.mk nx ny ng (ng + hManhattan ⟨nx, ny⟩ goal) (some bestN))
                    else acc)
            opn1
          gridAstarLoop m goal mode fuel opn2 closed1

/-- findPathAStar from PoliceNav: A* over tiles with the mode-dependent cost
function and Manhattan heuristic. -/
def findPathAStar (m : GameMap) (start goal : Tile) (mode : String := "car")
    (maxNodes : Nat := 5000) : Option (List Tile) :=
  if !inBoundsB m start.tx start.ty || !inBoundsB m goal.tx goal.ty then none
  else if (tileCost m start.tx start.ty mode).isNone ||
      (tileCost m goal.tx goal.ty mode).isNone then none
  else
    let startK := idx start.tx start.ty m.width
    let startNode := GridNode.mk start.tx start.ty 0 (hManhattan start goal) none
    gridAstarLoop m goal mode maxNodes [(startK, startNode)] []

/-- buildEdgeWaypoints from CopCar.js: lane-offset world waypoints along one
directed edge (odd interior tiles decimated, first and last kept). -/
def buildEdgeWaypoints (m : GameMap) (graph : RoadGraph) (edgeId : Nat)
    (laneBias : Int := 0) : Option (List (ℚ × ℚ)) :=
  match graph.dirEdges[edgeId]? with
  | none => none
  | some edge =>
    if edge.tiles.isEmpty then none
    else
      let laneWidth := max 4 (m.ts * 0.18)
      let lanes := max 1 (min 4 edge.lanes)
      let laneIndex := jsMod (jsMod laneBias lanes + lanes) lanes
      let centered := (laneIndex : ℚ) - ((lanes : ℚ) - 1) / 2
      let off := centered * laneWidth
      let perpX : ℚ := ((-edge.dirY : Int) : ℚ)
      let perpY : ℚ := ((edge.dirX : Int) : ℚ)
      let out := (List.range edge.tiles.length).filterMap fun i =>
        let isEnd := i == edge.tiles.length - 1
        if !isEnd && decide (0 < i) && i % 2 == 1 then none
        else
          match edge.tiles[i]? with
          | none => none
          | some t =>
            let c := tileToWorldCenter m t.tx t.ty
            some (c.1 + perpX * off, c.2 + perpY * off)
      if out.length ≠ 0 then some out else none

/-! Concrete scenario maps used by scenario claims and witnesses. -/

/-- A 1 x 10 all-road corridor with the map edges as walls (the simple-corridor
scenario of the specification). -/
def corridorMap : GameMap :=
  { width := 10, height := 1, tileSize := none
    tileAt := fun _ _ => 2
    oneWayAt := none, laneCountAt := none
    isSolidTile := fun t => t == 1 }

/-- An L-shaped road: horizontal run (0..5, 0) joined to vertical run (5, 0..5),
giving three nodes (two dead ends and one turn). -/
def elMap : GameMap :=
  { width := 6, height := 6, tileSize := none
    tileAt := fun x y => if (y == 0 && x ≤ 5) || (x == 5 && y ≤ 5) then 2 else 1
    oneWayAt := none, laneCountAt := none
    isSolidTile := fun t => t == 1 }

/-- A 1 x 3 corridor whose first tile (a node tile) carries a west-only one-way
code. -/
def nodeOneWayMap : GameMap :=
  { width := 3, height := 1, tileSize := none
    tileAt := fun _ _ => 2
    oneWayAt := some fun x _ => if x == 0 then 2 else 0
    laneCountAt := none
    isSolidTile := fun t => t == 1 }

/-- A 5 x 1 corridor of 3-lane road tiles. -/
def laneMap : GameMap :=
  { width := 5, height := 1, tileSize := none
    tileAt := fun _ _ => 2
    oneWayAt := none, laneCountAt := some fun _ _ => 3
    isSolidTile := fun t => t == 1 }

/-- A 3201 x 1 strip of isolated road tiles (road exactly on even columns),
yielding 1601 degree-zero nodes: above the bridge-detection safety threshold. -/
def hugeMap : GameMap :=
  { width := 3201, height := 1, tileSize := none
    tileAt := fun x _ => if x.tmod 2 == 0 then 2 else 1
    oneWayAt := none, laneCountAt := none
    isSolidTile := fun t => t == 1 }

/-! The Batteries rational operations are irreducible by default, which blocks
elaborator-side evaluation of concrete instances; restore semireducibility so
that concrete witnesses evaluate by decide. -/

attribute [local semireducible] Rat.add Rat.mul Rat.inv Rat.sub Rat.ofScientific

/-! Generic list helpers for the loop-invariant proofs. -/

theorem foldl_invariant {α σ : Type} (P : σ → Prop) (f : σ → α → σ) (l : List α)
    (init : σ) (h0 : P init) (hstep : ∀ s a, a ∈ l → P s → P (f s a)) :
    P (l.foldl f init) := by
  induction l generalizing init with
  | nil => exact h0
  | cons x xs ih =>
    exact ih (f init x) (hstep init x (by simp) h0)
      fun s a ha hs => hstep s a (by simp [ha]) hs

theorem findIdx?_some_getElem {α : Type} {p : α → Bool} {l : List α} {i : Nat}
    (h : l.findIdx? p = some i) : ∃ x, l[i]? = some x ∧ p x = true := by
  induction l generalizing i with
  | nil => simp [List.findIdx?] at h
  | cons a as ih =>
    rw [List.findIdx?_cons] at h
    by_cases hp : p a
    · simp [hp] at h
      exact ⟨a, by simp [← h], hp⟩
    · simp [hp] at h
      match i, h with
      | i + 1, h =>
        obtain ⟨x, hx, hpx⟩ := ih (by simpa using h)
        exact ⟨x, by simpa using hx, hpx⟩

/-! Structural component lemmas of buildRoadGraph. -/

theorem buildRoadGraph_nodes (m : GameMap) (rt : Nat) :
    (buildRoadGraph m rt).nodes = buildNodes m rt := rfl

theorem buildRoadGraph_dirEdges (m : GameMap) (rt : Nat) :
    (buildRoadGraph m rt).dirEdges = (buildEdges m rt (buildNodes m rt)).dirEdges := rfl

theorem buildRoadGraph_adj (m : GameMap) (rt : Nat) (i : Nat) :
    (buildRoadGraph m rt).adj i =
      ((buildEdges m rt (buildNodes m rt)).dirEdges.filter fun e => e.fromId == i).map
        fun e => ⟨e.toId, e.id, e.cost, e.dirX, e.dirY, e.lanes, e.undirectedId⟩ := rfl

theorem buildRoadGraph_undirEdges (m : GameMap) (rt : Nat) :
    (buildRoadGraph m rt).undirEdges =
      ((buildEdges m rt (buildNodes m rt)).undirEdges.map fun e =>
        if ((if (buildNodes m rt).length ≤ 1600 then
              computeBridges (buildNodes m rt).length
                (undNeighbors (buildEdges m rt (buildNodes m rt)).undirEdges)
            else []).contains e.id) then { e with isBridge := true } else e).map
        fun e => { e with bridgeScore := if e.isBridge then e.cost * 1 else 0 } := rfl

/-! Claim C6: simple-corridor scenario. -/

/-- C6: on the 1 x 10 straight road strip with map edges as walls,
buildRoadGraph produces exactly 2 nodes (the two end tiles) and exactly one
DirectedEdge per direction between them, each with cost 9. -/
theorem corridor_two_nodes_two_edges_cost9 :
    ((buildRoadGraph corridorMap 2).nodes.map fun n => (n.id, n.tx, n.ty)) =
      [(0, 0, 0), (1, 9, 0)] ∧
    ((buildRoadGraph corridorMap 2).dirEdges.map fun e => (e.fromId, e.toId, e.cost)) =
      [(0, 1, 9), (1, 0, 9)] := by
  constructor <;> rfl

/-! Claim C7: trivial and out-of-range queries of findNodePathAStar. -/

/-- C7 counterexample: start = goal = 7 is outside [0, nodeCount) of the
corridor graph (2 nodes), yet findNodePathAStar returns the path [7] instead
of failing, because the identical-node shortcut runs before the range check. -/
theorem findNodePathAStar_oor_id_counterexample :
    (buildRoadGraph corridorMap 2).nodes.length ≤ 7 ∧
    findNodePathAStar (buildRoadGraph corridorMap 2) 7 7 8000 = some [7] := by
  constructor
  · show (2 : Nat) ≤ 7
    omega
  · rfl

/-- C7 amended: identical start and goal ids return the trivial single-node
path with no search (even out of range); distinct ids with start or goal
outside [0, nodeCount) fail immediately with no search. -/
theorem findNodePathAStar_trivial_and_oor (g : RoadGraph) (s t cap : Nat) :
    (s = t → findNodePathAStar g s t cap = some [s]) ∧
    (s ≠ t → g.nodes.length ≤ s ∨ g.nodes.length ≤ t →
      findNodePathAStar g s t cap = none) := by
  constructor
  · intro h
    subst h
    simp [findNodePathAStar]
  · intro hne hoor
    rw [findNodePathAStar, if_neg hne, if_pos]
    omega

/-- Witness for the amended C7 statement on the corridor graph. -/
theorem findNodePathAStar_trivial_and_oor_witness :
    findNodePathAStar (buildRoadGraph corridorMap 2) 1 1 8000 = some [1] ∧
    findNodePathAStar (buildRoadGraph corridorMap 2) 0 5 8000 = none := by
  refine ⟨(findNodePathAStar_trivial_and_oor (buildRoadGraph corridorMap 2) 1 1 8000).1 rfl,
    (findNodePathAStar_trivial_and_oor (buildRoadGraph corridorMap 2) 0 5 8000).2
      (by decide) (Or.inr (by decide))⟩

/-! Claim C10: findGraphWaypoints with both endpoints snapping to one node. -/

/-- C10: whenever the start and the goal world positions snap to the same road
node, findGraphWaypoints returns none, although the node exists and the
trivial route is available; callers must fall back. -/
theorem findGraphWaypoints_same_node_none (m : GameMap) (sx sy gx gy : ℚ)
    (opts : WaypointOpts) (node : Nat)
    (hs : snapWorldToNearestRoadNode m sx sy 14 = some node)
    (hg : snapWorldToNearestRoadNode m gx gy 14 = some node) :
    findGraphWaypoints m sx sy gx gy opts = none := by
  rw [findGraphWaypoints, hs, hg]
  simp

/-- Witness for C10: on the corridor map, two distinct positions inside the
first tile snap to node 0 and findGraphWaypoints yields none. -/
theorem findGraphWaypoints_same_node_none_witness :
    snapWorldToNearestRoadNode corridorMap 10 10 14 = some 0 ∧
    snapWorldToNearestRoadNode corridorMap 20 20 14 = some 0 ∧
    findGraphWaypoints corridorMap 10 10 20 20 ⟨none, none⟩ = none := by
  have h1 : snapWorldToNearestRoadNode corridorMap 10 10 14 = some 0 := by decide
  have h2 : snapWorldToNearestRoadNode corridorMap 20 20 14 = some 0 := by decide
  exact ⟨h1, h2,
    findGraphWaypoints_same_node_none corridorMap 10 10 20 20 ⟨none, none⟩ 0 h1 h2⟩

/-! Claim C8: bridge detection is skipped above the safety threshold. -/

theorem addEdge_isBridge_false (m : GameMap) (st : EdgeState) (fromId toId : Nat)
    (tiles : List Tile) (d : Dir)
    (h : ∀ e ∈ st.undirEdges, e.isBridge = false) :
    ∀ e ∈ (addEdge m st fromId toId tiles d).undirEdges, e.isBridge = false := by
  intro e he
  unfold addEdge at he
  split at he
  · dsimp only at he
    split at he
    · next u0 hget =>
      rcases List.mem_or_eq_of_mem_set he with hmem | hnew
      · exact h e hmem
      · subst hnew
        exact h u0 (List.getElem?_mem hget)
    · exact h e he
  · dsimp only at he
    simp only [List.mem_append, List.mem_singleton] at he
    rcases he with he | he
    · exact h e he
    · subst he; rfl

theorem buildEdges_isBridge_false (m : GameMap) (rt : Nat) (nodes : List Node) :
    ∀ e ∈ (buildEdges m rt nodes).undirEdges, e.isBridge = false := by
  rw [buildEdges]
  refine foldl_invariant (fun (st : EdgeState) => ∀ e ∈ st.undirEdges, e.isBridge = false) _ _ _
    (fun e he => absurd he (List.not_mem_nil e)) ?_
  intro st n _ hst
  refine foldl_invariant (fun (st : EdgeState) => ∀ e ∈ st.undirEdges, e.isBridge = false) _ _ _ hst ?_
  intro st2 d _ hst2
  rw [processDir]
  split
  all_goals try exact hst2
  split
  all_goals try exact hst2
  split
  · exact addEdge_isBridge_false m st2 _ _ _ _ hst2
  · exact hst2

/-- C8: when the node count exceeds the 1600-node safety threshold, the bridge
pass is skipped: the build still succeeds and every undirected edge reports
isBridge = false and bridgeScore = 0. -/
theorem bridge_pass_skipped (m : GameMap) (rt : Nat)
    (h : 1600 < (buildRoadGraph m rt).nodes.length) :
    ∀ e ∈ (buildRoadGraph m rt).undirEdges, e.isBridge = false ∧ e.bridgeScore = 0 := by
  rw [buildRoadGraph_nodes] at h
  rw [buildRoadGraph_undirEdges]
  have hle : ¬((buildNodes m rt).length ≤ 1600) := by omega
  intro e he
  simp only [hle, if_false, List.map_map, List.mem_map, Function.comp] at he
  obtain ⟨e0, he0, rfl⟩ := he
  have hb := buildEdges_isBridge_false m rt (buildNodes m rt) e0 he0
  simp [hb]

set_option maxRecDepth 40000 in
/-- Witness for C8 on the 3201 x 1 strip of isolated road tiles (1601 nodes). -/
theorem bridge_pass_skipped_witness :
    1600 < (buildRoadGraph hugeMap 2).nodes.length ∧
    ∀ e ∈ (buildRoadGraph hugeMap 2).undirEdges, e.isBridge = false ∧ e.bridgeScore = 0 := by
  have h : 1600 < (buildRoadGraph hugeMap 2).nodes.length := by decide
  exact ⟨h, bridge_pass_skipped hugeMap 2 h⟩

/-! Claim C9: waypoint lane offsetting. -/

/-- The waypoint value asserted by the specification: the retained tile's world
center offset perpendicular to the edge's travel direction by
(laneIndex - (lanes - 1) / 2) x laneWidth, where laneIndex is laneBias mod
lanes taken non-negative and lanes is clamped to [1, 4]. -/
def claimWaypoint (m : GameMap) (edge : DirEdge) (laneBias : Int) (laneWidth : ℚ)
    (p : Tile) : ℚ × ℚ :=
  let lanes := max 1 (min 4 edge.lanes)
  let laneIndex := jsMod (jsMod laneBias lanes + lanes) lanes
  let centered := (laneIndex : ℚ) - ((lanes : ℚ) - 1) / 2
  let off := centered * laneWidth
  let perpX : ℚ := ((-edge.dirY : Int) : ℚ)
  let perpY : ℚ := ((edge.dirX : Int) : ℚ)
  let c := tileToWorldCenter m p.tx p.ty
  (c.1 + perpX * off, c.2 + perpY * off)

/-- C9: every waypoint that nodePathToWaypoints or buildEdgeWaypoints produces
equals the lane-offset world center of a retained tile of one of the graph's
directed edges, with the lane index and clamping of the specification. -/
theorem waypoints_lane_offset (m : GameMap) (graph : RoadGraph) :
    (∀ nodePath dropFirst opts out,
      nodePathToWaypoints m graph nodePath dropFirst opts = some out →
      ∀ p ∈ out, ∃ e ∈ graph.dirEdges, ∃ t ∈ e.tiles,
        p = claimWaypoint m e (opts.laneBias.getD 0)
          (opts.laneWidth.getD (max 4 (m.ts * 0.18))) t) ∧
    (∀ edgeId laneBias out,
      buildEdgeWaypoints m graph edgeId laneBias = some out →
      ∀ p ∈ out, ∃ e ∈ graph.dirEdges, ∃ t ∈ e.tiles,
        p = claimWaypoint m e laneBias (max 4 (m.ts * 0.18)) t) := by
  constructor
  · intro nodePath dropFirst opts out hout p hp
    simp only [nodePathToWaypoints] at hout
    split at hout
    · exact absurd hout (by simp)
    · split at hout
      · obtain rfl := Option.some.inj hout
        simp only [List.mem_flatMap, List.mem_range] at hp
        obtain ⟨i, _, hpi⟩ := hp
        revert hpi
        split
        · simp
        · split
          · simp
          · next ad had edge hedge =>
            intro hpi
            simp only [List.mem_filterMap, List.mem_range] at hpi
            obtain ⟨t, _, hmk⟩ := hpi
            refine ⟨edge, List.getElem?_mem hedge, ?_⟩
            split at hmk
            · exact absurd hmk (by simp)
            · split at hmk
              · exact absurd hmk (by simp)
              · split at hmk
                · exact absurd hmk (by simp)
                · split at hmk
                  · exact absurd hmk (by simp)
                  · next tl htl =>
                    obtain rfl := Option.some.inj hmk
                    exact ⟨tl, List.getElem?_mem htl, rfl⟩
      · exact absurd hout (by simp)
  · intro edgeId laneBias out hout p hp
    simp only [buildEdgeWaypoints] at hout
    split at hout
    · exact absurd hout (by simp)
    · next edge hedge =>
      split at hout
      · exact absurd hout (by simp)
      · split at hout
        · obtain rfl := Option.some.inj hout
          simp only [List.mem_filterMap, List.mem_range] at hp
          obtain ⟨t, _, hmk⟩ := hp
          refine ⟨edge, List.getElem?_mem hedge, ?_⟩
          split at hmk
          · exact absurd hmk (by simp)
          · split at hmk
            · exact absurd hmk (by simp)
            · next tl htl =>
              obtain rfl := Option.some.inj hmk
              exact ⟨tl, List.getElem?_mem htl, rfl⟩
        · exact absurd hout (by simp)

/-- Witness for C9 on the 3-lane corridor with lane bias 4. -/
theorem waypoints_lane_offset_witness :
    nodePathToWaypoints laneMap (buildRoadGraph laneMap 2) [0, 1] true
      ⟨none, some 4⟩ = some [(160, 32), (288, 32)] ∧
    (∃ e ∈ (buildRoadGraph laneMap 2).dirEdges, ∃ t ∈ e.tiles,
      ((160 : ℚ), (32 : ℚ)) = claimWaypoint laneMap e 4
        (max 4 (laneMap.ts * 0.18)) t) := by
  have h : nodePathToWaypoints laneMap (buildRoadGraph laneMap 2) [0, 1] true
      ⟨none, some 4⟩ = some [(160, 32), (288, 32)] := by decide
  exact ⟨h, (waypoints_lane_offset laneMap (buildRoadGraph laneMap 2)).1
    [0, 1] true ⟨none, some 4⟩ [(160, 32), (288, 32)] h (160, 32) (by decide)⟩

/-! Claim C4: one-way gating of directed-edge creation. -/

theorem addEdge_dirEdges_mem (m : GameMap) (st : EdgeState) (fromId toId : Nat)
    (tiles : List Tile) (d : Dir) :
    ∀ e ∈ (addEdge m st fromId toId tiles d).dirEdges,
      e ∈ st.dirEdges ∨ ∃ uid, e = ⟨st.dirEdges.length, fromId, toId, tiles,
        segCost tiles, d.dx, d.dy, segmentLaneCount m tiles, uid⟩ := by
  intro e he
  unfold addEdge at he
  split at he
  · next uid _ =>
    dsimp only at he
    simp only [List.mem_append, List.mem_singleton] at he
    rcases he with he | he
    · exact Or.inl he
    · exact Or.inr ⟨uid, he⟩
  · dsimp only at he
    simp only [List.mem_append, List.mem_singleton] at he
    rcases he with he | he
    · exact Or.inl he
    · exact Or.inr ⟨st.undirEdges.length, he⟩

/-- C4 amended: a directed edge is created only if every tile on the walk
after the initial node tile permits travel in the walk's direction; the
initial node tile itself is exempted by the builder. -/
theorem one_way_gating_after_first (m : GameMap) (rt : Nat) :
    ∀ e ∈ (buildRoadGraph m rt).dirEdges, ∀ t ∈ e.tiles.drop 1,
      tileAllowsDir m t.tx t.ty e.dirX e.dirY = true := by
  rw [buildRoadGraph_dirEdges, buildEdges]
  refine foldl_invariant
    (fun (st : EdgeState) => ∀ e ∈ st.dirEdges, ∀ t ∈ e.tiles.drop 1,
      tileAllowsDir m t.tx t.ty e.dirX e.dirY = true) _ _ _
    (fun e he => absurd he (List.not_mem_nil e)) ?_
  intro st n _ hst
  refine foldl_invariant
    (fun (st : EdgeState) => ∀ e ∈ st.dirEdges, ∀ t ∈ e.tiles.drop 1,
      tileAllowsDir m t.tx t.ty e.dirX e.dirY = true) _ _ _ hst ?_
  intro st2 d _ hst2
  rw [processDir]
  split
  all_goals try exact hst2
  split
  all_goals try exact hst2
  split
  · next hok =>
    intro e he
    rcases addEdge_dirEdges_mem m st2 _ _ _ _ e he with hmem | ⟨uid, rfl⟩
    · exact hst2 e hmem
    · intro t ht
      have hall := (Bool.and_eq_true _ _).mp hok |>.1
      rw [List.all_eq_true] at hall
      exact hall t ht
  · exact hst2

/-- C4 counterexample: on a 1 x 3 corridor whose first tile (a node tile)
carries a west-only one-way code, the eastbound directed edge is still
created, and its walk contains a tile (the node tile) that does not permit
east; both directions exist over the segment carrying the code. -/
theorem one_way_gating_counterexample :
    (∃ e ∈ (buildRoadGraph nodeOneWayMap 2).dirEdges, ∃ t ∈ e.tiles,
      tileAllowsDir nodeOneWayMap t.tx t.ty e.dirX e.dirY = false) ∧
    ((buildRoadGraph nodeOneWayMap 2).dirEdges.map fun e =>
      (e.fromId, e.toId, e.dirX, e.dirY)) = [(0, 1, 1, 0), (1, 0, -1, 0)] := by
  constructor
  · decide
  · rfl

/-- Witness for the amended C4 statement: the eastbound corridor edge's second
tile permits east. -/
theorem one_way_gating_after_first_witness :
    tileAllowsDir nodeOneWayMap 1 0 1 0 = true :=
  one_way_gating_after_first nodeOneWayMap 2
    ⟨0, 0, 1, [⟨0, 0⟩, ⟨1, 0⟩, ⟨2, 0⟩], 2, 1, 0, 1, 0⟩ (by decide) ⟨1, 0⟩ (by decide)

/-! Claim C3: graph well-formedness. -/

/-- 4-adjacency of two tiles. -/
def adjTile (a b : Tile) : Prop :=
  (b.tx - a.tx).natAbs + (b.ty - a.ty).natAbs = 1

/-- Point reached after i straight steps in direction d from (x, y). -/
def ptAt (x y : Int) (d : Dir) (i : Nat) : Tile :=
  ⟨x + (i : Int) * d.dx, y + (i : Int) * d.dy⟩

theorem ptAt_zero (x y : Int) (d : Dir) : ptAt x y d 0 = ⟨x, y⟩ := by
  simp [ptAt]

theorem ptAt_succ (x y : Int) (d : Dir) (i : Nat) :
    ptAt x y d (i + 1) = ptAt (x + d.dx) (y + d.dy) d i := by
  simp only [ptAt, Tile.mk.injEq]
  constructor <;> push_cast <;> ring

theorem map_ptAt_succ (x y : Int) (d : Dir) (k : Nat) :
    (List.range (k + 1)).map (ptAt x y d) =
      Tile.mk x y :: (List.range k).map (ptAt (x + d.dx) (y + d.dy) d) := by
  rw [List.range_succ_eq_map, List.map_cons, List.map_map, ptAt_zero]
  congr 1
  refine List.map_congr_left fun i _ => ?_
  show ptAt x y d (i + 1) = ptAt (x + d.dx) (y + d.dy) d i
  exact ptAt_succ x y d i

theorem walkLoop_spec (m : GameMap) (rt selfId : Nat) (d : Dir) :
    ∀ fuel x y acc ts nid,
      walkLoop m rt selfId d fuel x y acc = some (ts, some nid) →
      ∃ k : Nat,
        ts = acc ++ (List.range (k + 1)).map (ptAt x y d) ∧
        (∀ i : Nat, i ≤ k → isRoadB m rt (ptAt x y d i).tx (ptAt x y d i).ty = true) ∧
        nodeIdOf m rt (ptAt x y d k) = some nid ∧ nid ≠ selfId := by
  intro fuel
  induction fuel with
  | zero =>
    intro x y acc ts nid h
    exact absurd h (by simp [walkLoop])
  | succ fuel ih =>
    intro x y acc ts nid h
    rw [walkLoop] at h
    dsimp only at h
    split at h
    · next hr =>
      split at h
      · next nid0 hn =>
        split at h
        · next hne =>
          obtain ⟨h1, h2⟩ := Prod.mk.injEq .. ▸ Option.some.inj h
          obtain rfl := Option.some.inj h2
          refine ⟨0, ?_, ?_, ?_, hne⟩
          · rw [← h1, map_ptAt_succ]
            simp
          · intro i hi
            obtain rfl : i = 0 := Nat.le_zero.mp hi
            rw [ptAt_zero]
            exact hr
          · rw [ptAt_zero]
            exact hn
        · next hne =>
          obtain ⟨k, hts, hroad, hnode, hnid⟩ := ih (x + d.dx) (y + d.dy) (acc ++ [⟨x, y⟩]) ts nid h
          refine ⟨k + 1, ?_, ?_, ?_, hnid⟩
          · rw [hts, map_ptAt_succ x y d (k + 1)]; simp
          · intro i hi
            cases i with
            | zero => rw [ptAt_zero]; exact hr
            | succ i => rw [ptAt_succ]; exact hroad i (by omega)
          · rw [ptAt_succ]
            exact hnode
      · next hn =>
        obtain ⟨k, hts, hroad, hnode, hnid⟩ := ih (x + d.dx) (y + d.dy) (acc ++ [⟨x, y⟩]) ts nid h
        refine ⟨k + 1, ?_, ?_, ?_, hnid⟩
        · rw [hts, map_ptAt_succ x y d (k + 1)]; simp
        · intro i hi
          cases i with
          | zero => rw [ptAt_zero]; exact hr
          | succ i => rw [ptAt_succ]; exact hroad i (by omega)
        · rw [ptAt_succ]
          exact hnode
    · exact absurd h (by simp)

/-- Tiles of an accepted pass-2 walk from node n: the straight segment from
the node tile to the reached node tile. -/
theorem processDir_tiles {m : GameMap} {rt : Nat} {n : Node} {d : Dir}
    {fuel : Nat} {ts : List Tile} {nid : Nat}
    (h : walkLoop m rt n.id d fuel (n.tx + d.dx) (n.ty + d.dy) [⟨n.tx, n.ty⟩] =
      some (ts, some nid)) :
    ∃ k : Nat,
      ts = (List.range (k + 2)).map (ptAt n.tx n.ty d) ∧
      (∀ i : Nat, 1 ≤ i → i ≤ k + 1 →
        isRoadB m rt (ptAt n.tx n.ty d i).tx (ptAt n.tx n.ty d i).ty = true) ∧
      nodeIdOf m rt (ptAt n.tx n.ty d (k + 1)) = some nid ∧ nid ≠ n.id := by
  obtain ⟨k, hts, hroad, hnode, hnid⟩ := walkLoop_spec m rt n.id d fuel _ _ _ ts nid h
  refine ⟨k, ?_, ?_, ?_, hnid⟩
  · rw [hts, map_ptAt_succ n.tx n.ty d (k + 1)]
    rfl
  · intro i h1 hk
    cases i with
    | zero => omega
    | succ i =>
      rw [ptAt_succ]
      exact hroad i (by omega)
  · rw [ptAt_succ]
    exact hnode

theorem chain'_ptAt {d : Dir} (hd : d ∈ DIRS4) (x y : Int) (K : Nat) :
    List.Chain' adjTile ((List.range K).map (ptAt x y d)) := by
  rw [List.chain'_map]
  cases K with
  | zero => simp
  | succ K =>
    rw [List.chain'_range_succ]
    intro i _
    show adjTile (ptAt x y d i) (ptAt x y d (i + 1))
    have htx : (ptAt x y d (i + 1)).tx - (ptAt x y d i).tx = d.dx := by
      simp only [ptAt]
      push_cast
      ring
    have hty : (ptAt x y d (i + 1)).ty - (ptAt x y d i).ty = d.dy := by
      simp only [ptAt]
      push_cast
      ring
    rw [adjTile, htx, hty]
    fin_cases hd <;> rfl

theorem buildNodes_getElem? {m : GameMap} {rt : Nat} {i : Nat} {nd : Node}
    (h : (buildNodes m rt)[i]? = some nd) :
    nd.id = i ∧ (nodeTiles m rt)[i]? = some ⟨nd.tx, nd.ty⟩ := by
  rw [buildNodes] at h
  rw [List.getElem?_map, List.getElem?_enum] at h
  rcases ht : (nodeTiles m rt)[i]? with _ | t
  · rw [ht] at h
    simp at h
  · rw [ht] at h
    simp only [Option.map_some] at h
    obtain rfl := Option.some.inj h
    exact ⟨rfl, rfl⟩

theorem nodeIdOf_node {m : GameMap} {rt : Nat} {t : Tile} {i : Nat}
    (h : nodeIdOf m rt t = some i) :
    ∃ nd, (buildNodes m rt)[i]? = some nd ∧ nd.id = i ∧ nd.tx = t.tx ∧ nd.ty = t.ty := by
  obtain ⟨s, hs, hp⟩ := findIdx?_some_getElem h
  obtain rfl : s = t := by simpa using hp
  refine ⟨⟨i, s.tx, s.ty, (tileToWorldCenter m s.tx s.ty).1,
    (tileToWorldCenter m s.tx s.ty).2⟩, ?_, rfl, rfl, rfl⟩
  rw [buildNodes, List.getElem?_map, List.getElem?_enum, hs]
  rfl

theorem mem_buildNodes {m : GameMap} {rt : Nat} {n : Node} (h : n ∈ buildNodes m rt) :
    (buildNodes m rt)[n.id]? = some n ∧ isRoadB m rt n.tx n.ty = true := by
  obtain ⟨j, hj⟩ := List.mem_iff_getElem?.mp h
  obtain ⟨hid, htile⟩ := buildNodes_getElem? hj
  subst hid
  refine ⟨hj, ?_⟩
  have hmem : (⟨n.tx, n.ty⟩ : Tile) ∈ nodeTiles m rt := List.getElem?_mem htile
  rw [nodeTiles, List.mem_filter] at hmem
  have := hmem.2
  rw [isNodeTile, Bool.and_eq_true] at this
  exact this.1

theorem addEdge_dirEdges_sub (m : GameMap) (st : EdgeState) (fromId toId : Nat)
    (tiles : List Tile) (d : Dir) :
    ∀ e ∈ st.dirEdges, e ∈ (addEdge m st fromId toId tiles d).dirEdges := by
  intro e he
  unfold addEdge
  split <;> dsimp only <;> exact List.mem_append_left _ he

theorem addEdge_new_mem (m : GameMap) (st : EdgeState) (fromId toId : Nat)
    (tiles : List Tile) (d : Dir) :
    ∃ uid, (⟨st.dirEdges.length, fromId, toId, tiles, segCost tiles, d.dx, d.dy,
      segmentLaneCount m tiles, uid⟩ : DirEdge) ∈
        (addEdge m st fromId toId tiles d).dirEdges := by
  unfold addEdge
  split
  · next uid _ => exact ⟨uid, by dsimp only; exact List.mem_append_right _ (by simp)⟩
  · exact ⟨st.undirEdges.length, by dsimp only; exact List.mem_append_right _ (by simp)⟩

theorem addEdge_undirEdges_mem (m : GameMap) (st : EdgeState) (fromId toId : Nat)
    (tiles : List Tile) (d : Dir) :
    ∀ u ∈ (addEdge m st fromId toId tiles d).undirEdges,
      (∃ u0 ∈ st.undirEdges, u.u = u0.u ∧ u.v = u0.v) ∨
      (u.u = min fromId toId ∧ u.v = max fromId toId) := by
  intro u hu
  unfold addEdge at hu
  split at hu
  · dsimp only at hu
    split at hu
    · next u0 hget =>
      rcases List.mem_or_eq_of_mem_set hu with hmem | hnew
      · exact Or.inl ⟨u, hmem, rfl, rfl⟩
      · subst hnew
        exact Or.inl ⟨u0, List.getElem?_mem hget, rfl, rfl⟩
    · exact Or.inl ⟨u, hu, rfl, rfl⟩
  · dsimp only at hu
    simp only [List.mem_append, List.mem_singleton] at hu
    rcases hu with hu | hu
    · exact Or.inl ⟨u, hu, rfl, rfl⟩
    · subst hu
      exact Or.inr ⟨rfl, rfl⟩

/-- Well-formedness properties carried through pass 2. -/
def EdgeInv (m : GameMap) (rt : Nat) (st : EdgeState) : Prop :=
  (∀ e ∈ st.dirEdges,
    (∀ t ∈ e.tiles, isRoadB m rt t.tx t.ty = true) ∧
    List.Chain' adjTile e.tiles ∧
    (∃ nf, (buildNodes m rt)[e.fromId]? = some nf ∧
      e.tiles.head? = some ⟨nf.tx, nf.ty⟩) ∧
    (∃ nt, (buildNodes m rt)[e.toId]? = some nt ∧
      e.tiles.getLast? = some ⟨nt.tx, nt.ty⟩)) ∧
  (∀ u ∈ st.undirEdges, ∃ e ∈ st.dirEdges,
    (u.u = e.fromId ∧ u.v = e.toId) ∨ (u.u = e.toId ∧ u.v = e.fromId))

theorem buildEdges_inv (m : GameMap) (rt : Nat) :
    EdgeInv m rt (buildEdges m rt (buildNodes m rt)) := by
  rw [buildEdges]
  refine foldl_invariant (EdgeInv m rt) _ _ _
    ⟨fun e he => absurd he (List.not_mem_nil e),
     fun u hu => absurd hu (List.not_mem_nil u)⟩ ?_
  intro st n hn hst
  refine foldl_invariant (EdgeInv m rt) _ _ _ hst ?_
  intro st2 d hd hst2
  rw [processDir]
  split
  all_goals try exact hst2
  split
  all_goals try exact hst2
  next tiles nid hwalk =>
  split
  all_goals try exact hst2
  obtain ⟨k, hts, hroad, hnode, hnid⟩ := processDir_tiles hwalk
  obtain ⟨hnget, hnroad⟩ := mem_buildNodes hn
  obtain ⟨nt, htget, htid, httx, htty⟩ := nodeIdOf_node hnode
  constructor
  · intro e he
    rcases addEdge_dirEdges_mem m st2 _ _ _ _ e he with hmem | ⟨uid, rfl⟩
    · exact hst2.1 e hmem
    · refine ⟨?_, ?_, ?_, ?_⟩
      · intro t ht
        rw [hts] at ht
        simp only [List.mem_map, List.mem_range] at ht
        obtain ⟨i, hik, rfl⟩ := ht
        cases i with
        | zero => rw [ptAt_zero]; exact hnroad
        | succ i => exact hroad (i + 1) (by omega) (by omega)
      · rw [hts]
        exact chain'_ptAt hd n.tx n.ty (k + 2)
      · refine ⟨n, hnget, ?_⟩
        rw [hts, map_ptAt_succ]
        rfl
      · refine ⟨nt, htget, ?_⟩
        rw [hts, List.getLast?_eq_getElem?]
        have hlen : ((List.range (k + 2)).map (ptAt n.tx n.ty d)).length - 1 = k + 1 := by
          rw [List.length_map, List.length_range]
          omega
        rw [hlen, List.getElem?_map, List.getElem?_range (by omega : k + 1 < k + 2)]
        rw [httx, htty]
        rfl
  · intro u hu
    rcases addEdge_undirEdges_mem m st2 _ _ _ _ u hu with ⟨u0, hu0, huu, huv⟩ | ⟨huu, huv⟩
    · obtain ⟨e0, he0, hpair⟩ := hst2.2 u0 hu0
      exact ⟨e0, addEdge_dirEdges_sub m st2 _ _ _ _ e0 he0, by
        rw [huu, huv]; exact hpair⟩
    · obtain ⟨uid, hnew⟩ := addEdge_new_mem m st2 n.id nid tiles d
      refine ⟨_, hnew, ?_⟩
      rw [huu, huv]
      rcases Nat.le_total n.id nid with hle | hle
      · exact Or.inl ⟨by simp [Nat.min_eq_left hle], by simp [Nat.max_eq_right hle]⟩
      · exact Or.inr ⟨by simp [Nat.min_eq_right hle], by simp [Nat.max_eq_left hle]⟩

/-- C3: every DirectedEdge's tiles list is a chain of 4-adjacent road tiles
beginning at the from node's tile and ending at the to node's tile, and every
UndirectedEdge's unordered endpoint pair equals the endpoint pair of at least
one DirectedEdge. -/
theorem graph_well_formed (m : GameMap) (rt : Nat) :
    (∀ e ∈ (buildRoadGraph m rt).dirEdges,
      (∀ t ∈ e.tiles, isRoadB m rt t.tx t.ty = true) ∧
      List.Chain' adjTile e.tiles ∧
      (∃ nf ∈ (buildRoadGraph m rt).nodes, nf.id = e.fromId ∧
        e.tiles.head? = some ⟨nf.tx, nf.ty⟩) ∧
      (∃ nt ∈ (buildRoadGraph m rt).nodes, nt.id = e.toId ∧
        e.tiles.getLast? = some ⟨nt.tx, nt.ty⟩)) ∧
    (∀ u ∈ (buildRoadGraph m rt).undirEdges, ∃ e ∈ (buildRoadGraph m rt).dirEdges,
      (u.u = e.fromId ∧ u.v = e.toId) ∨ (u.u = e.toId ∧ u.v = e.fromId)) := by
  have hinv := buildEdges_inv m rt
  constructor
  · intro e he
    rw [buildRoadGraph_dirEdges] at he
    obtain ⟨hroadt, hchain, ⟨nf, hfget, hfhead⟩, ⟨nt, htget, htlast⟩⟩ := hinv.1 e he
    refine ⟨hroadt, hchain, ⟨nf, ?_, (buildNodes_getElem? hfget).1, hfhead⟩,
      ⟨nt, ?_, (buildNodes_getElem? htget).1, htlast⟩⟩
    · rw [buildRoadGraph_nodes]
      exact List.getElem?_mem hfget
    · rw [buildRoadGraph_nodes]
      exact List.getElem?_mem htget
  · intro u hu
    rw [buildRoadGraph_undirEdges] at hu
    simp only [List.map_map, List.mem_map, Function.comp] at hu
    obtain ⟨u0, hu0, rfl⟩ := hu
    obtain ⟨e0, he0, hpair⟩ := hinv.2 u0 hu0
    refine ⟨e0, by rw [buildRoadGraph_dirEdges]; exact he0, ?_⟩
    rcases hpair with ⟨h1, h2⟩ | ⟨h1, h2⟩
    · refine Or.inl ⟨?_, ?_⟩ <;> dsimp only <;> (repeat' split) <;> simp [h1, h2]
    · refine Or.inr ⟨?_, ?_⟩ <;> dsimp only <;> (repeat' split) <;> simp [h1, h2]

/-- Witness for C3 on the corridor graph: the eastbound edge runs from node 0
to node 1 and the single undirected edge matches it. -/
theorem graph_well_formed_witness :
    List.Chain' adjTile [Tile.mk 0 0, Tile.mk 1 0, Tile.mk 2 0] ∧
    (∃ e ∈ (buildRoadGraph nodeOneWayMap 2).dirEdges,
      (0 = e.fromId ∧ 1 = e.toId) ∨ (0 = e.toId ∧ 1 = e.fromId)) := by
  have h := graph_well_formed nodeOneWayMap 2
  have hu : (⟨0, 0, 1, 2, true, 2, [0, 1]⟩ : UndirEdge) ∈
      (buildRoadGraph nodeOneWayMap 2).undirEdges := by decide
  obtain ⟨e, he, hpair⟩ := h.2 _ hu
  refine ⟨?_, ⟨e, he, hpair⟩⟩
  have he0 : (⟨0, 0, 1, [⟨0, 0⟩, ⟨1, 0⟩, ⟨2, 0⟩], 2, 1, 0, 1, 0⟩ : DirEdge) ∈
      (buildRoadGraph nodeOneWayMap 2).dirEdges := by decide
  exact ((h.1 _ he0).2.1 : List.Chain' adjTile [⟨0, 0⟩, ⟨1, 0⟩, ⟨2, 0⟩])

/-! Claim C5: interception selection with equal ETAs. -/

/-- Fixed data of one pickSmartInterceptNode run. -/
structure ICtx where
  m : GameMap
  copCosts : Nat → Option ℚ
  cum : List ℚ
  route : List Nat
  pSpeed : ℚ
  cSpeed : ℚ

/-- Score of route index i, none when the candidate is skipped (unreachable
pursuer or target ETA below the 1.2 second threshold). -/
def icScore (c : ICtx) (i : Nat) : Option ℚ :=
  match c.copCosts (c.route.getD i 0) with
  | none => none
  | some copCost =>
    if estimateETASeconds (c.cum.getD i 0) c.pSpeed c.m < 1.2 then none
    else
      some (|estimateETASeconds copCost c.cSpeed c.m -
          estimateETASeconds (c.cum.getD i 0) c.pSpeed c.m| +
        if 0 < estimateETASeconds copCost c.cSpeed c.m -
            estimateETASeconds (c.cum.getD i 0) c.pSpeed c.m then
          (estimateETASeconds copCost c.cSpeed c.m -
            estimateETASeconds (c.cum.getD i 0) c.pSpeed c.m) * 2.2
        else 0)

/-- One step of the candidate loop in terms of icScore. -/
def icStep (c : ICtx) (best : Option Nat × Option ℚ) (i : Nat) :
    Option Nat × Option ℚ :=
  match icScore c i with
  | none => best
  | some s =>
    match best.2 with
    | none => (some (c.route.getD i 0), some s)
    | some bs => if s < bs then (some (c.route.getD i 0), some s) else best

theorem icScore_nonneg (c : ICtx) (i : Nat) (s : ℚ) (h : icScore c i = some s) :
    0 ≤ s := by
  rw [icScore] at h
  split at h
  · exact absurd h (by simp)
  · next cc hcc =>
    split at h
    · exact absurd h (by simp)
    · obtain rfl := Option.some.inj h
      set d := estimateETASeconds cc c.cSpeed c.m -
        estimateETASeconds (c.cum.getD i 0) c.pSpeed c.m with hd
      have h1 : (0 : ℚ) ≤ |d| := abs_nonneg d
      split
      · next hpos => nlinarith
      · linarith

theorem icScore_zero (c : ICtx) (j : Nat) (h : icScore c j = some 0) :
    ∃ cc, c.copCosts (c.route.getD j 0) = some cc ∧
      estimateETASeconds cc c.cSpeed c.m =
        estimateETASeconds (c.cum.getD j 0) c.pSpeed c.m := by
  rw [icScore] at h
  split at h
  · exact absurd h (by simp)
  · next cc hcc =>
    split at h
    · exact absurd h (by simp)
    · refine ⟨cc, hcc, ?_⟩
      have h0 := Option.some.inj h
      set d := estimateETASeconds cc c.cSpeed c.m -
        estimateETASeconds (c.cum.getD j 0) c.pSpeed c.m with hd
      have habs : (0 : ℚ) ≤ |d| := abs_nonneg d
      have hd0 : d = 0 := by
        by_cases hpos : 0 < d
        · rw [if_pos hpos] at h0
          have h2 : |d| = d := abs_of_pos hpos
          nlinarith
        · rw [if_neg hpos] at h0
          have h2 : |d| = 0 := by linarith
          exact abs_eq_zero.mp h2
      linarith [sub_eq_zero.mp hd0]

/-- Invariant of the candidate fold: either nothing viable was seen, or best
holds a viable minimum of everything seen. -/
def ICInv (c : ICtx) (seen : List Nat) (best : Option Nat × Option ℚ) : Prop :=
  (best = (none, none) ∧ ∀ i ∈ seen, icScore c i = none) ∨
  (∃ nid bs j, best = (some nid, some bs) ∧ j ∈ seen ∧ icScore c j = some bs ∧
    c.route.getD j 0 = nid ∧ ∀ i ∈ seen, ∀ s, icScore c i = some s → bs ≤ s)

theorem icStep_inv (c : ICtx) (seen : List Nat) (best : Option Nat × Option ℚ)
    (i : Nat) (h : ICInv c seen best) : ICInv c (seen ++ [i]) (icStep c best i) := by
  rcases hsc : icScore c i with _ | s
  · rcases h with ⟨hb, hall⟩ | ⟨nid, bs, j, hb, hj, hsj, hnid, hmin⟩
    · refine Or.inl ⟨by rw [icStep, hsc]; exact hb, ?_⟩
      intro i2 hi2
      rcases List.mem_append.mp hi2 with h2 | h2
      · exact hall i2 h2
      · obtain rfl := List.mem_singleton.mp h2
        exact hsc
    · refine Or.inr ⟨nid, bs, j, by rw [icStep, hsc]; exact hb,
        List.mem_append_left _ hj, hsj, hnid, ?_⟩
      intro i2 hi2 s2 hs2
      rcases List.mem_append.mp hi2 with h2 | h2
      · exact hmin i2 h2 s2 hs2
      · obtain rfl := List.mem_singleton.mp h2
        rw [hsc] at hs2
        exact absurd hs2 (by simp)
  · rcases h with ⟨hb, hall⟩ | ⟨nid, bs, j, hb, hj, hsj, hnid, hmin⟩
    · refine Or.inr ⟨c.route.getD i 0, s, i, ?_, List.mem_append_right _ (by simp),
        hsc, rfl, ?_⟩
      · rw [icStep, hsc, hb]
      · intro i2 hi2 s2 hs2
        rcases List.mem_append.mp hi2 with h2 | h2
        · rw [hall i2 h2] at hs2
          exact absurd hs2 (by simp)
        · obtain rfl := List.mem_singleton.mp h2
          rw [hsc] at hs2
          obtain rfl := Option.some.inj hs2
          exact le_refl s
    · by_cases hlt : s < bs
      · refine Or.inr ⟨c.route.getD i 0, s, i, ?_, List.mem_append_right _ (by simp),
          hsc, rfl, ?_⟩
        · rw [icStep, hsc, hb]
          simp [hlt]
        · intro i2 hi2 s2 hs2
          rcases List.mem_append.mp hi2 with h2 | h2
          · exact le_of_lt (lt_of_lt_of_le hlt (hmin i2 h2 s2 hs2))
          · obtain rfl := List.mem_singleton.mp h2
            rw [hsc] at hs2
            obtain rfl := Option.some.inj hs2
            exact le_refl s
      · refine Or.inr ⟨nid, bs, j, ?_, List.mem_append_left _ hj, hsj, hnid, ?_⟩
        · rw [icStep, hsc, hb]
          simp [hlt]
        · intro i2 hi2 s2 hs2
          rcases List.mem_append.mp hi2 with h2 | h2
          · exact hmin i2 h2 s2 hs2
          · obtain rfl := List.mem_singleton.mp h2
            rw [hsc] at hs2
            obtain rfl := Option.some.inj hs2
            exact le_of_not_lt hlt

theorem icFold_inv (c : ICtx) (L : List Nat) :
    ∀ seen best, ICInv c seen best → ICInv c (seen ++ L) (L.foldl (icStep c) best) := by
  induction L with
  | nil => intro seen best h; simpa using h
  | cons x xs ih =>
    intro seen best h
    have h2 := icStep_inv c seen best x h
    have h3 := ih (seen ++ [x]) (icStep c best x) h2
    simpa using h3

theorem foldl_congr_fun {α β : Type} (L : List α) (f g : β → α → β) (b : β)
    (h : ∀ x a, f x a = g x a) : L.foldl f b = L.foldl g b := by
  induction L generalizing b with
  | nil => rfl
  | cons x xs ih => simp only [List.foldl_cons, h]; exact ih (g b x)

theorem mem_drop2_range {i n : Nat} : i ∈ (List.range n).drop 2 ↔ 2 ≤ i ∧ i < n := by
  constructor
  · intro h
    obtain ⟨k, hk⟩ := List.mem_iff_getElem?.mp h
    rw [List.getElem?_drop] at hk
    by_cases hlt : 2 + k < n
    · rw [List.getElem?_range hlt] at hk
      obtain rfl := Option.some.inj hk
      omega
    · rw [List.getElem?_eq_none (by simpa using hlt)] at hk
      exact absurd hk (by simp)
  · rintro ⟨h2, hn⟩
    refine List.mem_iff_getElem?.mpr ⟨i - 2, ?_⟩
    rw [List.getElem?_drop]
    have he : 2 + (i - 2) = i := by omega
    rw [he, List.getElem?_range hn]

/-- C5: when some route candidate (index at least 2, target ETA at least the
1.2-second threshold, pursuer-reachable) has the pursuer's cost-table value
equal to the target's cumulative route cost and both speed estimates are
equal, the planner returns a node whose pursuer and target ETAs are equal
(score 0), in preference to every candidate with differing ETAs. -/
theorem intercept_equal_eta_zero_score (m : GameMap) (copWx copWy : ℚ)
    (route : List Nat) (pSpeed cSpeed : ℚ) (copNode i0 : Nat)
    (hlen : 3 ≤ route.length)
    (hsnap : snapWorldToNearestRoadNode m copWx copWy 14 = some copNode)
    (hi0lo : 2 ≤ i0) (hi0hi : i0 < route.length)
    (hcost : dijkstraCosts (ensureRoadGraph m) copNode 12000 (route.getD i0 0) =
      some ((cumCosts (ensureRoadGraph m) route).getD i0 0))
    (hspeed : pSpeed = cSpeed)
    (heta : ¬ estimateETASeconds ((cumCosts (ensureRoadGraph m) route).getD i0 0)
      pSpeed m < 1.2) :
    ∃ sel, pickSmartInterceptNode m copWx copWy route pSpeed cSpeed = some sel ∧
      ∃ i, 2 ≤ i ∧ i < route.length ∧ route.getD i 0 = sel ∧
        ∃ cc, dijkstraCosts (ensureRoadGraph m) copNode 12000 (route.getD i 0) =
            some cc ∧
          estimateETASeconds cc cSpeed m =
            estimateETASeconds ((cumCosts (ensureRoadGraph m) route).getD i 0)
              pSpeed m := by
  have hnotlt : ¬ route.length < 3 := by omega
  set c : ICtx := ⟨m, dijkstraCosts (ensureRoadGraph m) copNode 12000,
    cumCosts (ensureRoadGraph m) route, route, pSpeed, cSpeed⟩ with hc
  have hcop : c.copCosts = dijkstraCosts (ensureRoadGraph m) copNode 12000 := rfl
  have hcum : c.cum = cumCosts (ensureRoadGraph m) route := rfl
  have hroute : c.route = route := rfl
  have hscore0 : icScore c i0 = some 0 := by
    rw [icScore, hcop, hcum, hroute, hcost]
    show (if estimateETASeconds ((cumCosts (ensureRoadGraph m) route).getD i0 0)
        c.pSpeed c.m < 1.2 then _ else _) = _
    rw [if_neg heta]
    show some (|estimateETASeconds ((cumCosts (ensureRoadGraph m) route).getD i0 0)
        c.cSpeed c.m - estimateETASeconds ((cumCosts (ensureRoadGraph m) route).getD i0 0)
        c.pSpeed c.m| + _) = some 0
    have hcs : c.cSpeed = cSpeed := rfl
    have hps : c.pSpeed = pSpeed := rfl
    rw [hcs, hps, hspeed]
    norm_num
  have hmem0 : i0 ∈ (List.range route.length).drop 2 :=
    mem_drop2_range.mpr ⟨hi0lo, hi0hi⟩
  have hinv := icFold_inv c ((List.range route.length).drop 2) [] (none, none)
    (Or.inl ⟨rfl, by simp⟩)
  rw [List.nil_append] at hinv
  rcases hinv with ⟨hb, hall⟩ | ⟨nid, bs, j, hb, hj, hsj, hnid, hmin⟩
  · exact absurd (hall i0 hmem0) (by rw [hscore0]; simp)
  · have hble : bs ≤ 0 := hmin i0 hmem0 0 hscore0
    have hbge : 0 ≤ bs := icScore_nonneg c j bs hsj
    have hbs0 : bs = 0 := le_antisymm hble hbge
    subst hbs0
    obtain ⟨cc, hccj, hetaj⟩ := icScore_zero c j hsj
    obtain ⟨hjlo, hjhi⟩ := mem_drop2_range.mp hj
    refine ⟨nid, ?_, j, hjlo, hjhi, hnid, cc, hccj, hetaj⟩
    rw [pickSmartInterceptNode]
    simp only []
    rw [if_neg hnotlt, hsnap]
    show (((List.range route.length).drop 2).foldl _ (none, none)).1 = some nid
    have hstep : ∀ (best : Option Nat × Option ℚ) (i : Nat),
        (fun (best : Option Nat × Option ℚ) (i : Nat) =>
          match (dijkstraCosts (ensureRoadGraph m) copNode 12000)
              (route.getD i 0) with
          | none => best
          | some copCost =>
            if estimateETASeconds ((cumCosts (ensureRoadGraph m) route).getD i 0)
                pSpeed m < 1.2 then best
            else
              match best.2 with
              | none => (some (route.getD i 0),
                  some (|estimateETASeconds copCost cSpeed m -
                      estimateETASeconds
                        ((cumCosts (ensureRoadGraph m) route).getD i 0) pSpeed m| +
                    if 0 < estimateETASeconds copCost cSpeed m -
                        estimateETASeconds
                          ((cumCosts (ensureRoadGraph m) route).getD i 0) pSpeed m then
                      (estimateETASeconds copCost cSpeed m -
                        estimateETASeconds
                          ((cumCosts (ensureRoadGraph m) route).getD i 0) pSpeed m) * 2.2
                    else 0))
              | some bs2 =>
                if (|estimateETASeconds copCost cSpeed m -
                      estimateETASeconds
                        ((cumCosts (ensureRoadGraph m) route).getD i 0) pSpeed m| +
                    if 0 < estimateETASeconds copCost cSpeed m -
                        estimateETASeconds
                          ((cumCosts (ensureRoadGraph m) route).getD i 0) pSpeed m then
                      (estimateETASeconds copCost cSpeed m -
                        estimateETASeconds
                          ((cumCosts (ensureRoadGraph m) route).getD i 0) pSpeed m) * 2.2
                    else 0) < bs2 then
                  (some (route.getD i 0),
                    some (|estimateETASeconds copCost cSpeed m -
                        estimateETASeconds
                          ((cumCosts (ensureRoadGraph m) route).getD i 0) pSpeed m| +
                      if 0 < estimateETASeconds copCost cSpeed m -
                          estimateETASeconds
                            ((cumCosts (ensureRoadGraph m) route).getD i 0) pSpeed m then
                        (estimateETASeconds copCost cSpeed m -
                          estimateETASeconds
                            ((cumCosts (ensureRoadGraph m) route).getD i 0) pSpeed m) * 2.2
                      else 0))
                else best) best i = icStep c best i := by
      intro best i
      rw [icStep, icScore, hcop, hcum, hroute]
      dsimp only
      rcases hcc : dijkstraCosts (ensureRoadGraph m) copNode 12000 (route.getD i 0)
        with _ | cc2
      · rfl
      · dsimp only
        by_cases hlt : estimateETASeconds ((cumCosts (ensureRoadGraph m) route).getD i 0)
            pSpeed m < 1.2
        · rw [if_pos hlt, if_pos hlt]
        · rw [if_neg hlt, if_neg hlt]
    rw [foldl_congr_fun _ _ (icStep c) (none, none) hstep, hb]

set_option maxRecDepth 40000 in
/-- C5 witness: on the L-shaped map with the pursuer at the first node, route
[0, 1, 2] and equal speeds, the planner selects node 2, whose pursuer ETA
equals the target's cumulative-cost ETA. -/
theorem intercept_equal_eta_zero_score_witness :
    ∃ sel, pickSmartInterceptNode elMap 32 32 [0, 1, 2] 40 40 = some sel ∧
      ∃ i, 2 ≤ i ∧ i < ([0, 1, 2] : List Nat).length ∧
        ([0, 1, 2] : List Nat).getD i 0 = sel ∧
        ∃ cc, dijkstraCosts (ensureRoadGraph elMap) 0 12000
            (([0, 1, 2] : List Nat).getD i 0) = some cc ∧
          estimateETASeconds cc 40 elMap =
            estimateETASeconds ((cumCosts (ensureRoadGraph elMap) [0, 1, 2]).getD i 0)
              40 elMap :=
  intercept_equal_eta_zero_score elMap 32 32 [0, 1, 2] 40 40 0 2
    (by decide) (by decide) (by decide) (by decide) (by decide) rfl (by decide)

/-! Claim C1: A* admissibility.  Development part 1: exact correctness of the
symbolic f-score comparison against the real-number ordering. -/

/-- Real value of a symbolic f-score (gScore plus Euclidean heuristic). -/
noncomputable def fval (p : ℚ × ℕ) : ℝ := (p.1 : ℝ) + Real.sqrt (p.2 : ℕ)

set_option maxHeartbeats 1000000 in
theorem sqrtLtB_iff (na : ℕ) (c : ℚ) (nb : ℕ) :
    sqrtLtB na c nb = true ↔
      Real.sqrt (na : ℝ) < (c : ℝ) + Real.sqrt (nb : ℝ) := by
  have hA0 : (0:ℝ) ≤ Real.sqrt (na : ℝ) := Real.sqrt_nonneg _
  have hB0 : (0:ℝ) ≤ Real.sqrt (nb : ℝ) := Real.sqrt_nonneg _
  have hA2 : Real.sqrt (na:ℝ) ^ 2 = (na:ℝ) := Real.sq_sqrt (by positivity)
  have hB2 : Real.sqrt (nb:ℝ) ^ 2 = (nb:ℝ) := Real.sq_sqrt (by positivity)
  set A := Real.sqrt (na:ℝ) with hA
  set B := Real.sqrt (nb:ℝ) with hB
  rw [sqrtLtB]
  by_cases hc : 0 ≤ c
  · rw [if_pos hc]
    have hcR : (0:ℝ) ≤ (c:ℝ) := by exact_mod_cast hc
    by_cases ht : (na : ℚ) - c ^ 2 - (nb : ℚ) < 0
    · rw [if_pos ht]
      have htR : (na:ℝ) - (c:ℝ)^2 - (nb:ℝ) < 0 := by exact_mod_cast ht
      refine iff_of_true rfl ?_
      have hpos : (0:ℝ) < (c:ℝ) + B := by nlinarith
      nlinarith [sq_nonneg (A + (c:ℝ) + B), sq_nonneg (A - (c:ℝ) - B)]
    · rw [if_neg ht, decide_eq_true_iff]
      have htR : (0:ℝ) ≤ (na:ℝ) - (c:ℝ)^2 - (nb:ℝ) := by
        have h2 := not_lt.mp ht
        exact_mod_cast h2
      constructor
      · intro h
        have hR : ((na:ℝ) - (c:ℝ)^2 - (nb:ℝ))^2 < 4*(c:ℝ)^2*(nb:ℝ) := by
          exact_mod_cast h
        have h2cB : (0:ℝ) ≤ 2*(c:ℝ)*B := by positivity
        have hlt : (na:ℝ) - (c:ℝ)^2 - (nb:ℝ) < 2*(c:ℝ)*B := by
          nlinarith
        have hsq : (na:ℝ) < ((c:ℝ) + B)^2 := by nlinarith
        nlinarith [sq_nonneg (A - (c:ℝ) - B), sq_nonneg (A + (c:ℝ) + B)]
      · intro h
        have hlt : (na:ℝ) < ((c:ℝ) + B)^2 := by nlinarith
        have h2 : (na:ℝ) - (c:ℝ)^2 - (nb:ℝ) < 2*(c:ℝ)*B := by nlinarith
        have h3 : ((na:ℝ) - (c:ℝ)^2 - (nb:ℝ))^2 < 4*(c:ℝ)^2*(nb:ℝ) := by
          nlinarith
        exact_mod_cast h3
  · rw [if_neg hc, decide_eq_true_iff]
    have hcR : (c:ℝ) < 0 := by exact_mod_cast not_le.mp hc
    constructor
    · rintro ⟨hs, hsq⟩
      have hsR : (0:ℝ) < (nb:ℝ) - (na:ℝ) - (c:ℝ)^2 := by exact_mod_cast hs
      have hsqR : 4*(c:ℝ)^2*(na:ℝ) < ((nb:ℝ) - (na:ℝ) - (c:ℝ)^2)^2 := by
        exact_mod_cast hsq
      have h2A : (0:ℝ) ≤ 2*(-(c:ℝ))*A := by nlinarith
      have hstep : 2*(-(c:ℝ))*A < (nb:ℝ) - (na:ℝ) - (c:ℝ)^2 := by
        nlinarith
      have hACB : (A - (c:ℝ))^2 < (nb:ℝ) := by nlinarith
      have hAC0 : (0:ℝ) < A - (c:ℝ) := by nlinarith
      nlinarith [sq_nonneg (A - (c:ℝ) - B), sq_nonneg (A - (c:ℝ) + B)]
    · intro h
      have hAC0 : (0:ℝ) < A - (c:ℝ) := by nlinarith
      have hBgt : A - (c:ℝ) < B := by nlinarith
      have hB2gt : (A - (c:ℝ))^2 < (nb:ℝ) := by nlinarith
      have h4 : 2*(-(c:ℝ))*A < (nb:ℝ) - (na:ℝ) - (c:ℝ)^2 := by nlinarith
      have h5 : (0:ℝ) ≤ 2*(-(c:ℝ))*A := by nlinarith
      have hsR : (0:ℝ) < (nb:ℝ) - (na:ℝ) - (c:ℝ)^2 := by nlinarith
      have hsqR : 4*(c:ℝ)^2*(na:ℝ) < ((nb:ℝ) - (na:ℝ) - (c:ℝ)^2)^2 := by
        nlinarith [mul_lt_mul'' h4 h4 h5 h5]
      exact ⟨by exact_mod_cast hsR, by exact_mod_cast hsqR⟩

theorem fLt_iff (a b : ℚ × ℕ) : fLt a b = true ↔ fval a < fval b := by
  rw [fLt, sqrtLtB_iff, fval, fval]
  constructor <;> intro h <;> [skip; skip] <;> · push_cast at h ⊢; linarith

theorem aLt_iff (a b : AEntry) : aLt a b = true ↔ fval a.f < fval b.f := by
  rw [aLt, fLt_iff]

/-! C1 development part 2: binary-heap correctness for an arbitrary strict
comparison that mirrors a real-valued ordering. -/

theorem listSwap_getD {α : Type} [Inhabited α] (a : List α) (i j k : Nat)
    (hi : i < a.length) (hj : j < a.length) :
    (listSwap a i j).getD k default =
      if k = j then a.getD i default
      else if k = i then a.getD j default
      else a.getD k default := by
  simp only [listSwap, List.getD_eq_getElem?_getD, List.getElem?_set, List.length_set]
  by_cases hkj : k = j
  · rw [if_pos hkj.symm, if_pos (hkj ▸ hj), if_pos hkj]
    rfl
  · rw [if_neg (fun h => hkj h.symm), if_neg hkj]
    by_cases hki : k = i
    · rw [if_pos hki.symm, if_pos (hki ▸ hi), if_pos hki]
      rfl
    · rw [if_neg (fun h => hki h.symm), if_neg hki]

theorem listSwap_perm {α : Type} [Inhabited α] [DecidableEq α] (a : List α)
    (i j : Nat) (hi : i < a.length) (hj : j < a.length) :
    (listSwap a i j).Perm a := by
  rw [List.perm_iff_count]
  intro x
  rw [listSwap, List.getD_eq_getElem a default hj, List.getD_eq_getElem a default hi]
  rw [List.count_set a[i] x (a.set i a[j]) j (by simpa using hj)]
  rw [List.count_set a[j] x a i hi]
  have hjs : j < (a.set i a[j]).length := by simpa using hj
  have hset : (a.set i a[j])[j] = a[j] := by
    rw [List.getElem_set]
    split_ifs <;> rfl
  rw [hset]
  have hci : a[i] = x → 1 ≤ List.count x a := fun h =>
    List.count_pos_iff.mpr (h ▸ List.getElem_mem hi)
  have hcj : a[j] = x → 1 ≤ List.count x a := fun h =>
    List.count_pos_iff.mpr (h ▸ List.getElem_mem hj)
  by_cases h1 : a[i] = x <;> by_cases h2 : a[j] = x <;> simp_all <;> omega

theorem listSwap_mem {α : Type} [Inhabited α] [DecidableEq α] (a : List α)
    (i j : Nat) (hi : i < a.length) (hj : j < a.length) (x : α) :
    x ∈ listSwap a i j ↔ x ∈ a :=
  (listSwap_perm a i j hi hj).mem_iff


/-- Binary-heap shape with respect to a real valuation: no child is below its
parent. -/
def IsHeapV {α : Type} [Inhabited α] (val : α → ℝ) (a : List α) : Prop :=
  ∀ j, 0 < j → j < a.length →
    val (a.getD ((j - 1) / 2) default) ≤ val (a.getD j default)

theorem heap_root_min {α : Type} [Inhabited α] (val : α → ℝ) (a : List α)
    (h : IsHeapV val a) :
    ∀ j, j < a.length → val (a.getD 0 default) ≤ val (a.getD j default) := by
  intro j
  induction j using Nat.strong_induction_on with
  | _ j ih =>
    intro hj
    rcases Nat.eq_zero_or_pos j with rfl | hpos
    · exact le_refl _
    · exact le_trans (ih ((j - 1) / 2) (by omega) (by omega)) (h j hpos hj)

/-- Sift-up intermediate shape: heap everywhere except that position i may be
below its parent, and the children of i are bounded by i's parent. -/
def UpInv {α : Type} [Inhabited α] (val : α → ℝ) (a : List α) (i : Nat) : Prop :=
  (∀ j, 0 < j → j < a.length → j ≠ i →
    val (a.getD ((j - 1) / 2) default) ≤ val (a.getD j default)) ∧
  (∀ j, 0 < j → j < a.length → (j - 1) / 2 = i → 0 < i →
    val (a.getD ((i - 1) / 2) default) ≤ val (a.getD j default))

theorem heapUpFuel_perm {α : Type} [Inhabited α] [DecidableEq α]
    (lt : α → α → Bool) :
    ∀ (fuel : Nat) (a : List α) (i : Nat), i < a.length →
      (heapUpFuel lt fuel a i).Perm a := by
  intro fuel
  induction fuel with
  | zero => intro a i _; exact List.Perm.refl a
  | succ fuel ih =>
    intro a i hi
    rw [heapUpFuel]
    by_cases h0 : i = 0
    · rw [if_pos h0]
    · rw [if_neg h0]
      dsimp only
      split
      · have hp : (i - 1) / 2 < a.length := by omega
        exact ((ih _ _ (by rw [listSwap_length]; omega)).trans
          (listSwap_perm a i ((i - 1) / 2) hi hp))
      · exact List.Perm.refl a

theorem heapUpFuel_isHeap {α : Type} [Inhabited α] (lt : α → α → Bool)
    (val : α → ℝ) (hlt : ∀ x y, lt x y = true ↔ val x < val y) :
    ∀ (fuel : Nat) (a : List α) (i : Nat), i < a.length → i + 1 ≤ fuel →
      UpInv val a i → IsHeapV val (heapUpFuel lt fuel a i) := by
  intro fuel
  induction fuel with
  | zero => intro a i _ hf; omega
  | succ fuel ih =>
    intro a i hi hf hinv
    rw [heapUpFuel]
    by_cases h0 : i = 0
    · rw [if_pos h0]
      intro j hj hjl
      exact hinv.1 j hj hjl (by omega)
    · rw [if_neg h0]
      dsimp only
      set p := (i - 1) / 2 with hp
      have hpl : p < a.length := by omega
      have hpi : p < i := by omega
      split
      · next hltc =>
        have hvlt : val (a.getD i default) < val (a.getD p default) :=
          (hlt _ _).mp hltc
        refine ih (listSwap a i p) p (by rw [listSwap_length]; omega) (by omega) ?_
        have hget := fun k => listSwap_getD a i p k hi hpl
        constructor
        · intro j hj hjl hjp
          rw [listSwap_length] at hjl
          rw [hget j, hget ((j - 1) / 2)]
          by_cases hji : j = i
          · rw [if_neg hjp, if_pos hji]
            rw [if_pos (show (j - 1) / 2 = p by omega)]
            exact le_of_lt hvlt
          · rw [if_neg hjp, if_neg hji]
            by_cases hpj : (j - 1) / 2 = p
            · rw [if_pos hpj]
              refine le_trans (le_of_lt hvlt) ?_
              have h2 := hinv.1 j hj hjl hji
              rw [hpj] at h2
              exact h2
            · rw [if_neg hpj]
              by_cases hpji : (j - 1) / 2 = i
              · rw [if_pos hpji]
                have h2 := hinv.2 j hj hjl hpji (by omega)
                rw [← hp] at h2
                exact h2
              · rw [if_neg hpji]
                exact hinv.1 j hj hjl hji
        · intro j hj hjl hpar hppos
          rw [listSwap_length] at hjl
          rw [hget j, hget ((p - 1) / 2)]
          rw [if_neg (show ¬ (p - 1) / 2 = p by omega),
            if_neg (show ¬ (p - 1) / 2 = i by omega),
            if_neg (show ¬ j = p by omega)]
          by_cases hji : j = i
          · rw [if_pos hji]
            exact hinv.1 p hppos hpl (by omega)
          · rw [if_neg hji]
            refine le_trans (hinv.1 p hppos hpl (by omega)) ?_
            have h2 := hinv.1 j hj hjl hji
            rw [hpar] at h2
            exact h2
      · next hltc =>
        intro j hj hjl
        by_cases hji : j = i
        · have hnl : ¬ val (a.getD j default) < val (a.getD ((j - 1) / 2) default) := by
            intro hlt2
            rw [hji] at hlt2
            rw [← hp] at hlt2
            exact hltc ((hlt _ _).mpr hlt2)
          exact le_of_not_lt hnl
        · exact hinv.1 j hj hjl hji

/-- Sift-down intermediate shape: heap except that the children of i may be
below i, and the children of i are bounded by i's parent. -/
def DownInv {α : Type} [Inhabited α] (val : α → ℝ) (a : List α) (i : Nat) : Prop :=
  (∀ j, 0 < j → j < a.length → (j - 1) / 2 ≠ i →
    val (a.getD ((j - 1) / 2) default) ≤ val (a.getD j default)) ∧
  (∀ j, 0 < j → j < a.length → (j - 1) / 2 = i → 0 < i →
    val (a.getD ((i - 1) / 2) default) ≤ val (a.getD j default))

theorem heapDownFuel_perm {α : Type} [Inhabited α] [DecidableEq α]
    (lt : α → α → Bool) :
    ∀ (fuel : Nat) (a : List α) (i : Nat), i < a.length →
      (heapDownFuel lt fuel a i).Perm a := by
  intro fuel
  induction fuel with
  | zero => intro a i _; exact List.Perm.refl a
  | succ fuel ih =>
    intro a i hi
    rw [heapDownFuel]
    split
    · exact List.Perm.refl a
    · next hne =>
      rcases downTarget_spec lt a i with he | ⟨him, hml⟩
      · exact absurd he hne
      · exact ((ih _ _ (by rw [listSwap_length]; omega)).trans
          (listSwap_perm a i (downTarget lt a i) hi hml))

theorem downTarget_min {α : Type} [Inhabited α] (lt : α → α → Bool)
    (val : α → ℝ) (hlt : ∀ x y, lt x y = true ↔ val x < val y)
    (a : List α) (i : Nat) :
    (downTarget lt a i = i ∧ ∀ j, 0 < j → j < a.length → (j - 1) / 2 = i →
      val (a.getD i default) ≤ val (a.getD j default)) ∨
    (i < downTarget lt a i ∧ downTarget lt a i < a.length ∧
      (downTarget lt a i - 1) / 2 = i ∧
      val (a.getD (downTarget lt a i) default) < val (a.getD i default) ∧
      ∀ j, 0 < j → j < a.length → (j - 1) / 2 = i →
        val (a.getD (downTarget lt a i) default) ≤ val (a.getD j default)) := by
  have hchild : ∀ j, 0 < j → (j - 1) / 2 = i → j = 2 * i + 1 ∨ j = 2 * i + 2 := by
    intro j hj hpar
    omega
  rw [downTarget]
  by_cases hl : (decide (2 * i + 1 < a.length) &&
      lt (a.getD (2 * i + 1) default) (a.getD i default)) = true
  · rw [if_pos hl]
    simp only [Bool.and_eq_true, decide_eq_true_eq] at hl
    have hLlt : val (a.getD (2 * i + 1) default) < val (a.getD i default) :=
      (hlt _ _).mp hl.2
    by_cases hr : (decide (2 * i + 2 < a.length) &&
        lt (a.getD (2 * i + 2) default) (a.getD (2 * i + 1) default)) = true
    · rw [if_pos hr]
      simp only [Bool.and_eq_true, decide_eq_true_eq] at hr
      have hRlt : val (a.getD (2 * i + 2) default) < val (a.getD (2 * i + 1) default) :=
        (hlt _ _).mp hr.2
      refine Or.inr ⟨by omega, hr.1, by omega, lt_trans hRlt hLlt, ?_⟩
      intro j hj hjl hpar
      rcases hchild j hj hpar with rfl | rfl
      · exact le_of_lt hRlt
      · exact le_refl _
    · rw [if_neg hr]
      simp only [Bool.and_eq_true, decide_eq_true_eq, not_and] at hr
      refine Or.inr ⟨by omega, hl.1, by omega, hLlt, ?_⟩
      intro j hj hjl hpar
      rcases hchild j hj hpar with rfl | rfl
      · exact le_refl _
      · have := hr hjl
        have h2 : ¬ val (a.getD (2 * i + 2) default) <
            val (a.getD (2 * i + 1) default) := by
          intro hc
          rw [← hlt] at hc
          exact this hc
        exact le_of_not_lt h2
  · rw [if_neg hl]
    simp only [Bool.and_eq_true, decide_eq_true_eq, not_and] at hl
    by_cases hr : (decide (2 * i + 2 < a.length) &&
        lt (a.getD (2 * i + 2) default) (a.getD i default)) = true
    · rw [if_pos hr]
      simp only [Bool.and_eq_true, decide_eq_true_eq] at hr
      have hRlt : val (a.getD (2 * i + 2) default) < val (a.getD i default) :=
        (hlt _ _).mp hr.2
      refine Or.inr ⟨by omega, hr.1, by omega, hRlt, ?_⟩
      intro j hj hjl hpar
      rcases hchild j hj hpar with rfl | rfl
      · have := hl (by omega)
        have h2 : ¬ val (a.getD (2 * i + 1) default) < val (a.getD i default) := by
          intro hc
          rw [← hlt] at hc
          exact this hc
        exact le_trans (le_of_lt hRlt) (le_of_not_lt h2)
      · exact le_refl _
    · rw [if_neg hr]
      simp only [Bool.and_eq_true, decide_eq_true_eq, not_and] at hr
      refine Or.inl ⟨rfl, ?_⟩
      intro j hj hjl hpar
      rcases hchild j hj hpar with rfl | rfl
      · have := hl (by omega)
        have h2 : ¬ val (a.getD (2 * i + 1) default) < val (a.getD i default) := by
          intro hc
          rw [← hlt] at hc
          exact this hc
        exact le_of_not_lt h2
      · have := hr (by omega)
        have h2 : ¬ val (a.getD (2 * i + 2) default) < val (a.getD i default) := by
          intro hc
          rw [← hlt] at hc
          exact this hc
        exact le_of_not_lt h2

theorem heapDownFuel_isHeap {α : Type} [Inhabited α] (lt : α → α → Bool)
    (val : α → ℝ) (hlt : ∀ x y, lt x y = true ↔ val x < val y) :
    ∀ (fuel : Nat) (a : List α) (i : Nat), i < a.length → a.length ≤ fuel + i →
      DownInv val a i → IsHeapV val (heapDownFuel lt fuel a i) := by
  intro fuel
  induction fuel with
  | zero => intro a i hi hf; omega
  | succ fuel ih =>
    intro a i hi hf hinv
    rw [heapDownFuel]
    rcases downTarget_min lt val hlt a i with ⟨he, hbound⟩ |
      ⟨him, hml, hparm, hmlt, hbound⟩
    · rw [if_pos he]
      intro j hj hjl
      by_cases hpj : (j - 1) / 2 = i
      · rw [hpj]
        exact hbound j hj hjl hpj
      · exact hinv.1 j hj hjl hpj
    · rw [if_neg (by omega)]
      set m := downTarget lt a i with hm
      have hget := fun k => listSwap_getD a i m k hi hml
      refine ih (listSwap a i m) m (by rw [listSwap_length]; omega)
        (by rw [listSwap_length]; omega) ⟨?_, ?_⟩
      · intro j hj hjl hjpar
        rw [listSwap_length] at hjl
        rw [hget j, hget ((j - 1) / 2)]
        by_cases hji : j = i
        · have hi0 : 0 < i := by omega
          rw [if_neg (by omega : ¬ (j - 1) / 2 = m),
            if_neg (by omega : ¬ (j - 1) / 2 = i),
            if_neg (by omega : ¬ j = m), if_pos hji, hji]
          exact hinv.2 m (by omega) hml hparm hi0
        · by_cases hjm : j = m
          · rw [if_pos hjm, if_neg (by omega : ¬ (j - 1) / 2 = m)]
            rw [if_pos (by omega : (j - 1) / 2 = i)]
            exact le_of_lt hmlt
          · rw [if_neg hjm, if_neg hji, if_neg hjpar]
            by_cases hpji : (j - 1) / 2 = i
            · rw [if_pos hpji]
              exact hbound j hj hjl hpji
            · rw [if_neg hpji]
              exact hinv.1 j hj hjl (by omega)
      · intro j hj hjl hjpar hm0
        rw [listSwap_length] at hjl
        rw [hget j, hget ((m - 1) / 2)]
        rw [if_neg (by omega : ¬ (m - 1) / 2 = m), if_pos hparm,
          if_neg (by omega : ¬ j = m), if_neg (by omega : ¬ j = i)]
        have h2 := hinv.1 j hj hjl (by omega)
        rw [hjpar] at h2
        exact h2

theorem heapPush_spec {α : Type} [Inhabited α] [DecidableEq α]
    (lt : α → α → Bool) (val : α → ℝ)
    (hlt : ∀ x y, lt x y = true ↔ val x < val y) (a : List α) (v : α)
    (h : IsHeapV val a) :
    IsHeapV val (heapPush lt a v) ∧ (heapPush lt a v).Perm (a ++ [v]) := by
  have hlen : a.length < (a ++ [v]).length := by simp
  have hgetA : ∀ j, j < a.length → (a ++ [v]).getD j default = a.getD j default := by
    intro j hj
    rw [List.getD_eq_getElem?_getD, List.getD_eq_getElem?_getD,
      List.getElem?_append_left hj]
  constructor
  · refine heapUpFuel_isHeap lt val hlt _ _ _ hlen (le_refl _) ⟨?_, ?_⟩
    · intro j hj hjl hji
      have hjl2 : j < a.length := by
        simp only [List.length_append, List.length_cons, List.length_nil] at hjl
        omega
      rw [hgetA j hjl2, hgetA ((j - 1) / 2) (by omega)]
      exact h j hj hjl2
    · intro j hj hjl hpar hpos
      simp only [List.length_append, List.length_cons, List.length_nil] at hjl
      omega
  · exact heapUpFuel_perm lt _ _ _ hlen

theorem heapPop_spec {α : Type} [Inhabited α] [DecidableEq α]
    (lt : α → α → Bool) (val : α → ℝ)
    (hlt : ∀ x y, lt x y = true ↔ val x < val y) (a : List α)
    (h : IsHeapV val a) (hne : a ≠ []) :
    ∃ rest, heapPop lt a = (some (a.getD 0 default), rest) ∧
      rest.Perm a.tail ∧ IsHeapV val rest ∧
      ∀ x ∈ a, val (a.getD 0 default) ≤ val x := by
  have hmin : ∀ x ∈ a, val (a.getD 0 default) ≤ val x := by
    intro x hx
    obtain ⟨j, hj⟩ := List.mem_iff_getElem?.mp hx
    have hjl : j < a.length := by
      by_contra hc
      rw [List.getElem?_eq_none (by omega)] at hj
      exact absurd hj (by simp)
    have hxv : a.getD j default = x := by
      rw [List.getD_eq_getElem?_getD, hj]
      rfl
    rw [← hxv]
    exact heap_root_min val a h j hjl
  match a, hne with
  | [x], _ =>
    exact ⟨[], rfl, List.Perm.refl _, fun j hj hjl => by simp at hjl, hmin⟩
  | x :: y :: t, _ =>
    set a := x :: y :: t with ha
    have hla : a.length = t.length + 2 := by simp [ha]
    set last := a.getD (a.length - 1) default with hlast
    set b := a.dropLast.set 0 last with hb
    have hbl : b.length = t.length + 1 := by
      simp [hb, ha]
    have hbget : ∀ j, 0 < j → j < b.length → b.getD j default = a.getD j default := by
      intro j hj hjl
      rw [hb, List.getD_eq_getElem?_getD, List.getD_eq_getElem?_getD,
        List.getElem?_set, if_neg (by omega), List.dropLast_eq_take,
        List.getElem?_take, if_pos (by omega)]
    have hdinv : DownInv val b 0 := by
      constructor
      · intro j hj hjl hpar
        rw [hbget j hj hjl, hbget ((j - 1) / 2) (by omega) (by omega)]
        exact h j hj (by omega)
      · intro j hj hjl hpar hpos
        omega
    have hpop : heapPop lt a = (some x, heapDown lt b 0) := by
      rw [ha]
      rfl
    refine ⟨heapDown lt b 0, hpop, ?_, ?_, hmin⟩
    · have hperm1 : (heapDown lt b 0).Perm b :=
        heapDownFuel_perm lt _ b 0 (by omega)
      refine hperm1.trans ?_
      have htne : (y :: t) ≠ [] := by simp
      have hbeq : b = last :: (y :: t).dropLast := by
        rw [hb, ha]
        rfl
      have hlasteq : last = (y :: t).getD ((y :: t).length - 1) default := by
        rw [hlast, ha]
        have h1 : (x :: y :: t).length - 1 = t.length + 1 := by simp
        rw [h1, List.getD_cons_succ]
        simp
      have hgl : (y :: t).getLast htne = (y :: t).getD ((y :: t).length - 1) default := by
        rw [List.getLast_eq_getElem,
          List.getD_eq_getElem (y :: t) default (show (y :: t).length - 1 < (y :: t).length by simp)]
      have hlasteq2 : last = (y :: t).getLast htne := by
        rw [hlasteq, hgl]
      have hbeq2 : b = (y :: t).getLast htne :: (y :: t).dropLast := by
        rw [hbeq, hlasteq2]
      rw [hbeq2, ha]
      show ((y :: t).getLast htne :: (y :: t).dropLast).Perm (y :: t)
      refine ((List.perm_append_singleton _ _).symm).trans ?_
      rw [List.dropLast_append_getLast htne]
    · exact heapDownFuel_isHeap lt val hlt _ b 0 (by omega) (by omega) hdinv



/-- Cost-c reachability by adjacency steps. -/
inductive Reach (g : RoadGraph) (s : Nat) : Nat → ℚ → Prop where
  | refl : Reach g s s 0
  | step {u : Nat} {c : ℚ} (h : Reach g s u c) {e : OutEdge} (he : e ∈ g.adj u) :
      Reach g s e.toId (c + e.cost)

theorem Reach.nonneg {g : RoadGraph} {s : Nat}
    (hpos : ∀ u, ∀ e ∈ g.adj u, (0:ℚ) ≤ e.cost) :
    ∀ {v : Nat} {c : ℚ}, Reach g s v c → 0 ≤ c := by
  intro v c h
  induction h with
  | refl => exact le_refl 0
  | step h he ih => exact add_nonneg ih (hpos _ _ he)

theorem dijkstraLoop_sound (graph : RoadGraph) (s n : Nat) :
    ∀ (fuel : Nat) (heap : List DEntry) (dist : Nat → Option ℚ),
      (∀ v q, dist v = some q → ∃ c, Reach graph s v c ∧ c ≤ q) →
      ∀ v q, dijkstraLoop graph n fuel heap dist v = some q →
        ∃ c, Reach graph s v c ∧ c ≤ q := by
  intro fuel
  induction fuel with
  | zero => intro heap dist hd v q hq; exact hd v q hq
  | succ fuel ih =>
    intro heap dist hd v q hq
    rw [dijkstraLoop] at hq
    rcases hpop : heapPop dLt heap with ⟨copt, heap1⟩
    rw [hpop] at hq
    rcases copt with _ | cur
    · exact hd v q hq
    · dsimp only at hq
      by_cases hn : cur.id < n
      · rw [if_pos hn] at hq
        by_cases hstale : dist cur.id ≠ some cur.d
        · rw [if_pos hstale] at hq
          exact ih heap1 dist hd v q hq
        · rw [if_neg hstale] at hq
          have hcu' : dist cur.id = some cur.d := not_ne_iff.mp hstale
          obtain ⟨cu, hru, hcu⟩ := hd cur.id cur.d hcu'
          refine ih _ _ ?_ v q hq
          refine foldl_invariant
            (fun (acc : List DEntry × (Nat → Option ℚ)) =>
              ∀ v q, acc.2 v = some q → ∃ c, Reach graph s v c ∧ c ≤ q)
            _ (graph.adj cur.id) (heap1, dist) hd ?_
          intro st e he hst
          dsimp only
          split
          · next hrel =>
            intro v2 q2 hq2
            simp only [updF] at hq2
            by_cases hv2 : v2 = e.toId
            · rw [if_pos hv2] at hq2
              obtain rfl := Option.some.inj hq2
              refine ⟨cu + e.cost, hv2 ▸ Reach.step hru he, by linarith⟩
            · rw [if_neg hv2] at hq2
              exact hst v2 q2 hq2
          · exact hst
      · rw [if_neg hn, if_pos (by simp)] at hq
        exact ih heap1 dist hd v q hq

theorem dijkstraCosts_sound (graph : RoadGraph) (s maxIters : Nat) (v : Nat) (q : ℚ)
    (h : dijkstraCosts graph s maxIters v = some q) :
    ∃ c, Reach graph s v c ∧ c ≤ q := by
  rw [dijkstraCosts] at h
  refine dijkstraLoop_sound graph s graph.nodes.length maxIters _ _ ?_ v q h
  intro v2 q2 hq2
  rw [updFGuard] at hq2
  split at hq2
  · next hcond =>
    obtain rfl := Option.some.inj hq2
    exact ⟨0, hcond.2 ▸ Reach.refl, le_refl 0⟩
  · exact absurd hq2 (by simp)
/-- Squared Euclidean distance between tile coordinates. -/
def sqDist (a b : Tile) : ℤ := (b.tx - a.tx) ^ 2 + (b.ty - a.ty) ^ 2

/-- Euclidean distance between tile coordinates. -/
noncomputable def tdist (a b : Tile) : ℝ := Real.sqrt ((sqDist a b : ℤ) : ℝ)

theorem sqDist_nonneg (a b : Tile) : 0 ≤ sqDist a b := by
  have h1 : (0:ℤ) ≤ (b.tx - a.tx) ^ 2 := sq_nonneg _
  have h2 : (0:ℤ) ≤ (b.ty - a.ty) ^ 2 := sq_nonneg _
  rw [sqDist]
  omega

theorem tdist_nonneg (a b : Tile) : 0 ≤ tdist a b := Real.sqrt_nonneg _

theorem tdist_self (a : Tile) : tdist a a = 0 := by
  rw [tdist, sqDist]
  norm_num

theorem sqrt_sq_add_sq_triangle (a b c d : ℝ) :
    Real.sqrt ((a + c) ^ 2 + (b + d) ^ 2) ≤
      Real.sqrt (a ^ 2 + b ^ 2) + Real.sqrt (c ^ 2 + d ^ 2) := by
  have h1 : (0:ℝ) ≤ Real.sqrt (a ^ 2 + b ^ 2) := Real.sqrt_nonneg _
  have h2 : (0:ℝ) ≤ Real.sqrt (c ^ 2 + d ^ 2) := Real.sqrt_nonneg _
  have hs1 : Real.sqrt (a ^ 2 + b ^ 2) ^ 2 = a ^ 2 + b ^ 2 :=
    Real.sq_sqrt (by positivity)
  have hs2 : Real.sqrt (c ^ 2 + d ^ 2) ^ 2 = c ^ 2 + d ^ 2 :=
    Real.sq_sqrt (by positivity)
  have hcs : a * c + b * d ≤ Real.sqrt (a ^ 2 + b ^ 2) * Real.sqrt (c ^ 2 + d ^ 2) := by
    rcases le_or_lt (a * c + b * d) 0 with hle | hgt
    · exact le_trans hle (by positivity)
    · have hsq : (a * c + b * d) ^ 2 ≤ (a ^ 2 + b ^ 2) * (c ^ 2 + d ^ 2) := by
        nlinarith [sq_nonneg (a * d - b * c)]
      nlinarith [mul_nonneg h1 h2]
  have hle : (a + c) ^ 2 + (b + d) ^ 2 ≤
      (Real.sqrt (a ^ 2 + b ^ 2) + Real.sqrt (c ^ 2 + d ^ 2)) ^ 2 := by
    nlinarith
  calc Real.sqrt ((a + c) ^ 2 + (b + d) ^ 2)
      ≤ Real.sqrt ((Real.sqrt (a ^ 2 + b ^ 2) + Real.sqrt (c ^ 2 + d ^ 2)) ^ 2) :=
        Real.sqrt_le_sqrt hle
    _ = Real.sqrt (a ^ 2 + b ^ 2) + Real.sqrt (c ^ 2 + d ^ 2) :=
        Real.sqrt_sq (by positivity)

theorem tdist_triangle (a b c : Tile) : tdist a c ≤ tdist a b + tdist b c := by
  have h := sqrt_sq_add_sq_triangle
    ((b.tx - a.tx : ℤ) : ℝ) ((b.ty - a.ty : ℤ) : ℝ)
    ((c.tx - b.tx : ℤ) : ℝ) ((c.ty - b.ty : ℤ) : ℝ)
  have he1 : ((b.tx - a.tx : ℤ) : ℝ) + ((c.tx - b.tx : ℤ) : ℝ) = ((c.tx - a.tx : ℤ) : ℝ) := by
    push_cast
    ring
  have he2 : ((b.ty - a.ty : ℤ) : ℝ) + ((c.ty - b.ty : ℤ) : ℝ) = ((c.ty - a.ty : ℤ) : ℝ) := by
    push_cast
    ring
  rw [he1, he2] at h
  simp only [tdist, sqDist]
  calc Real.sqrt (((c.tx - a.tx) ^ 2 + (c.ty - a.ty) ^ 2 : ℤ) : ℝ)
      = Real.sqrt (((c.tx - a.tx : ℤ) : ℝ) ^ 2 + ((c.ty - a.ty : ℤ) : ℝ) ^ 2) := by
        push_cast
        ring_nf
    _ ≤ _ := by
        refine le_trans h ?_
        apply add_le_add <;> apply le_of_eq <;> congr 1 <;> push_cast <;> ring

theorem adjTile_tdist {a b : Tile} (h : adjTile a b) : tdist a b = 1 := by
  rw [adjTile] at h
  have hsq : sqDist a b = 1 := by
    have hcase : ((b.tx - a.tx = 1 ∨ b.tx - a.tx = -1) ∧ b.ty - a.ty = 0) ∨
        (b.tx - a.tx = 0 ∧ (b.ty - a.ty = 1 ∨ b.ty - a.ty = -1)) := by
      omega
    rcases hcase with ⟨h1 | h1, h2⟩ | ⟨h1, h2 | h2⟩ <;> rw [sqDist, h1, h2] <;> norm_num
  rw [tdist, hsq]
  norm_num

theorem chain_tdist_le :
    ∀ (l : List Tile), List.Chain' adjTile l → ∀ a b,
      l.head? = some a → l.getLast? = some b →
      tdist a b ≤ ((l.length - 1 : ℕ) : ℝ) := by
  intro l
  induction l with
  | nil => intro _ a b ha; exact absurd ha (by simp)
  | cons x rest ih =>
    intro hchain a b ha hb
    obtain rfl : a = x := by simpa using ha.symm
    cases rest with
    | nil =>
      obtain rfl : b = a := by simpa using hb.symm
      rw [tdist_self]
      simp
    | cons y rest2 =>
      rw [List.chain'_cons] at hchain
      have hstep : tdist a y = 1 := adjTile_tdist hchain.1
      have hb2 : (y :: rest2).getLast? = some b := by
        rw [← hb, List.getLast?_cons_cons]
      have ih2 := ih hchain.2 y b (by simp) hb2
      have htri := tdist_triangle a y b
      have hlen : ((y :: rest2).length - 1 : ℕ) + 1 = ((a :: y :: rest2).length - 1 : ℕ) := by
        simp
      calc tdist a b ≤ tdist a y + tdist y b := htri
        _ = 1 + tdist y b := by rw [hstep]
        _ ≤ 1 + ((y :: rest2).length - 1 : ℕ) := by linarith
        _ = (((a :: y :: rest2).length - 1 : ℕ) : ℝ) := by
            rw [← hlen]
            push_cast
            ring



theorem addEdge_dirEdges_shape (m : GameMap) (st : EdgeState) (fromId toId : Nat)
    (tiles : List Tile) (d : Dir) :
    ∃ uid, (addEdge m st fromId toId tiles d).dirEdges =
      st.dirEdges ++ [⟨st.dirEdges.length, fromId, toId, tiles,
        segCost tiles, d.dx, d.dy, segmentLaneCount m tiles, uid⟩] := by
  unfold addEdge
  split
  · next uid _ => exact ⟨uid, rfl⟩
  · exact ⟨st.undirEdges.length, rfl⟩

theorem buildEdges_inv2 (m : GameMap) (rt : Nat) :
    (∀ e ∈ (buildEdges m rt (buildNodes m rt)).dirEdges, e.cost = segCost e.tiles) ∧
    List.Pairwise (fun a b : DirEdge => (a.fromId, a.toId) ≠ (b.fromId, b.toId))
      (buildEdges m rt (buildNodes m rt)).dirEdges := by
  rw [buildEdges]
  refine foldl_invariant
    (fun (st : EdgeState) =>
      (∀ e ∈ st.dirEdges, e.cost = segCost e.tiles) ∧
      List.Pairwise (fun a b : DirEdge => (a.fromId, a.toId) ≠ (b.fromId, b.toId))
        st.dirEdges)
    _ _ _ ⟨fun e he => absurd he (List.not_mem_nil e), List.Pairwise.nil⟩ ?_
  intro st n hn hst
  refine foldl_invariant
    (fun (st : EdgeState) =>
      (∀ e ∈ st.dirEdges, e.cost = segCost e.tiles) ∧
      List.Pairwise (fun a b : DirEdge => (a.fromId, a.toId) ≠ (b.fromId, b.toId))
        st.dirEdges)
    _ _ _ hst ?_
  intro st2 d hd hst2
  rw [processDir]
  split
  all_goals try exact hst2
  split
  all_goals try exact hst2
  next tiles nid hwalk =>
  split
  all_goals try exact hst2
  next hok =>
  have hnotany : ∀ e ∈ st2.dirEdges, ¬ (e.fromId = n.id ∧ e.toId = nid) := by
    have h2 : (st2.dirEdges.any fun e => e.fromId == n.id && e.toId == nid) = false := by
      rcases Bool.and_eq_true _ _ |>.mp hok with ⟨_, hnb⟩
      simpa using hnb
    intro e he hpair
    have h3 := List.any_eq_false.mp h2 e he
    simp only [Bool.and_eq_true, beq_iff_eq] at h3
    exact h3 ⟨hpair.1, hpair.2⟩
  obtain ⟨uid, hshape⟩ := addEdge_dirEdges_shape m st2 n.id nid tiles d
  constructor
  · intro e he
    rw [hshape] at he
    rcases List.mem_append.mp he with hmem | hnew
    · exact hst2.1 e hmem
    · obtain rfl := List.mem_singleton.mp hnew
      rfl
  · rw [hshape]
    rw [List.pairwise_append]
    refine ⟨hst2.2, List.pairwise_singleton _ _, ?_⟩
    intro a ha b hb
    obtain rfl := List.mem_singleton.mp hb
    intro hpair
    have h1 : a.fromId = n.id ∧ a.toId = nid := by
      have := Prod.mk.injEq a.fromId a.toId n.id nid ▸ hpair
      exact ⟨congrArg Prod.fst hpair, congrArg Prod.snd hpair⟩
    exact hnotany a ha h1
theorem adj_mem_dirEdges (m : GameMap) (rt u : Nat) :
    ∀ e ∈ (buildRoadGraph m rt).adj u,
      ∃ de ∈ (buildEdges m rt (buildNodes m rt)).dirEdges,
        de.fromId = u ∧ de.toId = e.toId ∧ de.cost = e.cost := by
  intro e he
  rw [buildRoadGraph_adj] at he
  simp only [List.mem_map, List.mem_filter, beq_iff_eq] at he
  obtain ⟨de, ⟨hmem, hfrom⟩, rfl⟩ := he
  exact ⟨de, hmem, hfrom, rfl, rfl⟩

theorem nodeAt_of_getElem? {m : GameMap} {rt i : Nat} {nd : Node}
    (h : (buildNodes m rt)[i]? = some nd) :
    nodeAt (buildRoadGraph m rt) i = nd := by
  rw [nodeAt, buildRoadGraph_nodes, List.getD_eq_getElem?_getD, h]
  rfl

theorem hsq_sqrt (g : RoadGraph) (a b : Nat) :
    Real.sqrt ((hsq g a b : ℕ) : ℝ) =
      tdist ⟨(nodeAt g a).tx, (nodeAt g a).ty⟩ ⟨(nodeAt g b).tx, (nodeAt g b).ty⟩ := by
  rw [hsq, tdist, sqDist]
  congr 1
  have hnn : (0:ℤ) ≤ ((nodeAt g b).tx - (nodeAt g a).tx) ^ 2 +
      ((nodeAt g b).ty - (nodeAt g a).ty) ^ 2 := by positivity
  dsimp only
  exact_mod_cast congrArg (Int.cast : ℤ → ℝ) (Int.toNat_of_nonneg hnn)

theorem built_edge_geom (m : GameMap) (rt : Nat) :
    ∀ de ∈ (buildRoadGraph m rt).dirEdges,
      tdist ⟨(nodeAt (buildRoadGraph m rt) de.fromId).tx,
             (nodeAt (buildRoadGraph m rt) de.fromId).ty⟩
            ⟨(nodeAt (buildRoadGraph m rt) de.toId).tx,
             (nodeAt (buildRoadGraph m rt) de.toId).ty⟩ ≤ (de.cost : ℝ) ∧
      (1 : ℚ) ≤ de.cost ∧
      de.fromId < (buildRoadGraph m rt).nodes.length ∧
      de.toId < (buildRoadGraph m rt).nodes.length := by
  intro de hde
  rw [buildRoadGraph_dirEdges] at hde
  have hinv := buildEdges_inv m rt
  have hinv2 := buildEdges_inv2 m rt
  obtain ⟨hroadt, hchain, ⟨nf, hfget, hfhead⟩, ⟨nt, htget, htlast⟩⟩ := hinv.1 de hde
  have hcost := hinv2.1 de hde
  have hflt : de.fromId < (buildNodes m rt).length := by
    by_contra hc
    rw [List.getElem?_eq_none (by omega)] at hfget
    exact absurd hfget (by simp)
  have htlt : de.toId < (buildNodes m rt).length := by
    by_contra hc
    rw [List.getElem?_eq_none (by omega)] at htget
    exact absurd htget (by simp)
  have hfn := nodeAt_of_getElem? hfget
  have htn := nodeAt_of_getElem? htget
  have hlen1 : 1 ≤ de.tiles.length := by
    by_contra hc
    have : de.tiles = [] := by
      cases h : de.tiles with
      | nil => rfl
      | cons a l => rw [h] at hc; simp at hc
    rw [this] at hfhead
    exact absurd hfhead (by simp)
  have hchainle := chain_tdist_le de.tiles hchain ⟨nf.tx, nf.ty⟩ ⟨nt.tx, nt.ty⟩
    hfhead htlast
  have hcostval : (de.cost : ℝ) = ((max 1 (de.tiles.length - 1) : ℕ) : ℝ) := by
    rw [hcost, segCost]
    push_cast
    ring
  refine ⟨?_, ?_, by rw [buildRoadGraph_nodes]; exact hflt,
    by rw [buildRoadGraph_nodes]; exact htlt⟩
  · rw [hfn, htn, hcostval]
    refine le_trans hchainle ?_
    have : (de.tiles.length - 1 : ℕ) ≤ (max 1 (de.tiles.length - 1) : ℕ) :=
      le_max_right _ _
    exact_mod_cast this
  · rw [hcost, segCost]
    have : (1 : ℕ) ≤ (max 1 (de.tiles.length - 1) : ℕ) := le_max_left _ _
    exact_mod_cast this

theorem built_consistent (m : GameMap) (rt t u : Nat) :
    ∀ e ∈ (buildRoadGraph m rt).adj u,
      Real.sqrt ((hsq (buildRoadGraph m rt) u t : ℕ) : ℝ) ≤
        (e.cost : ℝ) + Real.sqrt ((hsq (buildRoadGraph m rt) e.toId t : ℕ) : ℝ) := by
  intro e he
  obtain ⟨de, hde, hfrom, hto, hcost⟩ := adj_mem_dirEdges m rt u e he
  have hg := built_edge_geom m rt de (by rw [buildRoadGraph_dirEdges]; exact hde)
  rw [hsq_sqrt, hsq_sqrt]
  have htri := tdist_triangle
    ⟨(nodeAt (buildRoadGraph m rt) u).tx, (nodeAt (buildRoadGraph m rt) u).ty⟩
    ⟨(nodeAt (buildRoadGraph m rt) e.toId).tx, (nodeAt (buildRoadGraph m rt) e.toId).ty⟩
    ⟨(nodeAt (buildRoadGraph m rt) t).tx, (nodeAt (buildRoadGraph m rt) t).ty⟩
  refine le_trans htri ?_
  have h1 := hg.1
  rw [hfrom, hto] at h1
  rw [hcost] at h1
  linarith

theorem built_adj_props (m : GameMap) (rt u : Nat) :
    ∀ e ∈ (buildRoadGraph m rt).adj u,
      (1 : ℚ) ≤ e.cost ∧ u < (buildRoadGraph m rt).nodes.length ∧
      e.toId < (buildRoadGraph m rt).nodes.length := by
  intro e he
  obtain ⟨de, hde, hfrom, hto, hcost⟩ := adj_mem_dirEdges m rt u e he
  have hg := built_edge_geom m rt de (by rw [buildRoadGraph_dirEdges]; exact hde)
  exact ⟨hcost ▸ hg.2.1, hfrom ▸ hg.2.2.1, hto ▸ hg.2.2.2⟩

theorem adjCostD_built (m : GameMap) (rt u : Nat) :
    ∀ e ∈ (buildRoadGraph m rt).adj u, adjCostD (buildRoadGraph m rt) u e.toId = e.cost := by
  intro e he
  have hfind : ∃ x, ((buildRoadGraph m rt).adj u).find? (fun x => x.toId == e.toId) = some x := by
    have : (((buildRoadGraph m rt).adj u).find? (fun x => x.toId == e.toId)).isSome := by
      rw [List.find?_isSome]
      exact ⟨e, he, by simp⟩
    exact Option.isSome_iff_exists.mp this
  obtain ⟨x, hx⟩ := hfind
  have hxm : x ∈ (buildRoadGraph m rt).adj u := List.mem_of_find?_eq_some hx
  have hxp : x.toId = e.toId := by
    have := List.find?_some hx
    simpa using this
  obtain ⟨dex, hdex, hxfrom, hxto, hxcost⟩ := adj_mem_dirEdges m rt u x hxm
  obtain ⟨dee, hdee, hefrom, heto, hecost⟩ := adj_mem_dirEdges m rt u e he
  have hinv2 := buildEdges_inv2 m rt
  have hpw := hinv2.2
  have hsame : dex = dee := by
    by_contra hne
    have hforall := List.Pairwise.forall
      (show Symmetric (fun a b : DirEdge => (a.fromId, a.toId) ≠ (b.fromId, b.toId))
        from fun a b h => fun hc => h hc.symm) hpw
    have := hforall hdex hdee hne
    apply this
    rw [hxfrom, hefrom, hxto, heto, hxp]
  rw [adjCostD, hx]
  show x.cost = e.cost
  rw [← hxcost, hsame, hecost]

theorem adjCostD_ge_one (g : RoadGraph) (u b : Nat)
    (h : ∀ e ∈ g.adj u, (1:ℚ) ≤ e.cost) : (1:ℚ) ≤ adjCostD g u b := by
  rw [adjCostD]
  cases hf : (g.adj u).find? fun x => x.toId == b with
  | none => simp
  | some x =>
    show (1:ℚ) ≤ x.cost
    exact h x (List.mem_of_find?_eq_some hf)



theorem pathCost_shift (g : RoadGraph) (l : List (Nat × Nat)) :
    ∀ c0 : ℚ, l.foldl (fun c p => c + adjCostD g p.1 p.2) c0 =
      c0 + l.foldl (fun c p => c + adjCostD g p.1 p.2) 0 := by
  induction l with
  | nil => intro c0; simp
  | cons x xs ih =>
    intro c0
    rw [List.foldl_cons, List.foldl_cons, ih, ih (0 + adjCostD g x.1 x.2)]
    ring

theorem pathCost_nil (g : RoadGraph) : pathCost g [] = 0 := rfl

theorem pathCost_single (g : RoadGraph) (x : Nat) : pathCost g [x] = 0 := rfl

theorem pathCost_cons2 (g : RoadGraph) (x y : Nat) (rest : List Nat) :
    pathCost g (x :: y :: rest) = adjCostD g x y + pathCost g (y :: rest) := by
  rw [pathCost, pathCost]
  have hzip : (x :: y :: rest).zip (x :: y :: rest).tail =
      (x, y) :: ((y :: rest).zip ((y :: rest).tail)) := by
    cases rest <;> rfl
  rw [hzip, List.foldl_cons, pathCost_shift]
  ring

theorem pathCost_append_last (g : RoadGraph) :
    ∀ (A : List Nat) (b : Nat), A ≠ [] →
      ∃ a, A.getLast? = some a ∧
        pathCost g (A ++ [b]) = pathCost g A + adjCostD g a b := by
  intro A
  induction A with
  | nil => intro b h; exact absurd rfl h
  | cons x rest ih =>
    intro b _
    cases rest with
    | nil =>
      refine ⟨x, rfl, ?_⟩
      rw [pathCost_single, List.singleton_append, pathCost_cons2, pathCost_single]
      ring
    | cons y rest2 =>
      obtain ⟨a, hlast, hcost⟩ := ih b (by simp)
      rw [List.cons_append] at hcost
      refine ⟨a, by rw [List.getLast?_cons_cons]; exact hlast, ?_⟩
      rw [List.cons_append, List.cons_append, pathCost_cons2, hcost, pathCost_cons2]
      ring

theorem countP_lt {α : Type} (l : List α) (p q : α → Bool)
    (himp : ∀ a ∈ l, p a = true → q a = true) (a0 : α) (ha0 : a0 ∈ l)
    (hq : q a0 = true) (hp : p a0 = false) : l.countP p < l.countP q := by
  induction l with
  | nil => exact absurd ha0 (List.not_mem_nil a0)
  | cons x xs ih =>
    rw [List.countP_cons, List.countP_cons]
    rcases List.mem_cons.mp ha0 with rfl | hmem
    · have hle : xs.countP p ≤ xs.countP q :=
        List.countP_mono_left (fun a ha => himp a (List.mem_cons_of_mem _ ha))
      rw [hp, hq]
      simp
      omega
    · have hlt := ih (fun a ha hpa => himp a (List.mem_cons_of_mem _ ha) hpa) hmem
      have : (if p x = true then 1 else 0) ≤ (if q x = true then 1 else 0) := by
        by_cases hpx : p x = true
        · rw [if_pos hpx, if_pos (himp x (by simp) hpx)]
        · rw [if_neg hpx]
          omega
      omega
/-- Real value of the Euclidean heuristic toward t. -/
noncomputable def hRt (g : RoadGraph) (t v : Nat) : ℝ :=
  Real.sqrt ((hsq g v t : ℕ) : ℝ)

theorem hRt_nonneg (g : RoadGraph) (t v : Nat) : 0 ≤ hRt g t v := Real.sqrt_nonneg _

theorem hRt_self (g : RoadGraph) (t : Nat) : hRt g t t = 0 := by
  rw [hRt, hsq]
  norm_num

/-- Loop invariant of findNodePathAStar. -/
structure AInv (g : RoadGraph) (s t n : Nat) (heap : List AEntry)
    (gs : Nat → Option ℚ) (cf : Nat → Int) (cl : Nat → Bool) : Prop where
  isheap : IsHeapV (fun e => fval e.f) heap
  hsound : ∀ e ∈ heap, e.id < n ∧ e.f.2 = hsq g e.id t ∧
    ∃ q, gs e.id = some q ∧ q ≤ e.f.1
  parent : ∀ v, v < n → ∀ q, gs v = some q → v ≠ s →
    ∃ u : Nat, cf v = (u : Int) ∧ u < n ∧
      ∃ qu, gs u = some qu ∧ qu + adjCostD g u v ≤ q
  gstart : gs s = some 0
  gnonneg : ∀ v q, gs v = some q → 0 ≤ q
  realiz : ∀ v q, gs v = some q → ∃ c, Reach g s v c ∧ c ≤ q
  closedrelax : ∀ v, v < n → cl v = true → ∃ qv, gs v = some qv ∧
    ∀ e ∈ g.adj v, ∃ qn, gs e.toId = some qn ∧ qn ≤ qv + e.cost
  closedopt : ∀ v, v < n → cl v = true → ∀ c, Reach g s v c →
    ∃ qv, gs v = some qv ∧ qv ≤ c
  fresh : ∀ v, v < n → cl v = false → ∀ q, gs v = some q →
    ∃ e ∈ heap, e.id = v ∧ e.f.1 = q

theorem reach_lt {g : RoadGraph} {s n : Nat}
    (Hids : ∀ u, ∀ e ∈ g.adj u, e.toId < n) (hs : s < n) :
    ∀ {w : Nat} {c : ℚ}, Reach g s w c → w < n := by
  intro w c h
  induction h with
  | refl => exact hs
  | step h he ih => exact Hids _ _ he

theorem ainv_cover {g : RoadGraph} {s t n : Nat} {heap : List AEntry}
    {gs : Nat → Option ℚ} {cf : Nat → Int} {cl : Nat → Bool}
    (inv : AInv g s t n heap gs cf cl)
    (Hcons : ∀ u, ∀ e ∈ g.adj u, hRt g t u ≤ (e.cost : ℝ) + hRt g t e.toId)
    (Hids : ∀ u, ∀ e ∈ g.adj u, e.toId < n) (hs : s < n) :
    ∀ w c, Reach g s w c →
      (∃ qw, cl w = true ∧ gs w = some qw ∧ qw ≤ c) ∨
      (∃ e ∈ heap, fval e.f ≤ (c : ℝ) + hRt g t w) := by
  intro w c h
  induction h with
  | refl =>
    by_cases hcl : cl s = true
    · exact Or.inl ⟨0, hcl, inv.gstart, le_refl 0⟩
    · obtain ⟨e, he, heid, hef⟩ := inv.fresh s hs (by simpa using hcl) 0 inv.gstart
      refine Or.inr ⟨e, he, ?_⟩
      have hf2 := (inv.hsound e he).2.1
      rw [fval, hef, hf2, heid, hRt]
  | @step u c0 hr e0 he0 ih =>
    have hu : u < n := reach_lt Hids hs hr
    have hw : e0.toId < n := Hids u e0 he0
    rcases ih with ⟨qu, hclu, hgu, hque⟩ | ⟨e, he, hfe⟩
    · obtain ⟨qv, hgv, hrel⟩ := inv.closedrelax u hu hclu
      obtain rfl : qv = qu := by
        rw [hgu] at hgv
        exact (Option.some.inj hgv).symm
      obtain ⟨qn, hgn, hqn⟩ := hrel e0 he0
      by_cases hclw : cl e0.toId = true
      · exact Or.inl ⟨qn, hclw, hgn, by linarith⟩
      · obtain ⟨e1, he1, he1id, he1f⟩ :=
          inv.fresh e0.toId hw (by simpa using hclw) qn hgn
        refine Or.inr ⟨e1, he1, ?_⟩
        have hf2 := (inv.hsound e1 he1).2.1
        rw [fval, he1f, hf2, he1id, ← hRt]
        have hle : (qn : ℝ) ≤ ((c0 + e0.cost : ℚ) : ℝ) := by
          push_cast
          have : qn ≤ c0 + e0.cost := by linarith
          exact_mod_cast this
        linarith [hRt_nonneg g t e0.toId]
    · refine Or.inr ⟨e, he, ?_⟩
      have hcons := Hcons u e0 he0
      refine le_trans hfe ?_
      push_cast
      linarith

theorem ainv_popt {g : RoadGraph} {s t n : Nat} {heap : List AEntry}
    {gs : Nat → Option ℚ} {cf : Nat → Int} {cl : Nat → Bool}
    (inv : AInv g s t n heap gs cf cl)
    (Hcons : ∀ u, ∀ e ∈ g.adj u, hRt g t u ≤ (e.cost : ℝ) + hRt g t e.toId)
    (Hids : ∀ u, ∀ e ∈ g.adj u, e.toId < n) (hs : s < n)
    (cur : AEntry) (hcur : cur ∈ heap)
    (hmin : ∀ x ∈ heap, fval cur.f ≤ fval x.f)
    (hclcur : cl cur.id = false) :
    gs cur.id = some cur.f.1 ∧ ∀ c, Reach g s cur.id c → cur.f.1 ≤ c := by
  obtain ⟨hidlt, hf2, q, hgq, hqle⟩ := inv.hsound cur hcur
  obtain ⟨ef, hef, hefid, heff⟩ := inv.fresh cur.id hidlt hclcur q hgq
  have hminef := hmin ef hef
  have hfval : fval cur.f = (cur.f.1 : ℝ) + hRt g t cur.id := by
    rw [fval, hf2, ← hRt]
  have hfvalef : fval ef.f = (q : ℝ) + hRt g t cur.id := by
    have hf2e := (inv.hsound ef hef).2.1
    rw [fval, heff, hf2e, hefid, ← hRt]
  have hqeq : q = cur.f.1 := by
    rw [hfval, hfvalef] at hminef
    have h1 : (cur.f.1 : ℝ) ≤ (q : ℝ) := by linarith
    have h2 : cur.f.1 ≤ q := by exact_mod_cast h1
    exact le_antisymm hqle h2
  rw [hqeq] at hgq
  refine ⟨hgq, ?_⟩
  intro c hreach
  rcases ainv_cover inv Hcons Hids hs cur.id c hreach with
    ⟨qw, hclw, _, _⟩ | ⟨e2, he2, hfe2⟩
  · rw [hclw] at hclcur
    exact absurd hclcur (by simp)
  · have hmine2 := hmin e2 he2
    rw [hfval] at hmine2
    have h1 : (cur.f.1 : ℝ) ≤ (c : ℝ) := by linarith
    exact_mod_cast h1

/-- One relaxation step of the astarLoop inner fold (the foldl lambda with its
surrounding lets named). -/
def relaxStepF (graph : RoadGraph) (goalId n curId : Nat) (cl2 : Nat → Bool)
    (gu : Option ℚ) (acc : List AEntry × (Nat → Option ℚ) × (Nat → Int))
    (e : OutEdge) : List AEntry × (Nat → Option ℚ) × (Nat → Int) :=
  let nb := e.toId
  if (if nb < n then cl2 nb else false) then acc
  else
    match gu with
    | none => acc
    | some gq =>
      let tentative := gq + e.cost
      if nb < n ∧ qiLt tentative (acc.2.1 nb) then
        (heapPush aLt acc.1 ⟨nb, (tentative, hsq graph nb goalId)⟩,
         updF acc.2.1 nb (some tentative), updF acc.2.2 nb (curId : Int))
      else acc

/-- Invariant carried through the relaxation fold: the full loop invariant
minus the closed-relaxed property at the node being expanded. -/
structure RInv (g : RoadGraph) (s t n curId : Nat) (cl2 : Nat → Bool)
    (heap : List AEntry) (gs : Nat → Option ℚ) (cf : Nat → Int) : Prop where
  isheap : IsHeapV (fun e => fval e.f) heap
  hsound : ∀ e ∈ heap, e.id < n ∧ e.f.2 = hsq g e.id t ∧
    ∃ q, gs e.id = some q ∧ q ≤ e.f.1
  parent : ∀ v, v < n → ∀ q, gs v = some q → v ≠ s →
    ∃ u : Nat, cf v = (u : Int) ∧ u < n ∧
      ∃ qu, gs u = some qu ∧ qu + adjCostD g u v ≤ q
  gstart : gs s = some 0
  gnonneg : ∀ v q, gs v = some q → 0 ≤ q
  realiz : ∀ v q, gs v = some q → ∃ c, Reach g s v c ∧ c ≤ q
  closedrelax : ∀ v, v < n → cl2 v = true → v ≠ curId → ∃ qv, gs v = some qv ∧
    ∀ e ∈ g.adj v, ∃ qn, gs e.toId = some qn ∧ qn ≤ qv + e.cost
  closedopt : ∀ v, v < n → cl2 v = true → ∀ c, Reach g s v c →
    ∃ qv, gs v = some qv ∧ qv ≤ c
  fresh : ∀ v, v < n → cl2 v = false → ∀ q, gs v = some q →
    ∃ e ∈ heap, e.id = v ∧ e.f.1 = q

theorem relaxStep_spec (g : RoadGraph) (s t n curId : Nat) (cl2 : Nat → Bool)
    (qc : ℚ)
    (Hids : ∀ u, ∀ e ∈ g.adj u, e.toId < n)
    (Hpos1 : ∀ u, ∀ e ∈ g.adj u, (1:ℚ) ≤ e.cost)
    (Hfind : ∀ u, ∀ e ∈ g.adj u, adjCostD g u e.toId = e.cost)
    (hcurn : curId < n) (hcl2cur : cl2 curId = true)
    (e : OutEdge) (he : e ∈ g.adj curId)
    (acc : List AEntry × (Nat → Option ℚ) × (Nat → Int))
    (hinv : RInv g s t n curId cl2 acc.1 acc.2.1 acc.2.2)
    (hqc : acc.2.1 curId = some qc) :
    RInv g s t n curId cl2 (relaxStepF g t n curId cl2 (some qc) acc e).1
      (relaxStepF g t n curId cl2 (some qc) acc e).2.1
      (relaxStepF g t n curId cl2 (some qc) acc e).2.2 ∧
    (relaxStepF g t n curId cl2 (some qc) acc e).2.1 curId = some qc ∧
    (∀ v qv, acc.2.1 v = some qv →
      ∃ qv', (relaxStepF g t n curId cl2 (some qc) acc e).2.1 v = some qv' ∧ qv' ≤ qv) ∧
    (∃ qn, (relaxStepF g t n curId cl2 (some qc) acc e).2.1 e.toId = some qn ∧
      qn ≤ qc + e.cost) := by
  have hnbn : e.toId < n := Hids curId e he
  have hcost1 : (1:ℚ) ≤ e.cost := Hpos1 curId e he
  have hqc0 : 0 ≤ qc := hinv.gnonneg curId qc hqc
  rw [relaxStepF]
  dsimp only
  rw [if_pos hnbn]
  by_cases hclnb : cl2 e.toId = true
  · rw [if_pos hclnb]
    refine ⟨hinv, hqc, fun v qv hv => ⟨qv, hv, le_refl qv⟩, ?_⟩
    by_cases hnbc : e.toId = curId
    · rw [hnbc]
      exact ⟨qc, hqc, by linarith⟩
    · obtain ⟨c0, hr0, hc0⟩ := hinv.realiz curId qc hqc
      obtain ⟨qv, hgv, hqv⟩ := hinv.closedopt e.toId hnbn hclnb (c0 + e.cost)
        (Reach.step hr0 he)
      exact ⟨qv, hgv, by linarith⟩
  · rw [if_neg hclnb]
    by_cases hrel : e.toId < n ∧ qiLt (qc + e.cost) (acc.2.1 e.toId) = true
    · rw [if_pos hrel]
      dsimp only
      have hnbs : e.toId ≠ s := by
        intro hc
        have := hrel.2
        rw [hc, hinv.gstart, qiLt] at this
        have h2 : qc + e.cost < 0 := by simpa using this
        linarith
      have hnbcur : e.toId ≠ curId := by
        intro hc
        rw [hc, hcl2cur] at hclnb
        exact hclnb rfl
      have hqilt : ∀ qn, acc.2.1 e.toId = some qn → qc + e.cost < qn := by
        intro qn hqn
        have := hrel.2
        rw [hqn, qiLt] at this
        simpa using this
      have hpush := heapPush_spec aLt (fun x => fval x.f) aLt_iff acc.1
        ⟨e.toId, (qc + e.cost, hsq g e.toId t)⟩ hinv.isheap
      have hmem : ∀ x, x ∈ heapPush aLt acc.1 ⟨e.toId, (qc + e.cost, hsq g e.toId t)⟩ ↔
          x ∈ acc.1 ∨ x = ⟨e.toId, (qc + e.cost, hsq g e.toId t)⟩ := by
        intro x
        rw [hpush.2.mem_iff]
        simp
      have hgs : ∀ v, updF acc.2.1 e.toId (some (qc + e.cost)) v =
          if v = e.toId then some (qc + e.cost) else acc.2.1 v := fun v => rfl
      have hcf : ∀ v, updF acc.2.2 e.toId (curId : Int) v =
          if v = e.toId then (curId : Int) else acc.2.2 v := fun v => rfl
      refine ⟨⟨hpush.1, ?_, ?_, ?_, ?_, ?_, ?_, ?_, ?_⟩, ?_, ?_, ?_⟩
      · intro x hx
        rcases (hmem x).mp hx with hold | rfl
        · obtain ⟨hlt, hf2, q, hq, hle⟩ := hinv.hsound x hold
          refine ⟨hlt, hf2, ?_⟩
          rw [hgs]
          by_cases hxid : x.id = e.toId
          · rw [if_pos hxid]
            refine ⟨qc + e.cost, rfl, ?_⟩
            rw [hxid] at hq
            have := hqilt q hq
            linarith
          · rw [if_neg hxid]
            exact ⟨q, hq, hle⟩
        · refine ⟨hnbn, rfl, ?_⟩
          rw [hgs]
          exact ⟨qc + e.cost, by rw [if_pos rfl], le_refl _⟩
      · intro v hv q2 hq2 hvs
        rw [hgs] at hq2
        by_cases hveq : v = e.toId
        · rw [if_pos hveq] at hq2
          obtain rfl := Option.some.inj hq2
          refine ⟨curId, ?_, hcurn, qc, ?_, ?_⟩
          · rw [hcf, if_pos hveq]
          · rw [hgs, if_neg (fun hc => hnbcur hc.symm)]  -- curId = e.toId false
            exact hqc
          · rw [hveq]
            rw [Hfind curId e he]
        · rw [if_neg hveq] at hq2
          obtain ⟨u, hcfv, hun, qu, hgu2, hle⟩ := hinv.parent v hv q2 hq2 hvs
          refine ⟨u, ?_, hun, ?_⟩
          · rw [hcf, if_neg hveq]
            exact hcfv
          · rw [hgs]
            by_cases hueq : u = e.toId
            · rw [if_pos hueq]
              refine ⟨qc + e.cost, rfl, ?_⟩
              rw [hueq] at hgu2
              have hlt2 := hqilt qu hgu2
              linarith
            · rw [if_neg hueq]
              exact ⟨qu, hgu2, hle⟩
      · rw [hgs, if_neg (fun hc => hnbs hc.symm)]
        exact hinv.gstart
      · intro v q2 hq2
        rw [hgs] at hq2
        by_cases hveq : v = e.toId
        · rw [if_pos hveq] at hq2
          obtain rfl := Option.some.inj hq2
          linarith
        · rw [if_neg hveq] at hq2
          exact hinv.gnonneg v q2 hq2
      · intro v q2 hq2
        rw [hgs] at hq2
        by_cases hveq : v = e.toId
        · rw [if_pos hveq] at hq2
          obtain rfl := Option.some.inj hq2
          obtain ⟨c0, hr0, hc0⟩ := hinv.realiz curId qc hqc
          exact ⟨c0 + e.cost, hveq ▸ Reach.step hr0 he, by linarith⟩
        · rw [if_neg hveq] at hq2
          exact hinv.realiz v q2 hq2
      · intro v hv hclv hvcur
        obtain ⟨qv, hgv, hrelv⟩ := hinv.closedrelax v hv hclv hvcur
        have hvne : v ≠ e.toId := by
          intro hc
          rw [hc] at hclv
          exact hclnb hclv
        refine ⟨qv, by rw [hgs, if_neg hvne]; exact hgv, ?_⟩
        intro e2 he2
        obtain ⟨qn, hgn, hlen⟩ := hrelv e2 he2
        rw [hgs]
        by_cases hne2 : e2.toId = e.toId
        · rw [if_pos hne2]
          refine ⟨qc + e.cost, rfl, ?_⟩
          rw [hne2] at hgn
          have := hqilt qn hgn
          linarith
        · rw [if_neg hne2]
          exact ⟨qn, hgn, hlen⟩
      · intro v hv hclv c hr
        have hvne : v ≠ e.toId := by
          intro hc
          rw [hc] at hclv
          exact hclnb hclv
        obtain ⟨qv, hgv, hqv⟩ := hinv.closedopt v hv hclv c hr
        exact ⟨qv, by rw [hgs, if_neg hvne]; exact hgv, hqv⟩
      · intro v hv hclv q2 hq2
        rw [hgs] at hq2
        by_cases hveq : v = e.toId
        · rw [if_pos hveq] at hq2
          obtain rfl := Option.some.inj hq2
          refine ⟨⟨e.toId, (qc + e.cost, hsq g e.toId t)⟩, ?_, hveq.symm, rfl⟩
          rw [hmem]
          exact Or.inr rfl
        · rw [if_neg hveq] at hq2
          obtain ⟨e1, he1, he1id, he1f⟩ := hinv.fresh v hv hclv q2 hq2
          exact ⟨e1, (hmem e1).mpr (Or.inl he1), he1id, he1f⟩
      · rw [hgs, if_neg (fun hc => hnbcur hc.symm)]
        exact hqc
      · intro v qv hv
        rw [hgs]
        by_cases hveq : v = e.toId
        · rw [if_pos hveq]
          refine ⟨qc + e.cost, rfl, ?_⟩
          rw [hveq] at hv
          have := hqilt qv hv
          linarith
        · rw [if_neg hveq]
          exact ⟨qv, hv, le_refl qv⟩
      · rw [hgs, if_pos rfl]
        exact ⟨qc + e.cost, rfl, le_refl _⟩
    · rw [if_neg hrel]
      refine ⟨hinv, hqc, fun v qv hv => ⟨qv, hv, le_refl qv⟩, ?_⟩
      have hnq : ¬ qiLt (qc + e.cost) (acc.2.1 e.toId) = true := by
        intro hc
        exact hrel ⟨hnbn, hc⟩
      cases hgnb : acc.2.1 e.toId with
      | none =>
        rw [hgnb, qiLt] at hnq
        exact absurd rfl hnq
      | some qn =>
        rw [hgnb, qiLt] at hnq
        refine ⟨qn, rfl, ?_⟩
        simpa using not_lt.mp (by simpa using hnq)

theorem relaxFold_spec (g : RoadGraph) (s t n curId : Nat) (cl2 : Nat → Bool)
    (qc : ℚ)
    (Hids : ∀ u, ∀ e ∈ g.adj u, e.toId < n)
    (Hpos1 : ∀ u, ∀ e ∈ g.adj u, (1:ℚ) ≤ e.cost)
    (Hfind : ∀ u, ∀ e ∈ g.adj u, adjCostD g u e.toId = e.cost)
    (hcurn : curId < n) (hcl2cur : cl2 curId = true) :
    ∀ es : List OutEdge, (∀ e ∈ es, e ∈ g.adj curId) →
    ∀ acc : List AEntry × (Nat → Option ℚ) × (Nat → Int),
      RInv g s t n curId cl2 acc.1 acc.2.1 acc.2.2 → acc.2.1 curId = some qc →
      RInv g s t n curId cl2
        (es.foldl (relaxStepF g t n curId cl2 (some qc)) acc).1
        (es.foldl (relaxStepF g t n curId cl2 (some qc)) acc).2.1
        (es.foldl (relaxStepF g t n curId cl2 (some qc)) acc).2.2 ∧
      (es.foldl (relaxStepF g t n curId cl2 (some qc)) acc).2.1 curId = some qc ∧
      (∀ v qv, acc.2.1 v = some qv →
        ∃ qv', (es.foldl (relaxStepF g t n curId cl2 (some qc)) acc).2.1 v = some qv' ∧
          qv' ≤ qv) ∧
      (∀ e ∈ es, ∃ qn,
        (es.foldl (relaxStepF g t n curId cl2 (some qc)) acc).2.1 e.toId = some qn ∧
        qn ≤ qc + e.cost) := by
  intro es
  induction es with
  | nil =>
    intro _ acc hinv hqc
    exact ⟨hinv, hqc, fun v qv hv => ⟨qv, hv, le_refl qv⟩,
      fun e he => absurd he (List.not_mem_nil e)⟩
  | cons e es ih =>
    intro hsub acc hinv hqc
    have hstep := relaxStep_spec g s t n curId cl2 qc Hids Hpos1 Hfind hcurn hcl2cur
      e (hsub e (by simp)) acc hinv hqc
    obtain ⟨hinv1, hqc1, hmono1, hrel1⟩ := hstep
    have hih := ih (fun e2 he2 => hsub e2 (List.mem_cons_of_mem _ he2))
      (relaxStepF g t n curId cl2 (some qc) acc e) hinv1 hqc1
    obtain ⟨hinvF, hqcF, hmonoF, hrelF⟩ := hih
    rw [List.foldl_cons]
    refine ⟨hinvF, hqcF, ?_, ?_⟩
    · intro v qv hv
      obtain ⟨qv1, hv1, hle1⟩ := hmono1 v qv hv
      obtain ⟨qvF, hvF, hleF⟩ := hmonoF v qv1 hv1
      exact ⟨qvF, hvF, le_trans hleF hle1⟩
    · intro e2 he2
      rcases List.mem_cons.mp he2 with rfl | hmem
      · obtain ⟨qn, hqn, hqnle⟩ := hrel1
        obtain ⟨qn', hqn', hle'⟩ := hmonoF e2.toId qn hqn
        exact ⟨qn', hqn', le_trans hle' hqnle⟩
      · exact hrelF e2 hmem



/-- Decidable "gs u is finite and below gs v" predicate used as the parent-chain
termination measure. -/
def gsLtB (gs : Nat → Option ℚ) (v u : Nat) : Bool :=
  match gs u, gs v with
  | some qu, some qv => decide (qu < qv)
  | _, _ => false

/-- Number of nodes with a strictly smaller finite gScore. -/
def mG (n : Nat) (gs : Nat → Option ℚ) (v : Nat) : Nat :=
  (List.range n).countP (gsLtB gs v)

theorem mG_lt (n : Nat) (gs : Nat → Option ℚ) (u v : Nat) (hu : u < n)
    (qu qv : ℚ) (hgu : gs u = some qu) (hgv : gs v = some qv) (hlt : qu < qv) :
    mG n gs u < mG n gs v := by
  refine countP_lt (List.range n) (gsLtB gs u) (gsLtB gs v) ?_ u
    (List.mem_range.mpr hu) ?_ ?_
  · intro w _ hw
    rw [gsLtB] at hw ⊢
    rw [hgu] at hw
    rw [hgv]
    cases hgw : gs w with
    | none => rw [hgw] at hw; simp at hw
    | some qw =>
      rw [hgw] at hw
      simp only [decide_eq_true_eq] at hw ⊢
      linarith
  · rw [gsLtB, hgu, hgv]
    simpa using hlt
  · rw [gsLtB, hgu]
    simp

theorem reconLoop_cost (g : RoadGraph) (s n : Nat) (gs : Nat → Option ℚ)
    (cf : Nat → Int)
    (hparent : ∀ v, v < n → ∀ q, gs v = some q → v ≠ s →
      ∃ u : Nat, cf v = (u : Int) ∧ u < n ∧
        ∃ qu, gs u = some qu ∧ qu + adjCostD g u v ≤ q)
    (hadj1 : ∀ u v : Nat, (1:ℚ) ≤ adjCostD g u v)
    (hnonneg : ∀ v q, gs v = some q → 0 ≤ q) :
    ∀ (fuel : Nat) (p : Int) (out : List Nat),
      (p = -1 ∨ (0 ≤ p ∧ p.toNat < n ∧ ∃ qp, gs p.toNat = some qp)) →
      (p ≠ -1 → mG n gs p.toNat < fuel) →
      ∃ L, reconLoop cf s fuel p out = out ++ L ∧
        (p = -1 → L = []) ∧
        (∀ qp, p ≠ -1 → gs p.toNat = some qp →
          L.head? = some p.toNat ∧ pathCost g L.reverse ≤ qp) := by
  intro fuel
  induction fuel with
  | zero =>
    intro p out hp hfuel
    by_cases hp1 : p = -1
    · exact ⟨[], by rw [reconLoop, List.append_nil], fun _ => rfl,
        fun qp hne _ => absurd hp1 hne⟩
    · exact absurd (hfuel hp1) (by omega)
  | succ fuel ih =>
    intro p out hp hfuel
    by_cases hp1 : p = -1
    · refine ⟨[], ?_, fun _ => rfl, fun qp hne _ => absurd hp1 hne⟩
      rw [reconLoop, if_pos hp1, List.append_nil]
    · rcases hp with hc | ⟨hp0, hpn, qp0, hqp0⟩
      · exact absurd hc hp1
      · rw [reconLoop, if_neg hp1]
        dsimp only
        by_cases hps : p = (s : Int)
        · rw [if_pos hps]
          refine ⟨[p.toNat], rfl, fun hc => absurd hc hp1, ?_⟩
          intro qp hne hqp
          refine ⟨rfl, ?_⟩
          rw [List.reverse_singleton, pathCost_single]
          exact hnonneg p.toNat qp hqp
        · rw [if_neg hps]
          have hpns : p.toNat ≠ s := by
            intro hc
            apply hps
            omega
          obtain ⟨u, hcf, hun, qu, hgu, hle⟩ :=
            hparent p.toNat hpn qp0 hqp0 hpns
          have hqult : qu < qp0 := by
            have h1 := hadj1 u p.toNat
            linarith
          have hmlt : mG n gs u < mG n gs p.toNat :=
            mG_lt n gs u p.toNat hun qu qp0 hgu hqp0 hqult
          have hfuel2 : (u : Int) ≠ -1 → mG n gs ((u : Int)).toNat < fuel := by
            intro _
            have := hfuel hp1
            rw [Int.toNat_natCast]
            omega
          have hih := ih (cf p.toNat) (out ++ [p.toNat])
            (by
              rw [hcf]
              exact Or.inr ⟨by omega, by rw [Int.toNat_natCast]; exact hun,
                qu, by rw [Int.toNat_natCast]; exact hgu⟩)
            (by rw [hcf]; exact hfuel2)
          obtain ⟨L', hres, hnil', hcost'⟩ := hih
          refine ⟨p.toNat :: L', ?_, fun hc => absurd hc hp1, ?_⟩
          · rw [hres, List.append_assoc]
            rfl
          · intro qp hne hqp
            obtain rfl : qp = qp0 := by
              rw [hqp] at hqp0
              exact Option.some.inj hqp0.symm |>.symm
            have hune : (u : Int) ≠ -1 := by omega
            have hc' := hcost' qu (by rw [hcf]; exact hune)
              (by rw [hcf, Int.toNat_natCast]; exact hgu)
            rw [hcf, Int.toNat_natCast] at hc'
            obtain ⟨hhead, hcost''⟩ := hc'
            refine ⟨rfl, ?_⟩
            have hLne : L'.reverse ≠ [] := by
              intro hc
              have : L' = [] := by simpa using hc
              rw [this] at hhead
              exact absurd hhead (by simp)
            obtain ⟨a, hlast, happ⟩ := pathCost_append_last g L'.reverse p.toNat hLne
            have ha : a = u := by
              rw [List.getLast?_reverse] at hlast
              rw [hhead] at hlast
              exact (Option.some.inj hlast).symm
            rw [List.reverse_cons, happ, ha]
            linarith
theorem getD_zero_mem {α : Type} [Inhabited α] (l : List α) (hne : l ≠ []) :
    l.getD 0 default ∈ l := by
  cases l with
  | nil => exact absurd rfl hne
  | cons x t => exact List.mem_cons_self x t

theorem mem_tail_of_ne_head {α : Type} [Inhabited α] (l : List α) (hne : l ≠ [])
    (x : α) (hx : x ∈ l) (hxne : x ≠ l.getD 0 default) : x ∈ l.tail := by
  cases l with
  | nil => exact absurd rfl hne
  | cons h t =>
    rcases List.mem_cons.mp hx with rfl | hmem
    · exact absurd rfl hxne
    · exact hmem

theorem astarLoop_opt (g : RoadGraph) (s t n : Nat)
    (Hcons : ∀ u, ∀ e ∈ g.adj u, hRt g t u ≤ (e.cost : ℝ) + hRt g t e.toId)
    (Hids : ∀ u, ∀ e ∈ g.adj u, e.toId < n)
    (Hpos1 : ∀ u, ∀ e ∈ g.adj u, (1:ℚ) ≤ e.cost)
    (Hfind : ∀ u, ∀ e ∈ g.adj u, adjCostD g u e.toId = e.cost)
    (hs : s < n) (ht : t < n) (hst : s ≠ t) :
    ∀ (fuel : Nat) (heap : List AEntry) (gs : Nat → Option ℚ) (cf : Nat → Int)
      (cl : Nat → Bool), AInv g s t n heap gs cf cl →
      ∀ P, astarLoop g s t n fuel heap gs cf cl = some P →
        ∀ c, Reach g s t c → pathCost g P ≤ c := by
  intro fuel
  induction fuel with
  | zero =>
    intro heap gs cf cl inv P hq
    rw [astarLoop] at hq
    exact absurd hq (by simp)
  | succ fuel ih =>
    intro heap gs cf cl inv P hq c hreach
    rw [astarLoop] at hq
    by_cases hne : heap = []
    · rw [hne] at hq
      have hemp : heapPop aLt ([] : List AEntry) = (none, []) := rfl
      rw [hemp] at hq
      exact absurd hq (by simp)
    · obtain ⟨rest, hpop, hperm, hisheap, hmin⟩ :=
        heapPop_spec aLt (fun e => fval e.f) aLt_iff heap inv.isheap hne
      rw [hpop] at hq
      dsimp only at hq
      set cur := heap.getD 0 default with hcurdef
      have hcurmem : cur ∈ heap := getD_zero_mem heap hne
      have hsub : ∀ x ∈ rest, x ∈ heap := by
        intro x hx
        exact List.mem_of_mem_tail (hperm.mem_iff.mp hx)
      have hfreshrest : ∀ v, v < n → cl v = false → v ≠ cur.id →
          ∀ q, gs v = some q → ∃ e ∈ rest, e.id = v ∧ e.f.1 = q := by
        intro v hv hclv hvne q hgv
        obtain ⟨e, he, heid, hef⟩ := inv.fresh v hv hclv q hgv
        refine ⟨e, ?_, heid, hef⟩
        rw [hperm.mem_iff]
        refine mem_tail_of_ne_head heap hne e he ?_
        intro hc
        apply hvne
        rw [← heid, hc, ← hcurdef]
      by_cases hclcur : (if cur.id < n then cl cur.id else false) = true
      · rw [if_pos hclcur] at hq
        have hcurn : cur.id < n := (inv.hsound cur hcurmem).1
        rw [if_pos hcurn] at hclcur
        refine ih rest gs cf cl ⟨hisheap, ?_, inv.parent, inv.gstart,
          inv.gnonneg, inv.realiz, inv.closedrelax, inv.closedopt, ?_⟩ P hq c hreach
        · intro e he
          exact inv.hsound e (hsub e he)
        · intro v hv hclv q hgv
          refine hfreshrest v hv hclv ?_ q hgv
          intro hc
          rw [hc, hclcur] at hclv
          exact absurd hclv (by simp)
      · rw [if_neg hclcur] at hq
        have hcurn : cur.id < n := (inv.hsound cur hcurmem).1
        have hclf : cl cur.id = false := by
          rw [if_pos hcurn] at hclcur
          simpa using hclcur
        obtain ⟨hgst, hopt⟩ := ainv_popt inv Hcons Hids hs cur hcurmem hmin hclf
        by_cases hgoal : cur.id = t
        · rw [if_pos hgoal, if_pos hcurn] at hq
          obtain rfl := Option.some.inj hq
          rw [hgoal]
          have hgst2 : gs t = some cur.f.1 := hgoal ▸ hgst
          have hopt2 : ∀ c2, Reach g s t c2 → cur.f.1 ≤ c2 := by
            rw [hgoal] at hopt
            exact hopt
          obtain ⟨L, hres, _, hcost⟩ := reconLoop_cost g s n gs cf inv.parent
            (fun u v => adjCostD_ge_one g u v (Hpos1 u)) inv.gnonneg
            (n + 2) (t : Int) []
            (Or.inr ⟨by omega, by rw [Int.toNat_natCast]; exact ht,
              cur.f.1, by rw [Int.toNat_natCast]; exact hgst2⟩)
            (by
              intro _
              rw [Int.toNat_natCast]
              have hle : mG n gs t ≤ n := by
                rw [mG]
                calc (List.range n).countP (gsLtB gs t)
                    ≤ (List.range n).length := List.countP_le_length _
                  _ = n := List.length_range n
              omega)
          have hstep : reconLoop cf s (n + 2) (t : Int) [] =
              reconLoop cf s (n + 1) (cf t) [t] := by
            rw [reconLoop]
            rw [if_neg (by omega : ¬ (t : Int) = -1)]
            dsimp only
            rw [if_neg (show ¬ (t : Int) = (s : Int) by
              intro hc
              exact hst (Int.natCast_inj.mp hc).symm)]
            rw [Int.toNat_natCast, List.nil_append]
          rw [List.nil_append] at hres
          rw [← hstep, hres]
          have hcost2 := hcost cur.f.1 (by omega)
            (by rw [Int.toNat_natCast]; exact hgst2)
          exact le_trans hcost2.2 (hopt2 c hreach)
        · rw [if_neg hgoal, if_pos hcurn, hgst] at hq
          have hcl2cur : updF cl cur.id true cur.id = true := by
            rw [updF, if_pos rfl]
          have hrinv : RInv g s t n cur.id (updF cl cur.id true) rest gs cf := by
            refine ⟨hisheap, ?_, inv.parent, inv.gstart, inv.gnonneg, inv.realiz,
              ?_, ?_, ?_⟩
            · intro e he
              exact inv.hsound e (hsub e he)
            · intro v hv hclv hvcur
              rw [updF, if_neg hvcur] at hclv
              exact inv.closedrelax v hv hclv
            · intro v hv hclv c2 hr2
              rw [updF] at hclv
              by_cases hvcur : v = cur.id
              · subst hvcur
                exact ⟨cur.f.1, hgst, hopt c2 hr2⟩
              · rw [if_neg hvcur] at hclv
                exact inv.closedopt v hv hclv c2 hr2
            · intro v hv hclv q hgv
              rw [updF] at hclv
              by_cases hvcur : v = cur.id
              · rw [if_pos hvcur] at hclv
                exact absurd hclv (by simp)
              · rw [if_neg hvcur] at hclv
                exact hfreshrest v hv hclv hvcur q hgv
          obtain ⟨hinvF, hqcF, hmonoF, hrelF⟩ := relaxFold_spec g s t n cur.id
            (updF cl cur.id true) cur.f.1 Hids Hpos1 Hfind hcurn hcl2cur
            (g.adj cur.id) (fun e he => he) (rest, gs, cf) hrinv hgst
          refine ih _ _ _ _ ⟨hinvF.isheap, hinvF.hsound, hinvF.parent,
            hinvF.gstart, hinvF.gnonneg, hinvF.realiz, ?_, hinvF.closedopt,
            hinvF.fresh⟩ P hq c hreach
          intro v hv hclv
          by_cases hvcur : v = cur.id
          · subst hvcur
            exact ⟨cur.f.1, hqcF, hrelF⟩
          · exact hinvF.closedrelax v hv hclv hvcur

theorem findNodePathAStar_opt (g : RoadGraph) (s t iters : Nat) (P : List Nat)
    (Hcons : ∀ u, ∀ e ∈ g.adj u, hRt g t u ≤ (e.cost : ℝ) + hRt g t e.toId)
    (Hids : ∀ u, ∀ e ∈ g.adj u, e.toId < g.nodes.length)
    (Hpos1 : ∀ u, ∀ e ∈ g.adj u, (1:ℚ) ≤ e.cost)
    (Hfind : ∀ u, ∀ e ∈ g.adj u, adjCostD g u e.toId = e.cost)
    (hq : findNodePathAStar g s t iters = some P) :
    ∀ c, Reach g s t c → pathCost g P ≤ c := by
  intro c hreach
  have hc0 : 0 ≤ c := Reach.nonneg (fun u e he => by linarith [Hpos1 u e he]) hreach
  rw [findNodePathAStar] at hq
  by_cases hst : s = t
  · rw [if_pos hst] at hq
    obtain rfl := Option.some.inj hq
    rw [pathCost_single]
    exact hc0
  · rw [if_neg hst] at hq
    dsimp only at hq
    by_cases hrange : s ≥ g.nodes.length ∨ t ≥ g.nodes.length
    · rw [if_pos hrange] at hq
      exact absurd hq (by simp)
    · rw [if_neg hrange] at hq
      have hs : s < g.nodes.length := by omega
      have ht : t < g.nodes.length := by omega
      have hpush := heapPush_spec aLt (fun e => fval e.f) aLt_iff []
        ⟨s, (0, hsq g s t)⟩ (fun j hj hjl => by simp at hjl)
      have hmem0 : ∀ x, x ∈ heapPush aLt [] ⟨s, (0, hsq g s t)⟩ ↔
          x = (⟨s, (0, hsq g s t)⟩ : AEntry) := by
        intro x
        rw [hpush.2.mem_iff]
        simp
      have hgs0 : ∀ v, updF (fun _ => (none : Option ℚ)) s (some 0) v =
          if v = s then some 0 else none := fun v => rfl
      refine astarLoop_opt g s t g.nodes.length Hcons Hids Hpos1 Hfind hs ht hst
        iters _ _ _ _ ⟨hpush.1, ?_, ?_, ?_, ?_, ?_, ?_, ?_, ?_⟩ P hq c hreach
      · intro e he
        obtain rfl := (hmem0 e).mp he
        exact ⟨hs, rfl, 0, by rw [hgs0, if_pos rfl], le_refl 0⟩
      · intro v hv q hgv hvs
        rw [hgs0, if_neg hvs] at hgv
        exact absurd hgv (by simp)
      · rw [hgs0, if_pos rfl]
      · intro v q hgv
        rw [hgs0] at hgv
        by_cases hvs : v = s
        · rw [if_pos hvs] at hgv
          obtain rfl := Option.some.inj hgv
          exact le_refl 0
        · rw [if_neg hvs] at hgv
          exact absurd hgv (by simp)
      · intro v q hgv
        rw [hgs0] at hgv
        by_cases hvs : v = s
        · subst hvs
          rw [if_pos rfl] at hgv
          obtain rfl := Option.some.inj hgv
          exact ⟨0, Reach.refl, le_refl 0⟩
        · rw [if_neg hvs] at hgv
          exact absurd hgv (by simp)
      · intro v hv hclv
        exact absurd hclv (by simp)
      · intro v hv hclv
        exact absurd hclv (by simp)
      · intro v hv hclv q hgv
        rw [hgs0] at hgv
        by_cases hvs : v = s
        · subst hvs
          rw [if_pos rfl] at hgv
          obtain rfl := Option.some.inj hgv
          exact ⟨⟨v, (0, hsq g v t)⟩, (hmem0 _).mpr rfl, rfl, rfl⟩
        · rw [if_neg hvs] at hgv
          exact absurd hgv (by simp)

theorem graph_astar_admissible (m : GameMap) (s t iters maxIters : Nat)
    (P : List Nat) (d : ℚ)
    (hA : findNodePathAStar (ensureRoadGraph m) s t iters = some P)
    (hD : dijkstraCosts (ensureRoadGraph m) s maxIters t = some d) :
    pathCost (ensureRoadGraph m) P ≤ d := by
  obtain ⟨c, hreach, hcd⟩ := dijkstraCosts_sound (ensureRoadGraph m) s maxIters t d hD
  have hP := findNodePathAStar_opt (ensureRoadGraph m) s t iters P
    (fun u e he => by
      rw [hRt, hRt]
      exact built_consistent m 2 t u e he)
    (fun u e he => (built_adj_props m 2 u e he).2.2)
    (fun u e he => (built_adj_props m 2 u e he).1)
    (fun u e he => adjCostD_built m 2 u e he)
    hA c hreach
  linarith



section
set_option maxHeartbeats 1000000

/-- The comparison model required by the admissibility claim for grid A*: the
tile grid as a graph (one node per tile, an edge to each in-bounds passable
4-neighbor costing that neighbor's tile cost), so that the code's dijkstraCosts
runs an exact uncapped Dijkstra over the same cost model as findPathAStar. -/
def gridGraph (m : GameMap) (mode : String) : RoadGraph :=
  { roadTile := 2
    nodes := (rowMajorTiles m).map fun t => ⟨0, t.tx, t.ty, 0, 0⟩
    dirEdges := []
    undirEdges := []
    adj := fun i =>
      let x : Int := (i : Int) % m.width
      let y : Int := (i : Int) / m.width
      if inBoundsB m x y then
        DIRS4.filterMap fun d =>
          let nx := x + d.dx
          let ny := y + d.dy
          if inBoundsB m nx ny then
            match tileCost m nx ny mode with
            | none => none
            | some c => some ⟨(idx nx ny m.width).toNat, 0, c, d.dx, d.dy, 1, 0⟩
          else none
      else []
    nodeId := fun _ => none
    tileToNode := fun _ => none
    tileToNodeDist := fun _ => 65535 }

/-- Total cost of a tile path in the grid cost model: each tile after the
first costs its tileCost on entry. -/
def gridPathCost (m : GameMap) (mode : String) (l : List Tile) : ℚ :=
  l.tail.foldl (fun acc t => acc + (tileCost m t.tx t.ty mode).getD 0) 0

theorem tileCost_ge_one (m : GameMap) (x y : Int) (mode : String) (c : ℚ)
    (h : tileCost m x y mode = some c) : 1 ≤ c := by
  rw [tileCost] at h
  split at h
  · exact absurd h (by simp)
  · split at h <;> split at h <;>
      first
        | (obtain rfl := Option.some.inj h; norm_num)
        | (split at h <;>
            first
              | (obtain rfl := Option.some.inj h; norm_num)
              | (split at h <;> (obtain rfl := Option.some.inj h; norm_num)))

theorem idx_decode (m : GameMap) (x y : Int) (h : inBoundsB m x y = true) :
    idx x y m.width % m.width = x ∧ idx x y m.width / m.width = y ∧
      0 ≤ idx x y m.width := by
  rw [inBoundsB] at h
  simp only [Bool.and_eq_true, decide_eq_true_eq] at h
  obtain ⟨⟨⟨hx0, hxw⟩, hy0⟩, hyh⟩ := h
  have hw0 : 0 < m.width := by omega
  rw [idx]
  refine ⟨?_, ?_, ?_⟩
  · rw [add_comm, Int.add_mul_emod_self]
    exact Int.emod_eq_of_lt hx0 hy0
  · rw [add_comm, Int.add_mul_ediv_right x y (by omega : m.width ≠ 0)]
    rw [Int.ediv_eq_zero_of_lt hx0 hy0]
    ring
  · positivity
/-- Tile addressed by a grid node id. -/
def tileOfId (m : GameMap) (i : Nat) : Tile :=
  ⟨(i : Int) % m.width, (i : Int) / m.width⟩

theorem gridAdj_elim (m : GameMap) (mode : String) (i : Nat) (e : OutEdge)
    (he : e ∈ (gridGraph m mode).adj i) :
    inBoundsB m (tileOfId m i).tx (tileOfId m i).ty = true ∧
    ∃ d ∈ DIRS4, ∃ c,
      inBoundsB m ((tileOfId m i).tx + d.dx) ((tileOfId m i).ty + d.dy) = true ∧
      tileCost m ((tileOfId m i).tx + d.dx) ((tileOfId m i).ty + d.dy) mode = some c ∧
      e = ⟨(idx ((tileOfId m i).tx + d.dx) ((tileOfId m i).ty + d.dy) m.width).toNat,
        0, c, d.dx, d.dy, 1, 0⟩ := by
  rw [gridGraph] at he
  dsimp only at he
  split at he
  · next hib =>
    refine ⟨hib, ?_⟩
    obtain ⟨d, hd, hfd⟩ := List.mem_filterMap.mp he
    refine ⟨d, hd, ?_⟩
    split at hfd
    · next hib2 =>
      split at hfd
      · exact absurd hfd (by simp)
      · next c hc =>
        refine ⟨c, hib2, hc, ?_⟩
        exact (Option.some.inj hfd).symm
    · exact absurd hfd (by simp)
  · exact absurd he (List.not_mem_nil e)

theorem gridAdj_intro (m : GameMap) (mode : String) (i : Nat) (d : Dir)
    (hd : d ∈ DIRS4)
    (hib : inBoundsB m (tileOfId m i).tx (tileOfId m i).ty = true)
    (c : ℚ)
    (hib2 : inBoundsB m ((tileOfId m i).tx + d.dx) ((tileOfId m i).ty + d.dy) = true)
    (hc : tileCost m ((tileOfId m i).tx + d.dx) ((tileOfId m i).ty + d.dy) mode =
      some c) :
    (⟨(idx ((tileOfId m i).tx + d.dx) ((tileOfId m i).ty + d.dy) m.width).toNat,
      0, c, d.dx, d.dy, 1, 0⟩ : OutEdge) ∈ (gridGraph m mode).adj i := by
  have hib' : inBoundsB m ((i : Int) % m.width) ((i : Int) / m.width) = true := hib
  have hib2' : inBoundsB m ((i : Int) % m.width + d.dx)
      ((i : Int) / m.width + d.dy) = true := hib2
  have hc' : tileCost m ((i : Int) % m.width + d.dx)
      ((i : Int) / m.width + d.dy) mode = some c := hc
  rw [gridGraph]
  dsimp only
  rw [if_pos hib']
  refine List.mem_filterMap.mpr ⟨d, hd, ?_⟩
  dsimp only
  rw [if_pos hib2', hc']
  rfl

theorem hManhattan_step (d : Dir) (hd : d ∈ DIRS4) (x y : Int) (gl : Tile) :
    hManhattan ⟨x, y⟩ gl ≤ 1 + hManhattan ⟨x + d.dx, y + d.dy⟩ gl := by
  have hgen : ∀ dx dy : Int, dx.natAbs + dy.natAbs = 1 →
      hManhattan ⟨x, y⟩ gl ≤ 1 + hManhattan ⟨x + dx, y + dy⟩ gl := by
    intro dx dy habs
    rw [hManhattan, hManhattan]
    dsimp only
    have hnat : (x - gl.tx).natAbs + (y - gl.ty).natAbs ≤
        1 + ((x + dx - gl.tx).natAbs + (y + dy - gl.ty).natAbs) := by
      omega
    have := (Nat.cast_le (α := ℚ)).mpr hnat
    push_cast at this ⊢
    linarith
  simp only [DIRS4, List.mem_cons, List.not_mem_nil, or_false] at hd
  rcases hd with rfl | rfl | rfl | rfl <;> exact hgen _ _ (by norm_num)

theorem gridAdj_cost_ge_one (m : GameMap) (mode : String) (i : Nat) (e : OutEdge)
    (he : e ∈ (gridGraph m mode).adj i) : (1:ℚ) ≤ e.cost := by
  obtain ⟨hib, d, hd, c, hib2, hc, rfl⟩ := gridAdj_elim m mode i e he
  exact tileCost_ge_one m _ _ mode c hc

theorem gridAdj_consistent (m : GameMap) (mode : String) (goal : Tile) (i : Nat)
    (e : OutEdge) (he : e ∈ (gridGraph m mode).adj i) :
    hManhattan (tileOfId m i) goal ≤ e.cost + hManhattan (tileOfId m e.toId) goal := by
  obtain ⟨hib, d, hd, c, hib2, hc, rfl⟩ := gridAdj_elim m mode i e he
  obtain ⟨hmod, hdiv, hnn⟩ := idx_decode m _ _ hib2
  have hto : tileOfId m (idx ((tileOfId m i).tx + d.dx) ((tileOfId m i).ty + d.dy)
      m.width).toNat = ⟨(tileOfId m i).tx + d.dx, (tileOfId m i).ty + d.dy⟩ := by
    rw [tileOfId]
    rw [Int.toNat_of_nonneg hnn]
    rw [hmod, hdiv]
  dsimp only
  rw [hto]
  have hstep := hManhattan_step d hd (tileOfId m i).tx (tileOfId m i).ty goal
  have hc1 : (1:ℚ) ≤ c := tileCost_ge_one m _ _ mode c hc
  have htile : (⟨(tileOfId m i).tx, (tileOfId m i).ty⟩ : Tile) = tileOfId m i := rfl
  rw [htile] at hstep
  linarith

theorem selectMin_go (l : List (Int × GridNode)) :
    ∀ (b : Option (Int × GridNode)) (r : Int × GridNode),
      l.foldl (fun best e =>
        match best with
        | none => some e
        | some bb => if e.2.f < bb.2.f then some e else bb) b = some r →
      (r ∈ l ∨ b = some r) ∧ (∀ p ∈ l, r.2.f ≤ p.2.f) ∧
        (∀ x, b = some x → r.2.f ≤ x.2.f) := by
  induction l with
  | nil =>
    intro b r h
    have h' : b = some r := h
    refine ⟨Or.inr h', fun p hp => absurd hp (List.not_mem_nil p), ?_⟩
    intro x hx
    rw [h'] at hx
    obtain rfl := Option.some.inj hx
    exact le_refl _
  | cons e l ih =>
    intro b r h
    rw [List.foldl_cons] at h
    obtain ⟨hmem, hmin, hinit⟩ := ih _ r h
    obtain ⟨x0, hx0⟩ : ∃ x0, (match b with
        | none => some e
        | some bb => if e.2.f < bb.2.f then some e else bb) = some x0 := by
      cases b with
      | none => exact ⟨e, rfl⟩
      | some bb =>
        dsimp only
        by_cases hlt : e.2.f < bb.2.f
        · rw [if_pos hlt]
          exact ⟨e, rfl⟩
        · rw [if_neg hlt]
          exact ⟨bb, rfl⟩
    have hstep : (x0 = e ∨ b = some x0) ∧ x0.2.f ≤ e.2.f ∧
        ∀ y, b = some y → x0.2.f ≤ y.2.f := by
      cases b with
      | none =>
        refine ⟨Or.inl (Option.some.inj hx0).symm, ?_, fun y hy => by simp at hy⟩
        rw [← Option.some.inj hx0]
      | some bb =>
        dsimp only at hx0
        by_cases hlt : e.2.f < bb.2.f
        · rw [if_pos hlt] at hx0
          obtain rfl := Option.some.inj hx0
          refine ⟨Or.inl rfl, le_refl _, ?_⟩
          intro y hy
          obtain rfl := Option.some.inj hy
          exact le_of_lt hlt
        · rw [if_neg hlt] at hx0
          obtain rfl := Option.some.inj hx0
          refine ⟨Or.inr rfl, le_of_not_lt hlt, ?_⟩
          intro y hy
          obtain rfl := Option.some.inj hy
          exact le_refl _
    have hrx0 : r.2.f ≤ x0.2.f := hinit x0 hx0
    refine ⟨?_, ?_, ?_⟩
    · rcases hmem with hl | hb
      · exact Or.inl (List.mem_cons_of_mem e hl)
      · rw [hx0] at hb
        obtain rfl := Option.some.inj hb
        rcases hstep.1 with rfl | hbr
        · exact Or.inl (List.mem_cons_self _ _)
        · exact Or.inr hbr
    · intro p hp
      rcases List.mem_cons.mp hp with rfl | hpl
      · exact le_trans hrx0 hstep.2.1
      · exact hmin p hpl
    · intro x hx
      exact le_trans hrx0 (hstep.2.2 x hx)

/-- Well-formed ancestor chain of a grid search node: each link enters an
in-bounds passable tile and accounts for its cost. -/
def chainCostOK (m : GameMap) (mode : String) : GridNode → Prop
  | .mk _ _ g _ none => 0 ≤ g
  | .mk tx ty g _ (some p) => chainCostOK m mode p ∧
      ∃ c, tileCost m tx ty mode = some c ∧ p.g + c ≤ g

theorem chainToList_ne_nil (n : GridNode) : chainToList n ≠ [] := by
  cases n with
  | mk tx ty g f p =>
    cases p with
    | none => simp [chainToList]
    | some q => simp [chainToList]

theorem gridPathCost_append (m : GameMap) (mode : String) (A : List Tile)
    (b : Tile) (hA : A ≠ []) :
    gridPathCost m mode (A ++ [b]) =
      gridPathCost m mode A + (tileCost m b.tx b.ty mode).getD 0 := by
  rw [gridPathCost, gridPathCost]
  have htail : (A ++ [b]).tail = A.tail ++ [b] := by
    cases A with
    | nil => exact absurd rfl hA
    | cons x t => rfl
  rw [htail, List.foldl_append]
  rfl

theorem chainCost_le (m : GameMap) (mode : String) :
    ∀ n : GridNode, chainCostOK m mode n →
      gridPathCost m mode (chainToList n) ≤ n.g
  | .mk tx ty g f none, h => by
    rw [chainToList, gridPathCost]
    exact h
  | .mk tx ty g f (some p), h => by
    rw [chainToList]
    obtain ⟨hp, c, hc, hle⟩ := h
    have hih := chainCost_le m mode p hp
    rw [gridPathCost_append m mode _ _ (chainToList_ne_nil p)]
    rw [hc]
    show gridPathCost m mode (chainToList p) + c ≤ g
    calc gridPathCost m mode (chainToList p) + c ≤ p.g + c := by linarith
      _ ≤ g := hle

theorem openDelete_mem (opn : List (Int × GridNode)) (k : Int) (p : Int × GridNode) :
    p ∈ openDelete opn k ↔ p ∈ opn ∧ p.1 ≠ k := by
  rw [openDelete, List.mem_filter]
  simp

theorem openDelete_nodup (opn : List (Int × GridNode)) (k : Int)
    (h : (opn.map Prod.fst).Nodup) : ((openDelete opn k).map Prod.fst).Nodup :=
  List.Nodup.sublist (List.Sublist.map Prod.fst (List.filter_sublist opn)) h

theorem openSet_mem (opn : List (Int × GridNode)) (k : Int) (v : GridNode)
    (p : Int × GridNode) :
    p ∈ openSet opn k v ↔ (p ∈ opn ∧ p.1 ≠ k) ∨ p = (k, v) := by
  rw [openSet]
  by_cases hany : (opn.any fun e => e.1 == k) = true
  · rw [if_pos hany]
    constructor
    · intro hp
      obtain ⟨q, hq, hfq⟩ := List.mem_map.mp hp
      by_cases hqk : q.1 = k
      · rw [if_pos (by simpa using hqk)] at hfq
        exact Or.inr hfq.symm
      · rw [if_neg (by simpa using hqk)] at hfq
        exact Or.inl ⟨hfq ▸ hq, hfq ▸ hqk⟩
    · rintro (⟨hp, hne⟩ | rfl)
      · exact List.mem_map.mpr ⟨p, hp, by rw [if_neg (by simpa using hne)]⟩
      · obtain ⟨q, hq, hqk⟩ := List.any_eq_true.mp hany
        exact List.mem_map.mpr ⟨q, hq, by rw [if_pos hqk]⟩
  · rw [if_neg hany]
    rw [List.mem_append, List.mem_singleton]
    constructor
    · rintro (hp | rfl)
      · refine Or.inl ⟨hp, ?_⟩
        intro hc
        exact hany (List.any_eq_true.mpr ⟨p, hp, by simpa using hc⟩)
      · exact Or.inr rfl
    · rintro (⟨hp, _⟩ | rfl)
      · exact Or.inl hp
      · exact Or.inr rfl

theorem openSet_nodup (opn : List (Int × GridNode)) (k : Int) (v : GridNode)
    (h : (opn.map Prod.fst).Nodup) : ((openSet opn k v).map Prod.fst).Nodup := by
  rw [openSet]
  by_cases hany : (opn.any fun e => e.1 == k) = true
  · rw [if_pos hany]
    have hkeys : ((opn.map fun e => if e.1 == k then (k, v) else e).map Prod.fst) =
        opn.map Prod.fst := by
      rw [List.map_map]
      refine List.map_congr_left ?_
      intro q _
      show (if q.1 == k then (k, v) else q).1 = q.1
      by_cases hqk : q.1 = k
      · rw [if_pos (by simpa using hqk)]
        exact hqk.symm
      · rw [if_neg (by simpa using hqk)]
    rw [hkeys]
    exact h
  · rw [if_neg hany]
    rw [List.map_append]
    rw [List.nodup_append]
    refine ⟨h, by simp, ?_⟩
    intro a ha hb
    simp only [List.map_cons, List.map_nil, List.mem_singleton] at hb
    obtain ⟨q, hq, rfl⟩ := List.mem_map.mp ha
    subst hb
    exact hany (List.any_eq_true.mpr ⟨q, hq, by simp⟩)

/-- Loop invariant of findPathAStar, with a ghost record gv of the best-known
gScore per tile key (open entries carry it; closed tiles keep their final
value). -/
structure GInv (m : GameMap) (mode : String) (goal : Tile) (sKey : Int)
    (opn : List (Int × GridNode)) (closed : List Int) (gv : Int → Option ℚ) :
    Prop where
  nodup : (opn.map Prod.fst).Nodup
  disj : ∀ p ∈ opn, p.1 ∉ closed
  entry : ∀ p ∈ opn, inBoundsB m p.2.tx p.2.ty = true ∧
    p.1 = idx p.2.tx p.2.ty m.width ∧
    p.2.f = p.2.g + hManhattan ⟨p.2.tx, p.2.ty⟩ goal ∧
    chainCostOK m mode p.2 ∧ gv p.1 = some p.2.g
  closedgv : ∀ k ∈ closed, ∃ q, gv k = some q
  freshg : ∀ k q, gv k = some q → k ∉ closed → ∃ nd, (k, nd) ∈ opn ∧ nd.g = q
  nonneg : ∀ k q, gv k = some q → 0 ≤ q
  startv : gv sKey = some 0
  realiz : ∀ k q, gv k = some q → 0 ≤ k ∧
    ∃ c, Reach (gridGraph m mode) sKey.toNat k.toNat c ∧ c ≤ q
  closedrelax : ∀ k ∈ closed, ∀ e ∈ (gridGraph m mode).adj k.toNat,
    ∃ qc qn, gv k = some qc ∧ gv ((e.toId : Int)) = some qn ∧ qn ≤ qc + e.cost
  closedopt : ∀ k ∈ closed, ∀ c, Reach (gridGraph m mode) sKey.toNat k.toNat c →
    ∃ q, gv k = some q ∧ q ≤ c

theorem entry_tile {m : GameMap} {mode : String} {goal : Tile} {sKey : Int}
    {opn : List (Int × GridNode)} {closed : List Int} {gv : Int → Option ℚ}
    (inv : GInv m mode goal sKey opn closed gv) (p : Int × GridNode)
    (hp : p ∈ opn) : 0 ≤ p.1 ∧ tileOfId m (p.1).toNat = ⟨p.2.tx, p.2.ty⟩ := by
  obtain ⟨hib, hkey, _, _, _⟩ := inv.entry p hp
  obtain ⟨hmod, hdiv, hnn⟩ := idx_decode m _ _ hib
  constructor
  · rw [hkey]
    exact hnn
  · rw [tileOfId, hkey, Int.toNat_of_nonneg hnn, hmod, hdiv]

theorem ginv_cover {m : GameMap} {mode : String} {goal : Tile} {sKey : Int}
    {opn : List (Int × GridNode)} {closed : List Int} {gv : Int → Option ℚ}
    (inv : GInv m mode goal sKey opn closed gv) (hs0 : 0 ≤ sKey) :
    ∀ w c, Reach (gridGraph m mode) sKey.toNat w c →
      ((w : Int) ∈ closed ∧ ∃ q, gv (w : Int) = some q ∧ q ≤ c) ∨
      (∃ p ∈ opn, p.2.f ≤ c + hManhattan (tileOfId m w) goal) := by
  intro w c h
  induction h with
  | refl =>
    have hsk : ((sKey.toNat : Nat) : Int) = sKey := Int.toNat_of_nonneg hs0
    by_cases hcl : sKey ∈ closed
    · exact Or.inl ⟨hsk ▸ hcl, 0, hsk ▸ inv.startv, le_refl 0⟩
    · obtain ⟨nd, hnd, hg⟩ := inv.freshg sKey 0 inv.startv hcl
      refine Or.inr ⟨(sKey, nd), hnd, ?_⟩
      obtain ⟨_, hkey, hf, _, _⟩ := inv.entry (sKey, nd) hnd
      obtain ⟨_, htile⟩ := entry_tile inv (sKey, nd) hnd
      rw [hf, hg]
      rw [show tileOfId m (sKey.toNat) = ⟨nd.tx, nd.ty⟩ from htile]
  | @step u c0 hr e0 he0 ih =>
    have hu0 : 0 ≤ (u : Int) := by omega
    have hw0 : 0 ≤ (e0.toId : Int) := by omega
    have hwcast : ((e0.toId : Int)).toNat = e0.toId := Int.toNat_natCast _
    have hcons := gridAdj_consistent m mode goal u e0 he0
    rcases ih with ⟨hclu, qu, hgu, hque⟩ | ⟨p, hp, hfp⟩
    · obtain ⟨qc, qn, hgc, hgn, hlen⟩ := inv.closedrelax (u : Int) hclu e0
        (by rw [Int.toNat_natCast]; exact he0)
      obtain rfl : qc = qu := by
        rw [hgu] at hgc
        exact (Option.some.inj hgc).symm
      by_cases hclw : ((e0.toId : Int)) ∈ closed
      · exact Or.inl ⟨hclw, qn, hgn, by linarith⟩
      · obtain ⟨nd, hnd, hg⟩ := inv.freshg _ qn hgn hclw
        refine Or.inr ⟨((e0.toId : Int), nd), hnd, ?_⟩
        obtain ⟨_, hkey, hf, _, _⟩ := inv.entry _ hnd
        obtain ⟨_, htile⟩ := entry_tile inv _ hnd
        rw [hwcast] at htile
        rw [hf, hg, htile]
        have h1 : hManhattan ⟨nd.tx, nd.ty⟩ goal =
            hManhattan (tileOfId m e0.toId) goal := by
          rw [htile]
        linarith
    · refine Or.inr ⟨p, hp, ?_⟩
      have hc1 : (1:ℚ) ≤ e0.cost := gridAdj_cost_ge_one m mode u e0 he0
      linarith

theorem ginv_popt {m : GameMap} {mode : String} {goal : Tile} {sKey : Int}
    {opn : List (Int × GridNode)} {closed : List Int} {gv : Int → Option ℚ}
    (inv : GInv m mode goal sKey opn closed gv) (hs0 : 0 ≤ sKey)
    (best : Int × GridNode) (hbest : best ∈ opn)
    (hmin : ∀ p ∈ opn, best.2.f ≤ p.2.f) :
    ∀ c, Reach (gridGraph m mode) sKey.toNat (best.1).toNat c → best.2.g ≤ c := by
  intro c hr
  obtain ⟨hb0, hbtile⟩ := entry_tile inv best hbest
  have hbk : (((best.1).toNat : Nat) : Int) = best.1 := Int.toNat_of_nonneg hb0
  rcases ginv_cover inv hs0 (best.1).toNat c hr with ⟨hcl, _⟩ | ⟨p, hp, hfp⟩
  · rw [hbk] at hcl
    exact absurd hcl (inv.disj best hbest)
  · obtain ⟨_, _, hf, _, _⟩ := inv.entry best hbest
    have hminp := hmin p hp
    rw [hf] at hminp
    rw [hbtile] at hfp
    linarith

/-- One relaxation direction of the grid A* loop (the body of its DIRS4 fold,
verbatim). -/
def gridRelaxStepF (m : GameMap) (goal : Tile) (mode : String)
    (closed1 : List Int) (bestN : GridNode)
    (acc : List (Int × GridNode)) (d : Dir) : List (Int × GridNode) :=
  let nx := bestN.tx + d.dx
  let ny := bestN.ty + d.dy
  if !inBoundsB m nx ny then acc
  else
    match tileCost m nx ny mode with
    | none => acc
    | some c =>
      let nk := idx nx ny m.width
      if closed1.contains nk then acc
      else
        let ng := bestN.g + c
        let keep :=
          match acc.find? fun e => e.1 == nk with
          | none => true
          | some ex => ng < ex.2.g
        if keep then
          openSet acc nk
            (.mk nx ny ng (ng + hManhattan ⟨nx, ny⟩ goal) (some bestN))
        else acc

/-- Pointwise update of an Int-keyed ghost score map. -/
def updZ (f : Int → Option ℚ) (k : Int) (v : Option ℚ) : Int → Option ℚ :=
  fun j => if j = k then v else f j

theorem int_contains_iff_mem (l : List Int) (a : Int) :
    l.contains a = true ↔ a ∈ l := by
  simp

theorem key_tile (m : GameMap) (x y : Int) (h : inBoundsB m x y = true) :
    0 ≤ idx x y m.width ∧ tileOfId m (idx x y m.width).toNat = ⟨x, y⟩ := by
  obtain ⟨hmod, hdiv, hnn⟩ := idx_decode m x y h
  refine ⟨hnn, ?_⟩
  rw [tileOfId, Int.toNat_of_nonneg hnn, hmod, hdiv]

/-- The four-neighbor in direction d of the expanded node has been relaxed:
the ghost score at its key is at most the expanded g plus its tile cost. -/
def RelaxedD (m : GameMap) (mode : String) (bestN : GridNode)
    (gv : Int → Option ℚ) (d : Dir) : Prop :=
  ∀ c, inBoundsB m (bestN.tx + d.dx) (bestN.ty + d.dy) = true →
    tileCost m (bestN.tx + d.dx) (bestN.ty + d.dy) mode = some c →
    ∃ qn, gv (idx (bestN.tx + d.dx) (bestN.ty + d.dy) m.width) = some qn ∧
      qn ≤ bestN.g + c

/-- Loop invariant threaded through the relaxation fold: GInv minus the
closed-relaxed property at the key being expanded. -/
structure GRInv (m : GameMap) (mode : String) (goal : Tile) (sKey bestK : Int)
    (opn : List (Int × GridNode)) (closed : List Int) (gv : Int → Option ℚ) :
    Prop where
  nodup : (opn.map Prod.fst).Nodup
  disj : ∀ p ∈ opn, p.1 ∉ closed
  entry : ∀ p ∈ opn, inBoundsB m p.2.tx p.2.ty = true ∧
    p.1 = idx p.2.tx p.2.ty m.width ∧
    p.2.f = p.2.g + hManhattan ⟨p.2.tx, p.2.ty⟩ goal ∧
    chainCostOK m mode p.2 ∧ gv p.1 = some p.2.g
  closedgv : ∀ k ∈ closed, ∃ q, gv k = some q
  freshg : ∀ k q, gv k = some q → k ∉ closed → ∃ nd, (k, nd) ∈ opn ∧ nd.g = q
  nonneg : ∀ k q, gv k = some q → 0 ≤ q
  startv : gv sKey = some 0
  realiz : ∀ k q, gv k = some q → 0 ≤ k ∧
    ∃ c, Reach (gridGraph m mode) sKey.toNat k.toNat c ∧ c ≤ q
  closedrelax : ∀ k ∈ closed, k ≠ bestK → ∀ e ∈ (gridGraph m mode).adj k.toNat,
    ∃ qc qn, gv k = some qc ∧ gv ((e.toId : Int)) = some qn ∧ qn ≤ qc + e.cost
  closedopt : ∀ k ∈ closed, ∀ c, Reach (gridGraph m mode) sKey.toNat k.toNat c →
    ∃ q, gv k = some q ∧ q ≤ c

theorem gridRelax_insert (m : GameMap) (mode : String) (goal : Tile)
    (sKey bestK : Int) (closed1 : List Int) (bestN : GridNode) (c : ℚ)
    (hbib : inBoundsB m bestN.tx bestN.ty = true)
    (hbkey : bestK = idx bestN.tx bestN.ty m.width)
    (hbch : chainCostOK m mode bestN)
    (d : Dir) (hd : d ∈ DIRS4)
    (acc : List (Int × GridNode)) (gv : Int → Option ℚ)
    (inv : GRInv m mode goal sKey bestK acc closed1 gv)
    (hbg : gv bestK = some bestN.g)
    (hib2 : inBoundsB m (bestN.tx + d.dx) (bestN.ty + d.dy) = true)
    (hc : tileCost m (bestN.tx + d.dx) (bestN.ty + d.dy) mode = some c)
    (hnkcl : idx (bestN.tx + d.dx) (bestN.ty + d.dy) m.width ∉ closed1)
    (hprev : ∀ q, gv (idx (bestN.tx + d.dx) (bestN.ty + d.dy) m.width) = some q →
      bestN.g + c < q) :
    ∃ gv' : Int → Option ℚ,
      GRInv m mode goal sKey bestK
        (openSet acc (idx (bestN.tx + d.dx) (bestN.ty + d.dy) m.width)
          (GridNode.mk (bestN.tx + d.dx) (bestN.ty + d.dy) (bestN.g + c)
            (bestN.g + c + hManhattan ⟨bestN.tx + d.dx, bestN.ty + d.dy⟩ goal)
            (some bestN))) closed1 gv' ∧
      (∀ k ∈ closed1, gv' k = gv k) ∧
      (∀ k q0, gv k = some q0 → ∃ q, gv' k = some q ∧ q ≤ q0) ∧
      RelaxedD m mode bestN gv' d := by
  have hc1 : (1:ℚ) ≤ c := tileCost_ge_one m _ _ mode c hc
  have hbg0 : 0 ≤ bestN.g := inv.nonneg bestK bestN.g hbg
  obtain ⟨hnk0, hnktile⟩ := key_tile m (bestN.tx + d.dx) (bestN.ty + d.dy) hib2
  obtain ⟨hbk0x, hbtile0⟩ := key_tile m bestN.tx bestN.ty hbib
  have hbtile : tileOfId m bestK.toNat = ⟨bestN.tx, bestN.ty⟩ := by
    rw [hbkey]
    exact hbtile0
  have hedge0 := gridAdj_intro m mode bestK.toNat d hd
    (by rw [hbtile]; exact hbib) c (by rw [hbtile]; exact hib2)
    (by rw [hbtile]; exact hc)
  rw [hbtile] at hedge0
  have hedge : (⟨(idx (bestN.tx + d.dx) (bestN.ty + d.dy) m.width).toNat, 0, c,
      d.dx, d.dy, 1, 0⟩ : OutEdge) ∈ (gridGraph m mode).adj bestK.toNat := hedge0
  obtain ⟨hbk0, cb, hrb, hcb⟩ := inv.realiz bestK bestN.g hbg
  have hreachnk : Reach (gridGraph m mode) sKey.toNat
      (idx (bestN.tx + d.dx) (bestN.ty + d.dy) m.width).toNat (cb + c) :=
    Reach.step hrb hedge
  have hupd : ∀ k, updZ gv (idx (bestN.tx + d.dx) (bestN.ty + d.dy) m.width)
      (some (bestN.g + c)) k =
      if k = idx (bestN.tx + d.dx) (bestN.ty + d.dy) m.width then
        some (bestN.g + c) else gv k := fun k => rfl
  have hskey : sKey ≠ idx (bestN.tx + d.dx) (bestN.ty + d.dy) m.width := by
    intro hkeq
    have h0 := inv.startv
    rw [hkeq] at h0
    have := hprev 0 h0
    linarith
  have hfroz : ∀ k ∈ closed1,
      updZ gv (idx (bestN.tx + d.dx) (bestN.ty + d.dy) m.width)
        (some (bestN.g + c)) k = gv k := by
    intro k hk
    rw [hupd, if_neg]
    intro hkeq
    rw [hkeq] at hk
    exact hnkcl hk
  have hmono : ∀ k q0, gv k = some q0 →
      ∃ q, updZ gv (idx (bestN.tx + d.dx) (bestN.ty + d.dy) m.width)
        (some (bestN.g + c)) k = some q ∧ q ≤ q0 := by
    intro k q0 h0
    rw [hupd]
    by_cases hkeq : k = idx (bestN.tx + d.dx) (bestN.ty + d.dy) m.width
    · rw [if_pos hkeq]
      rw [hkeq] at h0
      exact ⟨bestN.g + c, rfl, le_of_lt (hprev q0 h0)⟩
    · rw [if_neg hkeq]
      exact ⟨q0, h0, le_refl q0⟩
  refine ⟨updZ gv (idx (bestN.tx + d.dx) (bestN.ty + d.dy) m.width)
    (some (bestN.g + c)), ⟨?_, ?_, ?_, ?_, ?_, ?_, ?_, ?_, ?_, ?_⟩,
    hfroz, hmono, ?_⟩
  · exact openSet_nodup acc _ _ inv.nodup
  · intro p hp
    rcases (openSet_mem acc _ _ p).mp hp with ⟨hpa, _⟩ | rfl
    · exact inv.disj p hpa
    · exact hnkcl
  · intro p hp
    rcases (openSet_mem acc _ _ p).mp hp with ⟨hpa, hpne⟩ | rfl
    · obtain ⟨h1, h2, h3, h4, h5⟩ := inv.entry p hpa
      refine ⟨h1, h2, h3, h4, ?_⟩
      rw [hupd, if_neg hpne]
      exact h5
    · refine ⟨hib2, rfl, rfl, ⟨hbch, c, hc, le_refl (bestN.g + c)⟩, ?_⟩
      rw [hupd, if_pos rfl]
      rfl
  · intro k hk
    obtain ⟨q, hq⟩ := inv.closedgv k hk
    exact ⟨q, (hfroz k hk).trans hq⟩
  · intro k q hq hkcl
    rw [hupd] at hq
    by_cases hkeq : k = idx (bestN.tx + d.dx) (bestN.ty + d.dy) m.width
    · rw [if_pos hkeq] at hq
      obtain rfl := Option.some.inj hq
      refine ⟨GridNode.mk (bestN.tx + d.dx) (bestN.ty + d.dy) (bestN.g + c)
        (bestN.g + c + hManhattan ⟨bestN.tx + d.dx, bestN.ty + d.dy⟩ goal)
        (some bestN), ?_, rfl⟩
      refine (openSet_mem acc _ _ _).mpr (Or.inr ?_)
      rw [hkeq]
    · rw [if_neg hkeq] at hq
      obtain ⟨nd, hnd, hg⟩ := inv.freshg k q hq hkcl
      exact ⟨nd, (openSet_mem acc _ _ _).mpr (Or.inl ⟨hnd, hkeq⟩), hg⟩
  · intro k q hq
    rw [hupd] at hq
    by_cases hkeq : k = idx (bestN.tx + d.dx) (bestN.ty + d.dy) m.width
    · rw [if_pos hkeq] at hq
      obtain rfl := Option.some.inj hq
      linarith
    · rw [if_neg hkeq] at hq
      exact inv.nonneg k q hq
  · rw [hupd, if_neg hskey]
    exact inv.startv
  · intro k q hq
    rw [hupd] at hq
    by_cases hkeq : k = idx (bestN.tx + d.dx) (bestN.ty + d.dy) m.width
    · rw [if_pos hkeq] at hq
      obtain rfl := Option.some.inj hq
      refine ⟨by rw [hkeq]; exact hnk0, cb + c, by rw [hkeq]; exact hreachnk,
        by linarith⟩
    · rw [if_neg hkeq] at hq
      exact inv.realiz k q hq
  · intro k hk hkb e he
    obtain ⟨qc, qn, h1, h2, h3⟩ := inv.closedrelax k hk hkb e he
    obtain ⟨qn2, hqn2, hle2⟩ := hmono ((e.toId : Nat) : Int) qn h2
    exact ⟨qc, qn2, (hfroz k hk).trans h1, hqn2, by linarith⟩
  · intro k hk c2 hr2
    obtain ⟨q, hq, hle⟩ := inv.closedopt k hk c2 hr2
    exact ⟨q, (hfroz k hk).trans hq, hle⟩
  · intro c2 hib2x hc2
    rw [hc] at hc2
    obtain rfl := Option.some.inj hc2
    exact ⟨bestN.g + c, by rw [hupd, if_pos rfl], le_refl (bestN.g + c)⟩

theorem gridRelaxStep_spec (m : GameMap) (mode : String) (goal : Tile)
    (sKey bestK : Int) (closed1 : List Int) (bestN : GridNode)
    (hbib : inBoundsB m bestN.tx bestN.ty = true)
    (hbkey : bestK = idx bestN.tx bestN.ty m.width)
    (hbcl : bestK ∈ closed1)
    (hbch : chainCostOK m mode bestN)
    (d : Dir) (hd : d ∈ DIRS4)
    (acc : List (Int × GridNode)) (gv : Int → Option ℚ)
    (inv : GRInv m mode goal sKey bestK acc closed1 gv)
    (hbg : gv bestK = some bestN.g) :
    ∃ gv' : Int → Option ℚ,
      GRInv m mode goal sKey bestK
        (gridRelaxStepF m goal mode closed1 bestN acc d) closed1 gv' ∧
      (∀ k ∈ closed1, gv' k = gv k) ∧
      (∀ k q0, gv k = some q0 → ∃ q, gv' k = some q ∧ q ≤ q0) ∧
      RelaxedD m mode bestN gv' d := by
  have hbg0 : 0 ≤ bestN.g := inv.nonneg bestK bestN.g hbg
  cases hib2 : inBoundsB m (bestN.tx + d.dx) (bestN.ty + d.dy) with
  | false =>
    have hstep : gridRelaxStepF m goal mode closed1 bestN acc d = acc := by
      rw [gridRelaxStepF]
      dsimp only
      rw [if_pos (show (!inBoundsB m (bestN.tx + d.dx) (bestN.ty + d.dy)) = true
        by rw [hib2]; rfl)]
    rw [hstep]
    refine ⟨gv, inv, fun k _ => rfl, fun k q0 h => ⟨q0, h, le_refl q0⟩, ?_⟩
    intro c2 hib2x hc2
    rw [hib2] at hib2x
    exact absurd hib2x (Bool.false_ne_true)
  | true =>
    cases hc : tileCost m (bestN.tx + d.dx) (bestN.ty + d.dy) mode with
    | none =>
      have hstep : gridRelaxStepF m goal mode closed1 bestN acc d = acc := by
        rw [gridRelaxStepF]
        dsimp only
        rw [if_neg (show ¬ (!inBoundsB m (bestN.tx + d.dx) (bestN.ty + d.dy)) = true
          by rw [hib2]; exact Bool.false_ne_true)]
        rw [hc]
      rw [hstep]
      refine ⟨gv, inv, fun k _ => rfl, fun k q0 h => ⟨q0, h, le_refl q0⟩, ?_⟩
      intro c2 hib2x hc2
      rw [hc] at hc2
      exact absurd hc2 (by simp)
    | some c =>
      have hc1 : (1:ℚ) ≤ c := tileCost_ge_one m _ _ mode c hc
      have hreachfacts : ∀ hnkcl2 : idx (bestN.tx + d.dx) (bestN.ty + d.dy) m.width ∈
          closed1, ∃ qn, gv (idx (bestN.tx + d.dx) (bestN.ty + d.dy) m.width) =
            some qn ∧ qn ≤ bestN.g + c := by
        intro hnkcl2
        obtain ⟨hbk0x, hbtile0⟩ := key_tile m bestN.tx bestN.ty hbib
        have hbtile : tileOfId m bestK.toNat = ⟨bestN.tx, bestN.ty⟩ := by
          rw [hbkey]
          exact hbtile0
        have hedge0 := gridAdj_intro m mode bestK.toNat d hd
          (by rw [hbtile]; exact hbib) c (by rw [hbtile]; exact hib2)
          (by rw [hbtile]; exact hc)
        rw [hbtile] at hedge0
        have hedge : (⟨(idx (bestN.tx + d.dx) (bestN.ty + d.dy) m.width).toNat, 0, c,
            d.dx, d.dy, 1, 0⟩ : OutEdge) ∈ (gridGraph m mode).adj bestK.toNat := hedge0
        obtain ⟨hbk0, cb, hrb, hcb⟩ := inv.realiz bestK bestN.g hbg
        have hreachnk : Reach (gridGraph m mode) sKey.toNat
            (idx (bestN.tx + d.dx) (bestN.ty + d.dy) m.width).toNat (cb + c) :=
          Reach.step hrb hedge
        obtain ⟨qn, hqn, hle⟩ := inv.closedopt _ hnkcl2 (cb + c) hreachnk
        exact ⟨qn, hqn, by linarith⟩
      cases hcl : closed1.contains (idx (bestN.tx + d.dx) (bestN.ty + d.dy) m.width) with
      | true =>
        have hnkcl2 : idx (bestN.tx + d.dx) (bestN.ty + d.dy) m.width ∈ closed1 :=
          (int_contains_iff_mem _ _).mp hcl
        have hstep : gridRelaxStepF m goal mode closed1 bestN acc d = acc := by
          rw [gridRelaxStepF]
          dsimp only
          rw [if_neg (show ¬ (!inBoundsB m (bestN.tx + d.dx) (bestN.ty + d.dy)) = true
            by rw [hib2]; exact Bool.false_ne_true)]
          rw [hc]
          dsimp only
          rw [if_pos hcl]
        rw [hstep]
        refine ⟨gv, inv, fun k _ => rfl, fun k q0 h => ⟨q0, h, le_refl q0⟩, ?_⟩
        intro c2 hib2x hc2
        rw [hc] at hc2
        obtain rfl := Option.some.inj hc2
        exact hreachfacts hnkcl2
      | false =>
        have hnkcl : idx (bestN.tx + d.dx) (bestN.ty + d.dy) m.width ∉ closed1 := by
          intro hmem
          have h1 := (int_contains_iff_mem _ _).mpr hmem
          rw [hcl] at h1
          exact Bool.false_ne_true h1
        rcases hfind : acc.find? (fun e =>
            e.1 == idx (bestN.tx + d.dx) (bestN.ty + d.dy) m.width) with _ | ex
        · have hgvnk : gv (idx (bestN.tx + d.dx) (bestN.ty + d.dy) m.width) = none := by
            cases hg : gv (idx (bestN.tx + d.dx) (bestN.ty + d.dy) m.width) with
            | none => rfl
            | some q =>
              obtain ⟨nd, hnd, _⟩ := inv.freshg _ q hg hnkcl
              exact absurd
                (by simp : ((idx (bestN.tx + d.dx) (bestN.ty + d.dy) m.width, nd).1 ==
                  idx (bestN.tx + d.dx) (bestN.ty + d.dy) m.width) = true)
                (by simpa using List.find?_eq_none.mp hfind _ hnd)
          have hstep : gridRelaxStepF m goal mode closed1 bestN acc d =
              openSet acc (idx (bestN.tx + d.dx) (bestN.ty + d.dy) m.width)
                (GridNode.mk (bestN.tx + d.dx) (bestN.ty + d.dy) (bestN.g + c)
                  (bestN.g + c +
                    hManhattan ⟨bestN.tx + d.dx, bestN.ty + d.dy⟩ goal)
                  (some bestN)) := by
            rw [gridRelaxStepF]
            dsimp only
            rw [if_neg (show ¬ (!inBoundsB m (bestN.tx + d.dx) (bestN.ty + d.dy)) = true
              by rw [hib2]; exact Bool.false_ne_true)]
            rw [hc]
            dsimp only
            rw [if_neg (show ¬ closed1.contains
              (idx (bestN.tx + d.dx) (bestN.ty + d.dy) m.width) = true
              by rw [hcl]; exact Bool.false_ne_true)]
            rw [hfind]
            dsimp only
            rw [if_pos rfl]
          rw [hstep]
          exact gridRelax_insert m mode goal sKey bestK closed1 bestN c hbib
            hbkey hbch d hd acc gv inv hbg hib2 hc hnkcl
            (fun q hq => absurd (hgvnk ▸ hq) (by simp))
        · have hexmem : ex ∈ acc := List.mem_of_find?_eq_some hfind
          have hexk : ex.1 = idx (bestN.tx + d.dx) (bestN.ty + d.dy) m.width := by
            simpa using List.find?_some hfind
          have hgvnk : gv (idx (bestN.tx + d.dx) (bestN.ty + d.dy) m.width) =
              some ex.2.g := by
            have h5 := (inv.entry ex hexmem).2.2.2.2
            rw [hexk] at h5
            exact h5
          by_cases hkeep : bestN.g + c < ex.2.g
          · have hstep : gridRelaxStepF m goal mode closed1 bestN acc d =
                openSet acc (idx (bestN.tx + d.dx) (bestN.ty + d.dy) m.width)
                  (GridNode.mk (bestN.tx + d.dx) (bestN.ty + d.dy) (bestN.g + c)
                    (bestN.g + c +
                      hManhattan ⟨bestN.tx + d.dx, bestN.ty + d.dy⟩ goal)
                    (some bestN)) := by
              rw [gridRelaxStepF]
              dsimp only
              rw [if_neg (show ¬ (!inBoundsB m (bestN.tx + d.dx) (bestN.ty + d.dy)) = true
                by rw [hib2]; exact Bool.false_ne_true)]
              rw [hc]
              dsimp only
              rw [if_neg (show ¬ closed1.contains
                (idx (bestN.tx + d.dx) (bestN.ty + d.dy) m.width) = true
                by rw [hcl]; exact Bool.false_ne_true)]
              rw [hfind]
              dsimp only
              rw [if_pos (decide_eq_true hkeep)]
            rw [hstep]
            refine gridRelax_insert m mode goal sKey bestK closed1 bestN c hbib
              hbkey hbch d hd acc gv inv hbg hib2 hc hnkcl ?_
            intro q hq
            rw [hgvnk] at hq
            obtain rfl := Option.some.inj hq
            exact hkeep
          · have hstep : gridRelaxStepF m goal mode closed1 bestN acc d = acc := by
              rw [gridRelaxStepF]
              dsimp only
              rw [if_neg (show ¬ (!inBoundsB m (bestN.tx + d.dx) (bestN.ty + d.dy)) = true
                by rw [hib2]; exact Bool.false_ne_true)]
              rw [hc]
              dsimp only
              rw [if_neg (show ¬ closed1.contains
                (idx (bestN.tx + d.dx) (bestN.ty + d.dy) m.width) = true
                by rw [hcl]; exact Bool.false_ne_true)]
              rw [hfind]
              dsimp only
              rw [if_neg (by simpa using hkeep)]
            rw [hstep]
            refine ⟨gv, inv, fun k _ => rfl, fun k q0 h => ⟨q0, h, le_refl q0⟩, ?_⟩
            intro c2 hib2x hc2
            rw [hc] at hc2
            obtain rfl := Option.some.inj hc2
            exact ⟨ex.2.g, hgvnk, not_lt.mp hkeep⟩

theorem gridRelaxFold_spec (m : GameMap) (mode : String) (goal : Tile)
    (sKey bestK : Int) (closed1 : List Int) (bestN : GridNode)
    (hbib : inBoundsB m bestN.tx bestN.ty = true)
    (hbkey : bestK = idx bestN.tx bestN.ty m.width)
    (hbcl : bestK ∈ closed1)
    (hbch : chainCostOK m mode bestN) :
    ∀ ds : List Dir, (∀ d ∈ ds, d ∈ DIRS4) →
    ∀ (acc : List (Int × GridNode)) (gv : Int → Option ℚ),
      GRInv m mode goal sKey bestK acc closed1 gv →
      gv bestK = some bestN.g →
      ∃ gv' : Int → Option ℚ,
        GRInv m mode goal sKey bestK
          (ds.foldl (gridRelaxStepF m goal mode closed1 bestN) acc) closed1 gv' ∧
        (∀ k ∈ closed1, gv' k = gv k) ∧
        (∀ k q0, gv k = some q0 → ∃ q, gv' k = some q ∧ q ≤ q0) ∧
        (∀ d ∈ ds, RelaxedD m mode bestN gv' d) := by
  intro ds
  induction ds with
  | nil =>
    intro _ acc gv inv hbg
    exact ⟨gv, inv, fun k _ => rfl, fun k q0 h => ⟨q0, h, le_refl q0⟩,
      fun d hd => absurd hd (List.not_mem_nil d)⟩
  | cons d ds ih =>
    intro hsub acc gv inv hbg
    obtain ⟨gv1, inv1, froz1, mono1, rel1⟩ := gridRelaxStep_spec m mode goal
      sKey bestK closed1 bestN hbib hbkey hbcl hbch d (hsub d (by simp))
      acc gv inv hbg
    obtain ⟨gvF, invF, frozF, monoF, relF⟩ := ih
      (fun d2 hd2 => hsub d2 (List.mem_cons_of_mem d hd2))
      (gridRelaxStepF m goal mode closed1 bestN acc d) gv1 inv1
      ((froz1 bestK hbcl).trans hbg)
    rw [List.foldl_cons]
    refine ⟨gvF, invF, ?_, ?_, ?_⟩
    · intro k hk
      exact (frozF k hk).trans (froz1 k hk)
    · intro k q0 h0
      obtain ⟨q1, h1, hle1⟩ := mono1 k q0 h0
      obtain ⟨q2, h2, hle2⟩ := monoF k q1 h1
      exact ⟨q2, h2, le_trans hle2 hle1⟩
    · intro d2 hd2
      rcases List.mem_cons.mp hd2 with rfl | hmem
      · intro c2 hib2 hc2
        obtain ⟨qn, hqn, hle⟩ := rel1 c2 hib2 hc2
        obtain ⟨qn2, hqn2, hle2⟩ := monoF _ qn hqn
        exact ⟨qn2, hqn2, le_trans hle2 hle⟩
      · exact relF d2 hmem

theorem grid_close_relaxed (m : GameMap) (mode : String) (goal : Tile)
    (bestK : Int) (bestN : GridNode)
    (hbib : inBoundsB m bestN.tx bestN.ty = true)
    (hbkey : bestK = idx bestN.tx bestN.ty m.width)
    (gvF : Int → Option ℚ)
    (hbgF : gvF bestK = some bestN.g)
    (hrel : ∀ d ∈ DIRS4, RelaxedD m mode bestN gvF d) :
    ∀ e ∈ (gridGraph m mode).adj bestK.toNat,
      ∃ qc qn, gvF bestK = some qc ∧ gvF ((e.toId : Int)) = some qn ∧
        qn ≤ qc + e.cost := by
  intro e he
  obtain ⟨hibe, d, hd, ce, hib2, hce, rfl⟩ := gridAdj_elim m mode bestK.toNat e he
  obtain ⟨hbk0, hbtile0⟩ := key_tile m bestN.tx bestN.ty hbib
  have hbtile : tileOfId m bestK.toNat = ⟨bestN.tx, bestN.ty⟩ := by
    rw [hbkey]
    exact hbtile0
  rw [hbtile] at hib2 hce ⊢
  have hib2x : inBoundsB m (bestN.tx + d.dx) (bestN.ty + d.dy) = true := hib2
  have hcex : tileCost m (bestN.tx + d.dx) (bestN.ty + d.dy) mode = some ce := hce
  obtain ⟨qn, hqn, hle⟩ := hrel d hd ce hib2x hcex
  have hnk0 := (key_tile m (bestN.tx + d.dx) (bestN.ty + d.dy) hib2x).1
  refine ⟨bestN.g, qn, hbgF, ?_, ?_⟩
  · show gvF (((idx (bestN.tx + d.dx) (bestN.ty + d.dy) m.width).toNat : Nat) : Int) =
      some qn
    rw [Int.toNat_of_nonneg hnk0]
    exact hqn
  · show qn ≤ bestN.g + ce
    exact hle

theorem gridAstarLoop_opt (m : GameMap) (goal : Tile) (mode : String) (sKey : Int)
    (hs0 : 0 ≤ sKey) :
    ∀ (fuel : Nat) (opn : List (Int × GridNode)) (closed : List Int)
      (gv : Int → Option ℚ), GInv m mode goal sKey opn closed gv →
      ∀ P, gridAstarLoop m goal mode fuel opn closed = some P →
        ∀ c, Reach (gridGraph m mode) sKey.toNat
            (idx goal.tx goal.ty m.width).toNat c →
          gridPathCost m mode P ≤ c := by
  intro fuel
  induction fuel with
  | zero =>
    intro opn closed gv inv P hq
    rw [gridAstarLoop] at hq
    exact absurd hq (by simp)
  | succ fuel ih =>
    intro opn closed gv inv P hq c hreach
    rw [gridAstarLoop] at hq
    by_cases hemp : opn.isEmpty = true
    · rw [if_pos hemp] at hq
      exact absurd hq (by simp)
    · rw [if_neg hemp] at hq
      rcases hsel : selectMin opn with _ | best
      · rw [hsel] at hq
        exact absurd hq (by simp)
      · rw [hsel] at hq
        dsimp only at hq
        have hbest : best ∈ opn ∧ ∀ p ∈ opn, best.2.f ≤ p.2.f := by
          rw [selectMin] at hsel
          obtain ⟨hmem, hmin, _⟩ := selectMin_go opn none best hsel
          rcases hmem with h | h
          · exact ⟨h, hmin⟩
          · exact absurd h (by simp)
        obtain ⟨hbmem, hbmin⟩ := hbest
        obtain ⟨hbib, hbkey, hbf, hbch, hbgv⟩ := inv.entry best hbmem
        have hpopt := ginv_popt inv hs0 best hbmem hbmin
        by_cases hgoal : (best.2.tx == goal.tx && best.2.ty == goal.ty) = true
        · rw [if_pos hgoal] at hq
          obtain rfl := Option.some.inj hq
          simp only [Bool.and_eq_true, beq_iff_eq] at hgoal
          obtain ⟨htx, hty⟩ := hgoal
          have hbk : best.1 = idx goal.tx goal.ty m.width := by
            rw [hbkey, htx, hty]
          have hopt := hpopt c (by rw [hbk]; exact hreach)
          have hcost := chainCost_le m mode best.2 hbch
          linarith
        · rw [if_neg hgoal] at hq
          have hbcl1 : best.1 ∈ closed ++ [best.1] := by simp
          have hrinv : GRInv m mode goal sKey best.1 (openDelete opn best.1)
              (closed ++ [best.1]) gv := by
            refine ⟨openDelete_nodup opn best.1 inv.nodup, ?_, ?_, ?_, ?_,
              inv.nonneg, inv.startv, inv.realiz, ?_, ?_⟩
            · intro p hp hmem
              obtain ⟨hpo, hpne⟩ := (openDelete_mem opn best.1 p).mp hp
              rcases List.mem_append.mp hmem with h | h
              · exact inv.disj p hpo h
              · simp only [List.mem_singleton] at h
                exact hpne h
            · intro p hp
              exact inv.entry p ((openDelete_mem opn best.1 p).mp hp).1
            · intro k hk
              rcases List.mem_append.mp hk with h | h
              · exact inv.closedgv k h
              · simp only [List.mem_singleton] at h
                subst h
                exact ⟨best.2.g, hbgv⟩
            · intro k q hq2 hkcl
              have hkc : k ∉ closed := fun h => hkcl (List.mem_append.mpr (Or.inl h))
              have hkb : k ≠ best.1 := fun h => hkcl (by rw [h]; simp)
              obtain ⟨nd, hnd, hg⟩ := inv.freshg k q hq2 hkc
              exact ⟨nd, (openDelete_mem opn best.1 (k, nd)).mpr ⟨hnd, hkb⟩, hg⟩
            · intro k hk hkb e he
              have hkc : k ∈ closed := by
                rcases List.mem_append.mp hk with h | h
                · exact h
                · simp only [List.mem_singleton] at h
                  exact absurd h hkb
              exact inv.closedrelax k hkc e he
            · intro k hk c2 hr2
              rcases List.mem_append.mp hk with h | h
              · exact inv.closedopt k h c2 hr2
              · simp only [List.mem_singleton] at h
                subst h
                exact ⟨best.2.g, hbgv, hpopt c2 hr2⟩
          obtain ⟨gvF, invF, frozF, monoF, relF⟩ := gridRelaxFold_spec m mode goal
            sKey best.1 (closed ++ [best.1]) best.2 hbib hbkey hbcl1 hbch
            DIRS4 (fun d hd => hd) (openDelete opn best.1) gv hrinv hbgv
          have hginv : GInv m mode goal sKey
              (DIRS4.foldl (gridRelaxStepF m goal mode (closed ++ [best.1]) best.2)
                (openDelete opn best.1)) (closed ++ [best.1]) gvF := by
            refine ⟨invF.nodup, invF.disj, invF.entry, invF.closedgv, invF.freshg,
              invF.nonneg, invF.startv, invF.realiz, ?_, invF.closedopt⟩
            intro k hk e he
            by_cases hkb : k = best.1
            · subst hkb
              exact grid_close_relaxed m mode goal best.1 best.2 hbib hbkey gvF
                ((frozF best.1 hbcl1).trans hbgv) relF e he
            · exact invF.closedrelax k hk hkb e he
          exact ih (DIRS4.foldl (gridRelaxStepF m goal mode (closed ++ [best.1])
              best.2) (openDelete opn best.1)) (closed ++ [best.1]) gvF hginv
            P hq c hreach

theorem findPathAStar_opt (m : GameMap) (start goal : Tile) (mode : String)
    (maxNodes : Nat) (P : List Tile)
    (hq : findPathAStar m start goal mode maxNodes = some P) :
    ∀ c, Reach (gridGraph m mode) (idx start.tx start.ty m.width).toNat
        (idx goal.tx goal.ty m.width).toNat c →
      gridPathCost m mode P ≤ c := by
  intro c hreach
  rw [findPathAStar] at hq
  by_cases hib : (!inBoundsB m start.tx start.ty || !inBoundsB m goal.tx goal.ty) = true
  · rw [if_pos hib] at hq
    exact absurd hq (by simp)
  · rw [if_neg hib] at hq
    have hibs : inBoundsB m start.tx start.ty = true := by
      cases h : inBoundsB m start.tx start.ty with
      | false =>
        exfalso
        apply hib
        rw [h]
        rfl
      | true => rfl
    have hs0 : 0 ≤ idx start.tx start.ty m.width :=
      (idx_decode m start.tx start.ty hibs).2.2
    by_cases hcost : ((tileCost m start.tx start.ty mode).isNone ||
        (tileCost m goal.tx goal.ty mode).isNone) = true
    · rw [if_pos hcost] at hq
      exact absurd hq (by simp)
    · rw [if_neg hcost] at hq
      dsimp only at hq
      refine gridAstarLoop_opt m goal mode (idx start.tx start.ty m.width) hs0
        maxNodes
        [(idx start.tx start.ty m.width,
          GridNode.mk start.tx start.ty 0 (hManhattan start goal) none)] []
        (fun j => if j = idx start.tx start.ty m.width then some (0:ℚ) else none)
        ⟨?_, ?_, ?_, ?_, ?_, ?_, ?_, ?_, ?_, ?_⟩ P hq c hreach
      · simp
      · intro p hp
        exact List.not_mem_nil p.1
      · intro p hp
        rw [List.mem_singleton] at hp
        subst hp
        refine ⟨hibs, rfl, ?_, ?_, ?_⟩
        · show hManhattan start goal = 0 + hManhattan start goal
          exact (zero_add _).symm
        · exact le_refl (0:ℚ)
        · rw [if_pos rfl]
          rfl
      · intro k hk
        exact absurd hk (List.not_mem_nil k)
      · intro k q hq2 hkcl
        by_cases hk : k = idx start.tx start.ty m.width
        · rw [if_pos hk] at hq2
          obtain rfl := Option.some.inj hq2
          refine ⟨GridNode.mk start.tx start.ty 0 (hManhattan start goal) none,
            ?_, rfl⟩
          rw [hk]
          exact List.mem_singleton.mpr rfl
        · rw [if_neg hk] at hq2
          exact absurd hq2 (by simp)
      · intro k q hq2
        by_cases hk : k = idx start.tx start.ty m.width
        · rw [if_pos hk] at hq2
          obtain rfl := Option.some.inj hq2
          exact le_refl (0:ℚ)
        · rw [if_neg hk] at hq2
          exact absurd hq2 (by simp)
      · rw [if_pos rfl]
      · intro k q hq2
        by_cases hk : k = idx start.tx start.ty m.width
        · rw [if_pos hk] at hq2
          obtain rfl := Option.some.inj hq2
          subst hk
          exact ⟨hs0, 0, Reach.refl, le_refl (0:ℚ)⟩
        · rw [if_neg hk] at hq2
          exact absurd hq2 (by simp)
      · intro k hk
        exact absurd hk (List.not_mem_nil k)
      · intro k hk
        exact absurd hk (List.not_mem_nil k)

theorem grid_astar_admissible (m : GameMap) (start goal : Tile) (mode : String)
    (maxNodes maxIters : Nat) (P : List Tile) (d : ℚ)
    (hA : findPathAStar m start goal mode maxNodes = some P)
    (hD : dijkstraCosts (gridGraph m mode) (idx start.tx start.ty m.width).toNat
      maxIters (idx goal.tx goal.ty m.width).toNat = some d) :
    gridPathCost m mode P ≤ d := by
  obtain ⟨c, hreach, hcd⟩ :=
    dijkstraCosts_sound (gridGraph m mode) _ maxIters _ d hD
  have h := findPathAStar_opt m start goal mode maxNodes P hA c hreach
  linarith

end

/-- C1: A* admissibility.  Whenever graph A* (findNodePathAStar) returns a
path, its cost does not exceed the exact shortest-path cost computed by
dijkstraCosts on the same built road graph; and whenever grid A*
(findPathAStar) returns a tile path, its cost in the grid cost model does not
exceed the dijkstraCosts value computed over that same cost model (gridGraph:
the tile grid viewed as a road graph with per-entered-tile costs, the
comparison model named by the claim, since the code has no grid-specialised
Dijkstra). -/
theorem astar_admissible (m1 m2 : GameMap) (s t iters maxIters1 : Nat)
    (P : List Nat) (d1 : ℚ) (start goal : Tile) (mode : String)
    (maxNodes maxIters2 : Nat) (T : List Tile) (d2 : ℚ)
    (hA : findNodePathAStar (ensureRoadGraph m1) s t iters = some P)
    (hD : dijkstraCosts (ensureRoadGraph m1) s maxIters1 t = some d1)
    (hGA : findPathAStar m2 start goal mode maxNodes = some T)
    (hGD : dijkstraCosts (gridGraph m2 mode)
      (idx start.tx start.ty m2.width).toNat maxIters2
      (idx goal.tx goal.ty m2.width).toNat = some d2) :
    pathCost (ensureRoadGraph m1) P ≤ d1 ∧ gridPathCost m2 mode T ≤ d2 :=
  ⟨graph_astar_admissible m1 s t iters maxIters1 P d1 hA hD,
   grid_astar_admissible m2 start goal mode maxNodes maxIters2 T d2 hGA hGD⟩

set_option maxRecDepth 100000 in
theorem astar_admissible_witness :
    pathCost (ensureRoadGraph elMap) [0, 1, 2] ≤ 10 ∧
    gridPathCost corridorMap "car"
      [⟨0, 0⟩, ⟨1, 0⟩, ⟨2, 0⟩, ⟨3, 0⟩, ⟨4, 0⟩, ⟨5, 0⟩, ⟨6, 0⟩, ⟨7, 0⟩, ⟨8, 0⟩,
        ⟨9, 0⟩] ≤ 9 :=
  astar_admissible elMap corridorMap 0 2 8000 12000 [0, 1, 2] 10 ⟨0, 0⟩ ⟨9, 0⟩
    "car" 5000 12000
    [⟨0, 0⟩, ⟨1, 0⟩, ⟨2, 0⟩, ⟨3, 0⟩, ⟨4, 0⟩, ⟨5, 0⟩, ⟨6, 0⟩, ⟨7, 0⟩, ⟨8, 0⟩,
      ⟨9, 0⟩] 9 (by decide) (by decide) (by decide) (by decide)


section
set_option maxHeartbeats 1000000

/-- Undirected connectivity over an undirected edge list, with at most one edge
id deleted (skip): the transitive-reflexive closure of the edge relation taken
in both directions. -/
inductive UConn (edges : List UndirEdge) (skip : Option Nat) : Nat → Nat → Prop
  | refl (a : Nat) : UConn edges skip a a
  | fwd {a b c : Nat} (h : UConn edges skip a b) (e : UndirEdge) (he : e ∈ edges)
      (hskip : skip ≠ some e.id) (hu : e.u = b) (hv : e.v = c) :
      UConn edges skip a c
  | bwd {a b c : Nat} (h : UConn edges skip a b) (e : UndirEdge) (he : e ∈ edges)
      (hskip : skip ≠ some e.id) (hv : e.v = b) (hu : e.u = c) :
      UConn edges skip a c

theorem UConn.trans2 {edges : List UndirEdge} {skip : Option Nat} :
    ∀ {a b c : Nat}, UConn edges skip a b → UConn edges skip b c →
      UConn edges skip a c := by
  intro a b c h1 h2
  induction h2 with
  | refl => exact h1
  | fwd h e he hskip hu hv ih => exact .fwd ih e he hskip hu hv
  | bwd h e he hskip hv hu ih => exact .bwd ih e he hskip hv hu

theorem UConn.symm2 {edges : List UndirEdge} {skip : Option Nat} :
    ∀ {a b : Nat}, UConn edges skip a b → UConn edges skip b a := by
  intro a b h
  induction h with
  | refl => exact .refl _
  | fwd h e he hskip hu hv ih =>
    exact UConn.trans2 (.bwd (.refl _) e he hskip hv hu) ih
  | bwd h e he hskip hv hu ih =>
    exact UConn.trans2 (.fwd (.refl _) e he hskip hu hv) ih

theorem UConn.mono {edges : List UndirEdge} {eId : Nat} :
    ∀ {a b : Nat}, UConn edges (some eId) a b → UConn edges none a b := by
  intro a b h
  induction h with
  | refl => exact .refl _
  | fwd h e he hskip hu hv ih => exact .fwd ih e he (by simp) hu hv
  | bwd h e he hskip hv hu ih => exact .bwd ih e he (by simp) hv hu

/-- Decidable-by-choice test: vertex i is the least member of its component. -/
noncomputable def isMinB (edges : List UndirEdge) (skip : Option Nat)
    (i : Nat) : Bool :=
  @decide (∀ j, j < i → ¬ UConn edges skip j i) (Classical.propDecidable _)

theorem isMinB_true_iff (edges : List UndirEdge) (skip : Option Nat) (i : Nat) :
    isMinB edges skip i = true ↔ ∀ j, j < i → ¬ UConn edges skip j i := by
  simp only [isMinB, decide_eq_true_eq]

theorem isMinB_false_iff (edges : List UndirEdge) (skip : Option Nat) (i : Nat) :
    isMinB edges skip i = false ↔ ¬ ∀ j, j < i → ¬ UConn edges skip j i := by
  simp only [isMinB, decide_eq_false_iff_not]

/-- Number of connected components among the vertices 0..n-1 of the undirected
graph (with an optional deleted edge): the count of vertices that are the
least member of their component. -/
noncomputable def numComponents (edges : List UndirEdge) (skip : Option Nat)
    (n : Nat) : Nat :=
  (List.range n).countP (isMinB edges skip)

theorem components_increase (edges : List UndirEdge) (eId : Nat) (n : Nat)
    (e : UndirEdge) (he : e ∈ edges) (hid : e.id = eId)
    (hun : e.u < n) (hvn : e.v < n)
    (hdisc : ¬ UConn edges (some eId) e.u e.v) :
    numComponents edges none n < numComponents edges (some eId) n := by
  classical
  have hconnuv : UConn edges none e.u e.v :=
    .fwd (.refl e.u) e he (by simp) rfl rfl
  have hcu : ∃ j, UConn edges (some eId) j e.u := ⟨e.u, .refl e.u⟩
  have hcv : ∃ j, UConn edges (some eId) j e.v := ⟨e.v, .refl e.v⟩
  have hru : ∃ j, UConn edges none j e.u := ⟨e.u, .refl e.u⟩
  obtain ⟨w1, hw1conn, hw1min⟩ :
      ∃ w, UConn edges (some eId) w e.u ∧
        ∀ j, j < w → ¬ UConn edges (some eId) j e.u :=
    ⟨Nat.find hcu, Nat.find_spec hcu, fun j hj => Nat.find_min hcu hj⟩
  obtain ⟨w2, hw2conn, hw2min⟩ :
      ∃ w, UConn edges (some eId) w e.v ∧
        ∀ j, j < w → ¬ UConn edges (some eId) j e.v :=
    ⟨Nat.find hcv, Nat.find_spec hcv, fun j hj => Nat.find_min hcv hj⟩
  obtain ⟨r, hrconn, hrmin⟩ :
      ∃ w, UConn edges none w e.u ∧ ∀ j, j < w → ¬ UConn edges none j e.u :=
    ⟨Nat.find hru, Nat.find_spec hru, fun j hj => Nat.find_min hru hj⟩
  have hw1u : w1 ≤ e.u := by
    by_contra hlt
    exact hw1min e.u (by omega) (.refl e.u)
  have hw2v : w2 ≤ e.v := by
    by_contra hlt
    exact hw2min e.v (by omega) (.refl e.v)
  have hw1isMin : ∀ j, j < w1 → ¬ UConn edges (some eId) j w1 := by
    intro j hj hc
    exact hw1min j hj (UConn.trans2 hc hw1conn)
  have hw2isMin : ∀ j, j < w2 → ¬ UConn edges (some eId) j w2 := by
    intro j hj hc
    exact hw2min j hj (UConn.trans2 hc hw2conn)
  have hw12 : w1 ≠ w2 := by
    intro hc
    exact hdisc (UConn.trans2 (UConn.symm2 hw1conn) (hc ▸ hw2conn))
  have hrw1 : r ≤ w1 := by
    by_contra hlt
    exact hrmin w1 (by omega) (UConn.mono hw1conn)
  have hrw2 : r ≤ w2 := by
    by_contra hlt
    exact hrmin w2 (by omega)
      (UConn.trans2 (UConn.mono hw2conn) (UConn.symm2 hconnuv))
  have himp : ∀ a ∈ List.range n,
      isMinB edges none a = true → isMinB edges (some eId) a = true := by
    intro a _ hp
    rw [isMinB_true_iff] at hp
    rw [isMinB_true_iff]
    intro j hj hc
    exact hp j hj (UConn.mono hc)
  rw [numComponents, numComponents]
  by_cases hr1 : r = w1
  · refine countP_lt (List.range n) _ _ himp w2 (List.mem_range.mpr (by omega))
      ?_ ?_
    · rw [isMinB_true_iff]
      exact hw2isMin
    · rw [isMinB_false_iff]
      intro hmin
      have hrltw2 : r < w2 := by omega
      refine hmin r hrltw2 ?_
      exact UConn.trans2 hrconn (UConn.trans2 hconnuv (UConn.symm2 (UConn.mono hw2conn)))
  · refine countP_lt (List.range n) _ _ himp w1 (List.mem_range.mpr (by omega))
      ?_ ?_
    · rw [isMinB_true_iff]
      exact hw1isMin
    · rw [isMinB_false_iff]
      intro hmin
      have hrltw1 : r < w1 := by omega
      refine hmin r hrltw1 ?_
      exact UConn.trans2 hrconn (UConn.symm2 (UConn.mono hw1conn))

/-- A separation certificate for one undirected edge id: a vertex predicate
respected by every other edge and violated by that edge. -/
def BridgeCert (edges : List UndirEdge) (eId : Nat) : Prop :=
  ∃ f : Nat → Prop,
    (∀ e ∈ edges, e.id ≠ eId → (f e.u ↔ f e.v)) ∧
    (∀ e ∈ edges, e.id = eId → ¬ (f e.u ↔ f e.v))

theorem cert_disconnects (edges : List UndirEdge) (eId : Nat)
    (hc : BridgeCert edges eId) :
    ∀ e ∈ edges, e.id = eId → ¬ UConn edges (some eId) e.u e.v := by
  obtain ⟨f, hpres, hviol⟩ := hc
  have hinv : ∀ {a b : Nat}, UConn edges (some eId) a b → (f a ↔ f b) := by
    intro a b h
    induction h with
    | refl => exact Iff.rfl
    | fwd h e2 he2 hskip hu hv ih =>
      have hne : e2.id ≠ eId := by
        intro hc2
        exact hskip (by rw [hc2])
      exact ih.trans (hu ▸ hv ▸ hpres e2 he2 hne)
    | bwd h e2 he2 hskip hv hu ih =>
      have hne : e2.id ≠ eId := by
        intro hc2
        exact hskip (by rw [hc2])
      exact ih.trans (hv ▸ hu ▸ (hpres e2 he2 hne).symm)
  intro e he hid hconn
  exact hviol e he hid (hinv hconn)

/-- Structural well-formedness of the undirected edge list: positional ids,
ordered in-range distinct endpoints, and unordered-pair uniqueness (the
undirected graph is simple). -/
def UEWF (n : Nat) (edges : List UndirEdge) : Prop :=
  (∀ (i : Nat) (e : UndirEdge), edges[i]? = some e → e.id = i) ∧
  (∀ e ∈ edges, e.u < e.v ∧ e.v < n) ∧
  (edges.map fun e => (e.u, e.v)).Nodup

theorem getElem?_some_lt {α : Type} {l : List α} {i : Nat} {x : α}
    (h : l[i]? = some x) : i < l.length := by
  by_contra hge
  rw [List.getElem?_eq_none (by omega)] at h
  exact absurd h (by simp)

theorem list_set_self {α : Type} (l : List α) (i : Nat) (hi : i < l.length) :
    l.set i l[i] = l := by
  apply List.ext_getElem?
  intro j
  rw [List.getElem?_set]
  by_cases hij : i = j
  · subst hij
    rw [if_pos rfl, if_pos hi, List.getElem?_eq_getElem hi]
  · rw [if_neg hij]

theorem addEdge_uewf (m : GameMap) (st : EdgeState) (fromId toId : Nat)
    (tiles : List Tile) (d : Dir) (n : Nat)
    (hf : fromId < n) (ht : toId < n) (hne : fromId ≠ toId)
    (h : UEWF n st.undirEdges) :
    UEWF n (addEdge m st fromId toId tiles d).undirEdges := by
  obtain ⟨hid, hbnd, hpw⟩ := h
  rw [addEdge]
  split
  · next uid hfind =>
    dsimp only
    split
    · next e0 hget =>
      have huid : e0.id = uid := hid uid e0 hget
      have huidlt : uid < st.undirEdges.length := getElem?_some_lt hget
      have hgetE : st.undirEdges[uid] = e0 := by
        have h2 : st.undirEdges[uid]? = some e0 := hget
        rw [List.getElem?_eq_getElem huidlt] at h2
        exact Option.some.inj h2
      refine ⟨?_, ?_, ?_⟩
      · intro i e hgi
        rw [List.getElem?_set] at hgi
        by_cases hiu : uid = i
        · rw [if_pos hiu, if_pos huidlt] at hgi
          obtain rfl := Option.some.inj hgi
          exact huid.trans hiu
        · rw [if_neg hiu] at hgi
          exact hid i e hgi
      · intro e he
        rcases List.mem_or_eq_of_mem_set he with hmem | rfl
        · exact hbnd e hmem
        · exact hbnd e0 (List.getElem?_mem hget)
      · have hmapset : ((st.undirEdges.set uid
            { e0 with dirEdgeIds := e0.dirEdgeIds ++ [st.dirEdges.length],
                      cost := min e0.cost (segCost tiles) }).map
              fun e => (e.u, e.v)) =
            (st.undirEdges.map fun e => (e.u, e.v)) := by
          rw [List.map_set]
          show ((st.undirEdges.map fun e => (e.u, e.v)).set uid (e0.u, e0.v)) = _
          have hmaplt : uid < (st.undirEdges.map fun e => (e.u, e.v)).length := by
            rw [List.length_map]
            exact huidlt
          conv_lhs =>
            rw [show (e0.u, e0.v) =
              (st.undirEdges.map fun e => (e.u, e.v))[uid] from by
              rw [List.getElem_map, hgetE]]
          exact list_set_self _ _ _
        rw [hmapset]
        exact hpw
    · exact ⟨hid, hbnd, hpw⟩
  · next hfind =>
    dsimp only
    have hnotmem : ∀ e ∈ st.undirEdges, (e.u, e.v) ≠ (min fromId toId, max fromId toId) := by
      intro e he hc
      have hfe := List.findIdx?_eq_none_iff.mp hfind e he
      rw [Prod.mk.injEq] at hc
      simp only [hc.1, hc.2, beq_self_eq_true, Bool.and_self] at hfe
      exact Bool.noConfusion hfe
    refine ⟨?_, ?_, ?_⟩
    · intro i e hgi
      by_cases hilt : i < st.undirEdges.length
      · rw [List.getElem?_append_left hilt] at hgi
        exact hid i e hgi
      · rw [List.getElem?_append_right (by omega)] at hgi
        by_cases hieq : i = st.undirEdges.length
        · subst hieq
          rw [Nat.sub_self] at hgi
          obtain rfl := Option.some.inj hgi
          rfl
        · rw [List.getElem?_eq_none (by simp; omega)] at hgi
          exact absurd hgi (by simp)
    · intro e he
      rcases List.mem_append.mp he with hmem | hnew
      · exact hbnd e hmem
      · rw [List.mem_singleton] at hnew
        subst hnew
        refine ⟨?_, ?_⟩
        · show min fromId toId < max fromId toId
          rcases Nat.lt_or_ge fromId toId with hlt | hge
          · rw [Nat.min_eq_left (by omega), Nat.max_eq_right (by omega)]
            exact hlt
          · have hlt : toId < fromId := by omega
            rw [Nat.min_eq_right (by omega), Nat.max_eq_left (by omega)]
            exact hlt
        · show max fromId toId < n
          rcases Nat.le_total fromId toId with hle | hle
          · rw [Nat.max_eq_right hle]
            exact ht
          · rw [Nat.max_eq_left hle]
            exact hf
    · rw [List.map_append]
      rw [List.nodup_append]
      refine ⟨hpw, by simp, ?_⟩
      intro p hp hq
      simp only [List.map_cons, List.map_nil, List.mem_singleton] at hq
      obtain ⟨e, he, rfl⟩ := List.mem_map.mp hp
      exact hnotmem e he hq

theorem buildEdges_uewf (m : GameMap) (rt : Nat) :
    UEWF (buildNodes m rt).length (buildEdges m rt (buildNodes m rt)).undirEdges := by
  rw [buildEdges]
  refine foldl_invariant (fun (st : EdgeState) => UEWF (buildNodes m rt).length
      st.undirEdges)
    _ _ _ ⟨fun i e hi => absurd hi (by simp), fun e he => absurd he (by simp),
      by simp⟩ ?_
  intro st n hn hst
  refine foldl_invariant (fun (st : EdgeState) => UEWF (buildNodes m rt).length
      st.undirEdges)
    _ _ _ hst ?_
  intro st2 d hd hst2
  rw [processDir]
  split
  all_goals try exact hst2
  split
  all_goals try exact hst2
  next tiles nid hwalk =>
  split
  all_goals try exact hst2
  obtain ⟨k, hts, hroad, hnode, hnid⟩ := processDir_tiles hwalk
  obtain ⟨hnget, hnroad⟩ := mem_buildNodes hn
  obtain ⟨nt, htget, htid, httx, htty⟩ := nodeIdOf_node hnode
  exact addEdge_uewf m st2 n.id nid tiles d (buildNodes m rt).length
    (getElem?_some_lt hnget) (getElem?_some_lt htget) (fun hc => hnid hc.symm) hst2

theorem uewf_id_unique {n : Nat} {edges : List UndirEdge} (hwf : UEWF n edges) :
    ∀ e1 ∈ edges, ∀ e2 ∈ edges, e1.id = e2.id → e1 = e2 := by
  intro e1 he1 e2 he2 hid
  obtain ⟨i1, hg1⟩ := List.getElem?_of_mem he1
  obtain ⟨i2, hg2⟩ := List.getElem?_of_mem he2
  have h1 := hwf.1 i1 e1 hg1
  have h2 := hwf.1 i2 e2 hg2
  have : i1 = i2 := by omega
  subst this
  rw [hg1] at hg2
  exact Option.some.inj hg2

theorem uewf_pair_unique {n : Nat} {edges : List UndirEdge} (hwf : UEWF n edges) :
    ∀ e1 ∈ edges, ∀ e2 ∈ edges, e1.u = e2.u → e1.v = e2.v → e1 = e2 := by
  intro e1 he1 e2 he2 hu hv
  refine List.inj_on_of_nodup_map hwf.2.2 he1 he2 ?_
  show (e1.u, e1.v) = (e2.u, e2.v)
  rw [hu, hv]

theorem undNeighbors_sound (edges : List UndirEdge) (w : Nat) (p : Nat × Nat)
    (hp : p ∈ undNeighbors edges w) :
    ∃ e ∈ edges, e.id = p.2 ∧
      ((e.u = w ∧ e.v = p.1) ∨ (e.v = w ∧ e.u = p.1)) := by
  rw [undNeighbors] at hp
  obtain ⟨e, he, hfe⟩ := List.mem_filterMap.mp hp
  refine ⟨e, he, ?_⟩
  by_cases hu : e.u = w
  · rw [if_pos hu] at hfe
    obtain rfl := Option.some.inj hfe
    exact ⟨rfl, Or.inl ⟨hu, rfl⟩⟩
  · rw [if_neg hu] at hfe
    by_cases hv : e.v = w
    · rw [if_pos hv] at hfe
      obtain rfl := Option.some.inj hfe
      exact ⟨rfl, Or.inr ⟨hv, rfl⟩⟩
    · rw [if_neg hv] at hfe
      exact absurd hfe (by simp)

theorem undNeighbors_complete {n : Nat} {edges : List UndirEdge}
    (hwf : UEWF n edges) (e : UndirEdge) (he : e ∈ edges) :
    (e.v, e.id) ∈ undNeighbors edges e.u ∧
    (e.u, e.id) ∈ undNeighbors edges e.v := by
  have huv := (hwf.2.1 e he).1
  constructor
  · rw [undNeighbors]
    refine List.mem_filterMap.mpr ⟨e, he, ?_⟩
    rw [if_pos rfl]
  · rw [undNeighbors]
    refine List.mem_filterMap.mpr ⟨e, he, ?_⟩
    rw [if_neg (by omega), if_pos rfl]

theorem undNeighbors_lt {n : Nat} {edges : List UndirEdge} (hwf : UEWF n edges)
    (w : Nat) (p : Nat × Nat) (hp : p ∈ undNeighbors edges w) : p.1 < n := by
  obtain ⟨e, he, _, hor⟩ := undNeighbors_sound edges w p hp
  obtain ⟨hlt, hvn⟩ := hwf.2.1 e he
  rcases hor with ⟨_, hv⟩ | ⟨_, hu⟩
  · omega
  · omega

/-- Discovery-array sanity: discovered vertices carry a timestamp below the
clock and are in range. -/
def DiscB (n : Nat) (s : BridgeState) : Prop :=
  ∀ w, s.disc w ≠ -1 → (0 ≤ s.disc w ∧ s.disc w < (s.time : Int)) ∧ w < n

/-- Every discovered vertex off the active ancestor chain has all its
neighbors discovered. -/
def Closed (edges : List UndirEdge) (s : BridgeState) (A : List Nat) : Prop :=
  ∀ w, s.disc w ≠ -1 → w ∉ A → ∀ p ∈ undNeighbors edges w, s.disc p.1 ≠ -1

/-- Number of undiscovered vertices. -/
def UCount (n : Nat) (s : BridgeState) : Nat :=
  (List.range n).countP fun w => s.disc w == -1

/-- Every flagged edge id carries a separation certificate. -/
def Certs (edges : List UndirEdge) (s : BridgeState) : Prop :=
  ∀ i ∈ s.bridges, BridgeCert edges i

/-- One step of the dfs neighbor fold of dfsB (verbatim body). -/
def dfsStepF (neighbors : Nat → List (Nat × Nat)) (fuel u : Nat)
    (s2 : BridgeState) (p : Nat × Nat) : BridgeState :=
  let v := p.1
  let eId := p.2
  if s2.disc v = -1 then
    let s3 := { s2 with parent := updF s2.parent v (u : Int) }
    let s4 := dfsB neighbors fuel v s3
    let s5 := { s4 with low := updF s4.low u (min (s4.low u) (s4.low v)) }
    if s5.disc u < s5.low v then { s5 with bridges := s5.bridges ++ [eId] }
    else s5
  else if (v : Int) ≠ s2.parent u then
    { s2 with low := updF s2.low u (min (s2.low u) (s2.disc v)) }
  else s2

/-- Mid-scan invariant of the dfs at vertex u relative to the entry state s. -/
structure DfsMid (edges : List UndirEdge) (n : Nat) (u : Nat) (A : List Nat)
    (s : BridgeState) (s2 : BridgeState) : Prop where
  discu : s2.disc u = (s.time : Int)
  timegt : s.time < s2.time
  dfroz : ∀ w, s.disc w ≠ -1 → s2.disc w = s.disc w
  lfroz : ∀ w, s.disc w ≠ -1 → s2.low w = s.low w
  pfroz : ∀ w, w = u ∨ s.disc w ≠ -1 → s2.parent w = s.parent w
  interval : ∀ w, s.disc w = -1 → w ≠ u →
    s2.disc w = -1 ∨ ((s.time : Int) < s2.disc w ∧ s2.disc w < (s2.time : Int))
  db : DiscB n s2
  ucount : UCount n s2 < UCount n s
  closed : Closed edges s2 (A ++ [u])
  lowule : ∀ w, s.disc w = -1 → w ≠ u → s2.disc w ≠ -1 → s2.low u ≤ s2.low w
  deep : ∀ w, s.disc w = -1 → w ≠ u → s2.disc w ≠ -1 →
    ∀ p ∈ undNeighbors edges w, s2.disc p.1 ≠ -1 ∧
      (s2.disc p.1 < (s.time : Int) → ((p.1 : Int) ≠ s2.parent w) →
        s2.low w ≤ s2.disc p.1)
  par : ∀ w, s.disc w = -1 → w ≠ u → s2.disc w ≠ -1 →
    ∃ pw : Nat, s2.parent w = (pw : Int) ∧ s.disc pw = -1 ∧ s2.disc pw ≠ -1
  certs : Certs edges s2

/-- Processed-prefix record: every scanned neighbor of u is discovered, and a
scanned non-parent back-target bounds low u. -/
def Proc (u : Nat) (s : BridgeState) (s2 : BridgeState)
    (done : List (Nat × Nat)) : Prop :=
  ∀ p ∈ done, s2.disc p.1 ≠ -1 ∧
    (s2.disc p.1 < (s.time : Int) → ((p.1 : Int) ≠ s.parent u) →
      s2.low u ≤ s2.disc p.1)

/-- Precondition of a dfsB call. -/
def DfsPre (edges : List UndirEdge) (n fuel u : Nat) (s : BridgeState)
    (A : List Nat) : Prop :=
  s.disc u = -1 ∧ u < n ∧ UCount n s < fuel ∧ DiscB n s ∧ Closed edges s A ∧
  (∀ b ∈ A, s.disc b ≠ -1) ∧ Certs edges s

/-- Postcondition of a dfsB call. -/
def DfsPost (edges : List UndirEdge) (n u : Nat) (A : List Nat)
    (s s4 : BridgeState) : Prop :=
  s4.disc u = (s.time : Int) ∧
  (∀ w, s.disc w ≠ -1 → s4.disc w = s.disc w) ∧
  (∀ w, s.disc w ≠ -1 → s4.low w = s.low w) ∧
  (∀ w, w = u ∨ s.disc w ≠ -1 → s4.parent w = s.parent w) ∧
  s.time < s4.time ∧
  (∀ w, s.disc w = -1 →
    s4.disc w = -1 ∨ ((s.time : Int) ≤ s4.disc w ∧ s4.disc w < (s4.time : Int))) ∧
  DiscB n s4 ∧
  UCount n s4 < UCount n s ∧
  Closed edges s4 A ∧
  (∀ w, s.disc w = -1 → s4.disc w ≠ -1 →
    ∀ p ∈ undNeighbors edges w, s4.disc p.1 ≠ -1 ∧
      (s4.disc p.1 < (s.time : Int) → ((p.1 : Int) ≠ s4.parent w) →
        s4.low w ≤ s4.disc p.1)) ∧
  (∀ w, s.disc w = -1 → s4.disc w ≠ -1 → s4.low u ≤ s4.low w) ∧
  (∀ w, s.disc w = -1 → s4.disc w ≠ -1 → w ≠ u →
    ∃ pw : Nat, s4.parent w = (pw : Int) ∧ s.disc pw = -1 ∧ s4.disc pw ≠ -1) ∧
  Certs edges s4

set_option maxHeartbeats 1000000 in
theorem flag_cert (edges : List UndirEdge) (n : Nat) (hwf : UEWF n edges)
    (u : Nat) (A : List Nat) (s s2 : BridgeState) (p : Nat × Nat)
    (hp : p ∈ undNeighbors edges u)
    (hmid : DfsMid edges n u A s s2)
    (hanc : ∀ b ∈ A, s.disc b ≠ -1)
    (hdb : DiscB n s)
    (hdiscu : s.disc u = -1)
    (hdv : s2.disc p.1 = -1)
    (s4 : BridgeState)
    (hpost : DfsPost edges n p.1 (A ++ [u])
      { s2 with parent := updF s2.parent p.1 (u : Int) } s4)
    (hflag : s4.disc u < s4.low p.1) :
    BridgeCert edges p.2 := by
  classical
  obtain ⟨P1, P2, P3, P4, P5, P6, P7, P8, P9, P10, P11, P12, P13⟩ := hpost
  have hs3disc : ∀ w, ({ s2 with parent := updF s2.parent p.1 (u : Int) } :
      BridgeState).disc w = s2.disc w := fun w => rfl
  have hs3time : ({ s2 with parent := updF s2.parent p.1 (u : Int) } :
      BridgeState).time = s2.time := rfl
  have hdiscu2 : s2.disc u = (s.time : Int) := hmid.discu
  have hdiscu4 : s4.disc u = (s.time : Int) := by
    rw [P2 u (by rw [hs3disc, hdiscu2]; omega), hs3disc, hdiscu2]
  have hdiscv4 : s4.disc p.1 = (s2.time : Int) := by
    rw [P1, hs3time]
  have htlt : s.time < s2.time := hmid.timegt
  refine ⟨fun w => (s2.time : Int) ≤ s4.disc w, ?_, ?_⟩
  · have hside : ∀ (a b j : Nat), (b, j) ∈ undNeighbors edges a →
        (s2.time : Int) ≤ s4.disc a → ¬ (s2.time : Int) ≤ s4.disc b →
        j = p.2 := by
      intro a b j hab hfa hfb
      have hanew : s2.disc a = -1 := by
        by_contra hold
        have h4 := P2 a (by rw [hs3disc]; exact hold)
        rw [hs3disc] at h4
        have hlt := (hmid.db a hold).1.2
        rw [h4] at hfa
        omega
      have hadisc : s4.disc a ≠ -1 := by
        intro hc
        rw [hc] at hfa
        omega
      have hdeep := P10 a (by rw [hs3disc]; exact hanew) hadisc (b, j) hab
      have hbdisc : s4.disc b ≠ -1 := hdeep.1
      have hbold4 : s4.disc b < (s2.time : Int) := by omega
      have hbold2 : s2.disc b ≠ -1 := by
        intro hc
        rcases P6 b (by rw [hs3disc]; exact hc) with h | ⟨h1, h2⟩
        · exact hbdisc h
        · rw [hs3time] at h1
          omega
      have hb42 : s4.disc b = s2.disc b := by
        rw [P2 b (by rw [hs3disc]; exact hbold2), hs3disc]
      by_cases hedgecase : a = p.1 ∧ b = u
      · obtain ⟨hav, hbu⟩ := hedgecase
        subst hav
        subst hbu
        obtain ⟨e1, he1, hid1, hor1⟩ := undNeighbors_sound edges p.1 (b, j) hab
        obtain ⟨e2, he2, hid2, hor2⟩ := undNeighbors_sound edges b p hp
        have hee : e1 = e2 := by
          refine uewf_pair_unique hwf e1 he1 e2 he2 ?_ ?_
          · have h1lt := (hwf.2.1 e1 he1).1
            have h2lt := (hwf.2.1 e2 he2).1
            rcases hor1 with ⟨ha1, hb1⟩ | ⟨ha1, hb1⟩ <;>
              rcases hor2 with ⟨ha2, hb2⟩ | ⟨ha2, hb2⟩ <;> omega
          · have h1lt := (hwf.2.1 e1 he1).1
            have h2lt := (hwf.2.1 e2 he2).1
            rcases hor1 with ⟨ha1, hb1⟩ | ⟨ha1, hb1⟩ <;>
              rcases hor2 with ⟨ha2, hb2⟩ | ⟨ha2, hb2⟩ <;> omega
        have hid1x : e1.id = j := hid1
        rw [← hid1x, hee, hid2]
      · exfalso
        have hnotpar : (b : Int) ≠ s4.parent a := by
          by_cases hav : a = p.1
          · subst hav
            have hpar : s4.parent p.1 = (u : Int) := by
              rw [P4 p.1 (Or.inl rfl)]
              show updF s2.parent p.1 (u : Int) p.1 = (u : Int)
              show (if p.1 = p.1 then (u : Int) else s2.parent p.1) = (u : Int)
              rw [if_pos rfl]
            rw [hpar]
            intro hc
            exact hedgecase ⟨rfl, by exact_mod_cast hc⟩
          · obtain ⟨pw, hpw, hpwnew, hpwdisc⟩ := P12 a
              (by rw [hs3disc]; exact hanew) hadisc hav
            rw [hpw]
            intro hc
            have hbpw : b = pw := by exact_mod_cast hc
            subst hbpw
            rcases P6 b hpwnew with h | ⟨h1, h2⟩
            · exact hbdisc h
            · rw [hs3time] at h1
              omega
        have hbfilter : s4.disc b <
            ((({ s2 with parent := updF s2.parent p.1 (u : Int) } :
              BridgeState).time : Nat) : Int) := by
          rw [hs3time]
          exact hbold4
        have hlowa : s4.low a ≤ s4.disc b := hdeep.2 hbfilter hnotpar
        have hlowv : s4.low p.1 ≤ s4.low a := by
          by_cases hav : a = p.1
          · subst hav
            exact le_refl _
          · exact P11 a (by rw [hs3disc]; exact hanew) hadisc
        have hble : s4.disc b ≤ (s.time : Int) := by
          by_cases hbu : b = u
          · subst hbu
            rw [hdiscu4]
          · have hbA : b ∉ A ++ [u] → False := by
              intro hbA'
              obtain ⟨e1, he1, hid1, hor1⟩ := undNeighbors_sound edges a (b, j) hab
              have hanb : (a, j) ∈ undNeighbors edges b := by
                obtain ⟨hc1, hc2⟩ := undNeighbors_complete hwf e1 he1
                rcases hor1 with ⟨h1, h2⟩ | ⟨h1, h2⟩
                · rw [h1, hid1, h2] at hc2
                  exact hc2
                · rw [h1, hid1, h2] at hc1
                  exact hc1
              exact (hmid.closed b hbold2 hbA' (a, j) hanb) hanew
            by_cases hbolds : s.disc b = -1
            · exfalso
              refine hbA ?_
              simp only [List.mem_append, List.mem_singleton]
              push_neg
              exact ⟨fun h => (hanc b h) hbolds, hbu⟩
            · by_cases hbmem : b ∈ A
              · have hsb := (hdb b hbolds).1.2
                rw [hb42, hmid.dfroz b hbolds]
                omega
              · exfalso
                refine hbA ?_
                simp only [List.mem_append, List.mem_singleton]
                push_neg
                exact ⟨hbmem, hbu⟩
        rw [hdiscu4] at hflag
        omega
    intro e2 he2 hne
    have hiffgoal : ((s2.time : Int) ≤ s4.disc e2.u) ↔
        ((s2.time : Int) ≤ s4.disc e2.v) := by
      constructor
      · intro hfu
        by_contra hfv
        exact hne (hside e2.u e2.v e2.id (undNeighbors_complete hwf e2 he2).1
          hfu hfv)
      · intro hfv
        by_contra hfu
        exact hne (hside e2.v e2.u e2.id (undNeighbors_complete hwf e2 he2).2
          hfv hfu)
    exact hiffgoal
  · intro e2 he2 hid2 hiff
    obtain ⟨e3, he3, hid3, hor3⟩ := undNeighbors_sound edges u p hp
    have hee : e2 = e3 := uewf_id_unique hwf e2 he2 e3 he3 (by rw [hid2, hid3])
    have hiff2 : ((s2.time : Int) ≤ s4.disc e2.u) ↔
        ((s2.time : Int) ≤ s4.disc e2.v) := hiff
    rw [hee] at hiff2
    have hfv : (s2.time : Int) ≤ s4.disc p.1 := le_of_eq hdiscv4.symm
    have hfu : ¬ (s2.time : Int) ≤ s4.disc u := by
      rw [hdiscu4]
      omega
    rcases hor3 with ⟨h1, h2⟩ | ⟨h1, h2⟩
    · rw [h1, h2] at hiff2
      exact hfu (hiff2.mpr hfv)
    · rw [h1, h2] at hiff2
      exact hfu (hiff2.mp hfv)

set_option maxHeartbeats 1600000 in
theorem dfsStep_post (edges : List UndirEdge) (n : Nat) (hwf : UEWF n edges)
    (fuel u : Nat) (s : BridgeState) (A : List Nat)
    (hpre : DfsPre edges n (fuel + 1) u s A)
    (IH : ∀ u2 s2 A2, DfsPre edges n fuel u2 s2 A2 →
      DfsPost edges n u2 A2 s2 (dfsB (undNeighbors edges) fuel u2 s2))
    (p : Nat × Nat) (hp : p ∈ undNeighbors edges u)
    (done : List (Nat × Nat)) (s2 : BridgeState)
    (hmid : DfsMid edges n u A s s2) (hproc : Proc u s s2 done) :
    DfsMid edges n u A s (dfsStepF (undNeighbors edges) fuel u s2 p) ∧
    Proc u s (dfsStepF (undNeighbors edges) fuel u s2 p) (done ++ [p]) := by
  obtain ⟨hdiscu, hun, hfuel, hdb, hclosed, hanc, hcerts⟩ := hpre
  have hvnew_s : s.disc p.1 = -1 ∨ s2.disc p.1 ≠ -1 := by
    by_cases h : s.disc p.1 = -1
    · exact Or.inl h
    · exact Or.inr (by rw [hmid.dfroz p.1 h]; exact h)
  rw [dfsStepF]
  dsimp only
  by_cases hdv : s2.disc p.1 = -1
  · rw [if_pos hdv]
    have hvn : p.1 < n := undNeighbors_lt hwf u p hp
    have hvneu : p.1 ≠ u := by
      intro hc
      rw [hc, hmid.discu] at hdv
      omega
    have hvnews : s.disc p.1 = -1 := by
      rcases hvnew_s with h | h
      · exact h
      · exact absurd hdv h
    have hpre3 : DfsPre edges n fuel p.1
        { s2 with parent := updF s2.parent p.1 (u : Int) } (A ++ [u]) := by
      refine ⟨hdv, hvn, ?_, hmid.db, hmid.closed, ?_, hmid.certs⟩
      · have h1 : UCount n ({ s2 with parent := updF s2.parent p.1 (u : Int) } :
            BridgeState) = UCount n s2 := rfl
        rw [h1]
        have h2 := hmid.ucount
        omega
      · intro b hb
        rcases List.mem_append.mp hb with hbA | hbu
        · show s2.disc b ≠ -1
          rw [hmid.dfroz b (hanc b hbA)]
          exact hanc b hbA
        · rw [List.mem_singleton] at hbu
          subst hbu
          show s2.disc b ≠ -1
          rw [hmid.discu]
          omega
    have hpost := IH p.1 { s2 with parent := updF s2.parent p.1 (u : Int) }
      (A ++ [u]) hpre3
    set s4 := dfsB (undNeighbors edges) fuel p.1
      { s2 with parent := updF s2.parent p.1 (u : Int) } with hs4
    obtain ⟨P1, P2, P3, P4, P5, P6, P7, P8, P9, P10, P11, P12, P13⟩ := hpost
    have hs3disc : ∀ w, ({ s2 with parent := updF s2.parent p.1 (u : Int) } :
        BridgeState).disc w = s2.disc w := fun w => rfl
    have hs3time : ({ s2 with parent := updF s2.parent p.1 (u : Int) } :
        BridgeState).time = s2.time := rfl
    have hdiscu4 : s4.disc u = (s.time : Int) := by
      rw [P2 u (by rw [hs3disc, hmid.discu]; omega), hs3disc, hmid.discu]
    have hdiscv4 : s4.disc p.1 = (s2.time : Int) := by
      rw [P1, hs3time]
    have hlowu4 : s4.low u = s2.low u := by
      rw [P3 u (by rw [hs3disc, hmid.discu]; omega)]
    have htime24 : s2.time < s4.time := P5
    have hfrozd : ∀ w, s2.disc w ≠ -1 → s4.disc w = s2.disc w := by
      intro w hw
      rw [P2 w (by rw [hs3disc]; exact hw), hs3disc]
    have hfrozl : ∀ w, s2.disc w ≠ -1 → s4.low w = s2.low w := by
      intro w hw
      rw [P3 w (by rw [hs3disc]; exact hw)]
    have hfrozp2 : ∀ w, w = p.1 ∨ s2.disc w ≠ -1 →
        s4.parent w = updF s2.parent p.1 (u : Int) w := by
      intro w hw
      refine (P4 w ?_).trans rfl
      rcases hw with h | h
      · exact Or.inl h
      · exact Or.inr (by rw [hs3disc]; exact h)
    have hlow5 : ∀ w, updF s4.low u (min (s4.low u) (s4.low p.1)) w =
        if w = u then min (s4.low u) (s4.low p.1) else s4.low w := fun w => rfl
    have F_lfroz : ∀ w, s.disc w ≠ -1 →
        updF s4.low u (min (s4.low u) (s4.low p.1)) w = s.low w := by
      intro w hw
      have hwu : w ≠ u := by
        intro hc
        rw [hc] at hw
        exact hw hdiscu
      rw [hlow5, if_neg hwu, hfrozl w (by rw [hmid.dfroz w hw]; exact hw)]
      exact hmid.lfroz w hw
    have F_pfroz : ∀ w, w = u ∨ s.disc w ≠ -1 → s4.parent w = s.parent w := by
      intro w hw
      have hw2 : s2.disc w ≠ -1 := by
        rcases hw with rfl | h
        · rw [hmid.discu]
          omega
        · rw [hmid.dfroz w h]
          exact h
      have hwp : w ≠ p.1 := by
        intro hc
        rw [hc] at hw2
        exact hw2 hdv
      rw [hfrozp2 w (Or.inr hw2)]
      show (if w = p.1 then ((u : Nat) : Int) else s2.parent w) = s.parent w
      rw [if_neg hwp]
      exact hmid.pfroz w hw
    have F_dfroz : ∀ w, s.disc w ≠ -1 → s4.disc w = s.disc w := by
      intro w hw
      rw [hfrozd w (by rw [hmid.dfroz w hw]; exact hw)]
      exact hmid.dfroz w hw
    have F_interval : ∀ w, s.disc w = -1 → w ≠ u →
        s4.disc w = -1 ∨ ((s.time : Int) < s4.disc w ∧
          s4.disc w < (s4.time : Int)) := by
      intro w hw hwu
      by_cases h2 : s2.disc w = -1
      · rcases P6 w (by rw [hs3disc]; exact h2) with h | ⟨ha, hb⟩
        · exact Or.inl h
        · refine Or.inr ⟨?_, hb⟩
          have hst : ({ s2 with parent := updF s2.parent p.1 (u : Int) } :
              BridgeState).time = s2.time := rfl
          rw [hst] at ha
          have := hmid.timegt
          omega
      · rcases hmid.interval w hw hwu with h | ⟨ha, hb⟩
        · exact absurd h h2
        · rw [hfrozd w h2]
          refine Or.inr ⟨ha, ?_⟩
          have := htime24
          omega
    have F_ucount : UCount n s4 < UCount n s := by
      have h8 : UCount n s4 < UCount n s2 := P8
      have h9 := hmid.ucount
      omega
    have F_lowule : ∀ w, s.disc w = -1 → w ≠ u → s4.disc w ≠ -1 →
        updF s4.low u (min (s4.low u) (s4.low p.1)) u ≤
          updF s4.low u (min (s4.low u) (s4.low p.1)) w := by
      intro w hw hwu hw4
      rw [hlow5, if_pos rfl, hlow5, if_neg hwu]
      by_cases h2 : s2.disc w = -1
      · by_cases hwp : w = p.1
        · subst hwp
          exact min_le_right _ _
        · have h11 := P11 w (by rw [hs3disc]; exact h2) hw4
          exact le_trans (min_le_right _ _) h11
      · rw [hfrozl w h2]
        have hlow := hmid.lowule w hw hwu h2
        calc min (s4.low u) (s4.low p.1) ≤ s4.low u := min_le_left _ _
          _ = s2.low u := hlowu4
          _ ≤ s2.low w := hlow
    have F_deep : ∀ w, s.disc w = -1 → w ≠ u → s4.disc w ≠ -1 →
        ∀ q ∈ undNeighbors edges w, s4.disc q.1 ≠ -1 ∧
          (s4.disc q.1 < (s.time : Int) → ((q.1 : Int) ≠ s4.parent w) →
            updF s4.low u (min (s4.low u) (s4.low p.1)) w ≤ s4.disc q.1) := by
      intro w hw hwu hw4 q hq
      rw [hlow5, if_neg hwu]
      by_cases h2 : s2.disc w = -1
      · obtain ⟨d1, d2⟩ := P10 w (by rw [hs3disc]; exact h2) hw4 q hq
        refine ⟨d1, ?_⟩
        intro c1 c2
        refine d2 ?_ c2
        have hst : ({ s2 with parent := updF s2.parent p.1 (u : Int) } :
            BridgeState).time = s2.time := rfl
        rw [hst]
        have := hmid.timegt
        omega
      · obtain ⟨d1, d2⟩ := hmid.deep w hw hwu h2 q hq
        have hq4 : s4.disc q.1 = s2.disc q.1 := hfrozd q.1 d1
        refine ⟨by rw [hq4]; exact d1, ?_⟩
        intro c1 c2
        rw [hq4]
        rw [hq4] at c1
        have hpar24 : s4.parent w = s2.parent w := by
          have hwp : w ≠ p.1 := by
            intro hc
            rw [hc] at h2
            exact h2 hdv
          rw [hfrozp2 w (Or.inr h2)]
          show (if w = p.1 then ((u : Nat) : Int) else s2.parent w) = s2.parent w
          rw [if_neg hwp]
        rw [hpar24] at c2
        rw [hfrozl w h2]
        exact d2 c1 c2
    have F_par : ∀ w, s.disc w = -1 → w ≠ u → s4.disc w ≠ -1 →
        ∃ pw : Nat, s4.parent w = (pw : Int) ∧ s.disc pw = -1 ∧
          s4.disc pw ≠ -1 := by
      intro w hw hwu hw4
      by_cases h2 : s2.disc w = -1
      · by_cases hwp : w = p.1
        · subst hwp
          refine ⟨u, ?_, hdiscu, by rw [hdiscu4]; omega⟩
          rw [hfrozp2 p.1 (Or.inl rfl)]
          show (if p.1 = p.1 then ((u : Nat) : Int) else s2.parent p.1) = _
          rw [if_pos rfl]
        · obtain ⟨pw, f1, f2, f3⟩ := P12 w (by rw [hs3disc]; exact h2) hw4 hwp
          refine ⟨pw, f1, ?_, f3⟩
          have f2' : s2.disc pw = -1 := f2
          by_contra hc
          rw [hmid.dfroz pw hc] at f2'
          exact hc f2'
      · obtain ⟨pw, f1, f2, f3⟩ := hmid.par w hw hwu h2
        have hwp : w ≠ p.1 := by
          intro hc
          rw [hc] at h2
          exact h2 hdv
        refine ⟨pw, ?_, f2, by rw [hfrozd pw f3]; exact f3⟩
        rw [hfrozp2 w (Or.inr h2)]
        show (if w = p.1 then ((u : Nat) : Int) else s2.parent w) = _
        rw [if_neg hwp]
        exact f1
    have F_proc : ∀ q ∈ done ++ [p], s4.disc q.1 ≠ -1 ∧
        (s4.disc q.1 < (s.time : Int) → ((q.1 : Int) ≠ s.parent u) →
          updF s4.low u (min (s4.low u) (s4.low p.1)) u ≤ s4.disc q.1) := by
      intro q hq
      rw [hlow5, if_pos rfl]
      rcases List.mem_append.mp hq with hold | hnew
      · obtain ⟨d1, d2⟩ := hproc q hold
        have hq4 : s4.disc q.1 = s2.disc q.1 := hfrozd q.1 d1
        refine ⟨by rw [hq4]; exact d1, ?_⟩
        intro c1 c2
        rw [hq4] at c1 ⊢
        exact le_trans (min_le_left _ _) (by rw [hlowu4]; exact d2 c1 c2)
      · rw [List.mem_singleton] at hnew
        subst hnew
        refine ⟨by rw [hdiscv4]; omega, ?_⟩
        intro c1 _
        exfalso
        rw [hdiscv4] at c1
        have := hmid.timegt
        omega
    have F_time : s.time < s4.time := by
      have h1 := hmid.timegt
      have h2 := htime24
      omega
    by_cases hflag : s4.disc u < s4.low p.1
    · have hugly : ({ s4 with low := updF s4.low u (min (s4.low u) (s4.low p.1)) } :
          BridgeState).disc u <
          ({ s4 with low := updF s4.low u (min (s4.low u) (s4.low p.1)) } :
            BridgeState).low p.1 := by
        show s4.disc u < updF s4.low u (min (s4.low u) (s4.low p.1)) p.1
        rw [hlow5, if_neg hvneu]
        exact hflag
      rw [if_pos hugly]
      refine ⟨⟨hdiscu4, F_time,
        F_dfroz, F_lfroz, F_pfroz, F_interval, P7, F_ucount, P9, F_lowule,
        F_deep, F_par, ?_⟩, F_proc⟩
      intro i hi
      rcases List.mem_append.mp hi with hiold | hinew
      · exact P13 i hiold
      · rw [List.mem_singleton] at hinew
        subst hinew
        exact flag_cert edges n hwf u A s s2 p hp hmid hanc hdb hdiscu hdv s4
          ⟨P1, P2, P3, P4, P5, P6, P7, P8, P9, P10, P11, P12, P13⟩ hflag
    · have hugly : ¬ ({ s4 with low := updF s4.low u (min (s4.low u) (s4.low p.1)) } :
          BridgeState).disc u <
          ({ s4 with low := updF s4.low u (min (s4.low u) (s4.low p.1)) } :
            BridgeState).low p.1 := by
        intro hc
        apply hflag
        have hc2 : s4.disc u < updF s4.low u (min (s4.low u) (s4.low p.1)) p.1 := hc
        rw [hlow5, if_neg hvneu] at hc2
        exact hc2
      rw [if_neg hugly]
      exact ⟨⟨hdiscu4, F_time,
        F_dfroz, F_lfroz, F_pfroz, F_interval, P7, F_ucount, P9, F_lowule,
        F_deep, F_par, P13⟩, F_proc⟩
  · rw [if_neg hdv]
    by_cases hback : (p.1 : Int) ≠ s2.parent u
    · rw [if_pos hback]
      have hlow2 : ∀ w, updF s2.low u (min (s2.low u) (s2.disc p.1)) w =
          if w = u then min (s2.low u) (s2.disc p.1) else s2.low w := fun w => rfl
      refine ⟨⟨hmid.discu, hmid.timegt, hmid.dfroz, ?_, hmid.pfroz,
        hmid.interval, hmid.db, hmid.ucount, hmid.closed, ?_, ?_, hmid.par,
        hmid.certs⟩, ?_⟩
      · intro w hw
        have hwu : w ≠ u := by
          intro hc
          rw [hc] at hw
          exact hw hdiscu
        show updF s2.low u (min (s2.low u) (s2.disc p.1)) w = s.low w
        rw [hlow2, if_neg hwu]
        exact hmid.lfroz w hw
      · intro w hw hwu hw2
        show updF s2.low u (min (s2.low u) (s2.disc p.1)) u ≤
          updF s2.low u (min (s2.low u) (s2.disc p.1)) w
        rw [hlow2, if_pos rfl, hlow2, if_neg hwu]
        exact le_trans (min_le_left _ _) (hmid.lowule w hw hwu hw2)
      · intro w hw hwu hw2 q hq
        obtain ⟨d1, d2⟩ := hmid.deep w hw hwu hw2 q hq
        refine ⟨d1, ?_⟩
        intro c1 c2
        show updF s2.low u (min (s2.low u) (s2.disc p.1)) w ≤ s2.disc q.1
        rw [hlow2, if_neg hwu]
        exact d2 c1 c2
      · intro q hq
        rcases List.mem_append.mp hq with hold | hnew
        · obtain ⟨d1, d2⟩ := hproc q hold
          refine ⟨d1, ?_⟩
          intro c1 c2
          show updF s2.low u (min (s2.low u) (s2.disc p.1)) u ≤ s2.disc q.1
          rw [hlow2, if_pos rfl]
          exact le_trans (min_le_left _ _) (d2 c1 c2)
        · rw [List.mem_singleton] at hnew
          subst hnew
          refine ⟨hdv, ?_⟩
          intro c1 c2
          show updF s2.low u (min (s2.low u) (s2.disc q.1)) u ≤ s2.disc q.1
          rw [hlow2, if_pos rfl]
          exact min_le_right _ _
    · rw [if_neg hback]
      refine ⟨hmid, ?_⟩
      intro q hq
      rcases List.mem_append.mp hq with hold | hnew
      · exact hproc q hold
      · rw [List.mem_singleton] at hnew
        subst hnew
        refine ⟨hdv, ?_⟩
        intro _ h2
        exfalso
        push_neg at hback
        rw [hmid.pfroz u (Or.inl rfl)] at hback
        exact h2 hback

theorem dfsFold_post (edges : List UndirEdge) (n : Nat) (hwf : UEWF n edges)
    (fuel u : Nat) (s : BridgeState) (A : List Nat)
    (hpre : DfsPre edges n (fuel + 1) u s A)
    (IH : ∀ u2 s2 A2, DfsPre edges n fuel u2 s2 A2 →
      DfsPost edges n u2 A2 s2 (dfsB (undNeighbors edges) fuel u2 s2)) :
    ∀ (rest done : List (Nat × Nat)) (s2 : BridgeState),
      undNeighbors edges u = done ++ rest →
      DfsMid edges n u A s s2 → Proc u s s2 done →
      DfsMid edges n u A s
        (rest.foldl (dfsStepF (undNeighbors edges) fuel u) s2) ∧
      Proc u s (rest.foldl (dfsStepF (undNeighbors edges) fuel u) s2)
        (done ++ rest) := by
  intro rest
  induction rest with
  | nil =>
    intro done s2 heq hmid hproc
    rw [List.foldl_nil, List.append_nil]
    exact ⟨hmid, hproc⟩
  | cons q rest ih =>
    intro done s2 heq hmid hproc
    rw [List.foldl_cons]
    have hq : q ∈ undNeighbors edges u := by
      rw [heq]
      exact List.mem_append_right done (by simp)
    obtain ⟨hmid1, hproc1⟩ := dfsStep_post edges n hwf fuel u s A hpre IH q hq
      done s2 hmid hproc
    have heq2 : undNeighbors edges u = (done ++ [q]) ++ rest := by
      rw [heq]
      simp
    have hrec := ih (done ++ [q]) _ heq2 hmid1 hproc1
    rw [show done ++ q :: rest = (done ++ [q]) ++ rest by simp]
    exact hrec

theorem dfsB_main (edges : List UndirEdge) (n : Nat) (hwf : UEWF n edges) :
    ∀ fuel u s A, DfsPre edges n fuel u s A →
      DfsPost edges n u A s (dfsB (undNeighbors edges) fuel u s) := by
  intro fuel
  induction fuel with
  | zero =>
    intro u s A hpre
    exfalso
    obtain ⟨h1, h2, h3, _⟩ := hpre
    omega
  | succ fuel ih =>
    intro u s A hpre
    obtain ⟨hdiscu, hun, hfuel, hdb, hclosed, hanc, hcerts⟩ := hpre
    rw [dfsB]
    dsimp only
    have hd1 : ∀ w, updF s.disc u ((s.time : Nat) : Int) w =
        if w = u then ((s.time : Nat) : Int) else s.disc w := fun w => rfl
    have hl1 : ∀ w, updF s.low u ((s.time : Nat) : Int) w =
        if w = u then ((s.time : Nat) : Int) else s.low w := fun w => rfl
    have hmid1 : DfsMid edges n u A s
        { s with disc := updF s.disc u (s.time : Int),
                 low := updF s.low u (s.time : Int), time := s.time + 1 } := by
      refine ⟨?_, ?_, ?_, ?_, ?_, ?_, ?_, ?_, ?_, ?_, ?_, ?_, ?_⟩
      · show updF s.disc u (s.time : Int) u = (s.time : Int)
        rw [hd1, if_pos rfl]
      · show s.time < s.time + 1
        omega
      · intro w hw
        have hwu : w ≠ u := by
          intro hc
          rw [hc] at hw
          exact hw hdiscu
        show updF s.disc u (s.time : Int) w = s.disc w
        rw [hd1, if_neg hwu]
      · intro w hw
        have hwu : w ≠ u := by
          intro hc
          rw [hc] at hw
          exact hw hdiscu
        show updF s.low u (s.time : Int) w = s.low w
        rw [hl1, if_neg hwu]
      · intro w _
        rfl
      · intro w hw hwu
        refine Or.inl ?_
        show updF s.disc u (s.time : Int) w = -1
        rw [hd1, if_neg hwu]
        exact hw
      · intro w hw
        have hw' : updF s.disc u (s.time : Int) w ≠ -1 := hw
        rw [hd1] at hw'
        by_cases hwu : w = u
        · rw [if_pos hwu] at hw'
          subst hwu
          refine ⟨⟨?_, ?_⟩, hun⟩
          · show (0 : Int) ≤ updF s.disc w (s.time : Int) w
            rw [hd1, if_pos rfl]
            omega
          · show updF s.disc w (s.time : Int) w < ((s.time + 1 : Nat) : Int)
            rw [hd1, if_pos rfl]
            push_cast
            omega
        · rw [if_neg hwu] at hw'
          obtain ⟨⟨ha, hb⟩, hc⟩ := hdb w hw'
          refine ⟨⟨?_, ?_⟩, hc⟩
          · show 0 ≤ updF s.disc u (s.time : Int) w
            rw [hd1, if_neg hwu]
            exact ha
          · show updF s.disc u (s.time : Int) w < ((s.time + 1 : Nat) : Int)
            rw [hd1, if_neg hwu]
            push_cast
            omega
      · rw [UCount, UCount]
        refine countP_lt (List.range n) _ _ ?_ u (List.mem_range.mpr hun) ?_ ?_
        · intro w _ hw
          simp only [beq_iff_eq] at hw ⊢
          have hw' : updF s.disc u (s.time : Int) w = -1 := hw
          rw [hd1] at hw'
          by_cases hwu : w = u
          · rw [if_pos hwu] at hw'
            omega
          · rw [if_neg hwu] at hw'
            exact hw'
        · simp only [beq_iff_eq]
          exact hdiscu
        · rw [beq_eq_false_iff_ne]
          show updF s.disc u (s.time : Int) u ≠ -1
          rw [hd1, if_pos rfl]
          omega
      · intro w hw hwA q hq
        have hw' : updF s.disc u (s.time : Int) w ≠ -1 := hw
        rw [hd1] at hw'
        have hwu : w ≠ u := by
          intro hc
          rw [hc] at hwA
          exact hwA (List.mem_append_right A (by simp))
        rw [if_neg hwu] at hw'
        have hwA2 : w ∉ A := fun hc => hwA (List.mem_append_left _ hc)
        have hnb := hclosed w hw' hwA2 q hq
        show updF s.disc u (s.time : Int) q.1 ≠ -1
        rw [hd1]
        by_cases hqu : q.1 = u
        · rw [if_pos hqu]
          omega
        · rw [if_neg hqu]
          exact hnb
      · intro w hw hwu hw2
        exfalso
        have hw2' : updF s.disc u (s.time : Int) w ≠ -1 := hw2
        rw [hd1, if_neg hwu] at hw2'
        exact hw2' hw
      · intro w hw hwu hw2
        exfalso
        have hw2' : updF s.disc u (s.time : Int) w ≠ -1 := hw2
        rw [hd1, if_neg hwu] at hw2'
        exact hw2' hw
      · intro w hw hwu hw2
        exfalso
        have hw2' : updF s.disc u (s.time : Int) w ≠ -1 := hw2
        rw [hd1, if_neg hwu] at hw2'
        exact hw2' hw
      · exact hcerts
    obtain ⟨hmidF, hprocF⟩ := dfsFold_post edges n hwf fuel u s A
      ⟨hdiscu, hun, hfuel, hdb, hclosed, hanc, hcerts⟩ ih
      (undNeighbors edges u) [] _ (by rw [List.nil_append]) hmid1
      (fun q hq => absurd hq (List.not_mem_nil q))
    rw [List.nil_append] at hprocF
    have hgoal : DfsPost edges n u A s
        (List.foldl (dfsStepF (undNeighbors edges) fuel u)
          { s with disc := updF s.disc u (s.time : Int),
                   low := updF s.low u (s.time : Int), time := s.time + 1 }
          (undNeighbors edges u)) := ?_
    · exact hgoal
    refine ⟨hmidF.discu, hmidF.dfroz, hmidF.lfroz, hmidF.pfroz, hmidF.timegt,
      ?_, hmidF.db, hmidF.ucount, ?_, ?_, ?_,
      fun w hw hw2 hwu => hmidF.par w hw hwu hw2, hmidF.certs⟩
    · intro w hw
      by_cases hwu : w = u
      · subst hwu
        refine Or.inr ⟨le_of_eq hmidF.discu.symm, ?_⟩
        rw [hmidF.discu]
        have := hmidF.timegt
        push_cast
        omega
      · rcases hmidF.interval w hw hwu with h | ⟨ha, hb⟩
        · exact Or.inl h
        · exact Or.inr ⟨le_of_lt ha, hb⟩
    · intro w hw hwA q hq
      by_cases hwu : w = u
      · subst hwu
        exact (hprocF q hq).1
      · refine hmidF.closed w hw ?_ q hq
        intro hc
        rcases List.mem_append.mp hc with h | h
        · exact hwA h
        · rw [List.mem_singleton] at h
          exact hwu h
    · intro w hw hw2 q hq
      by_cases hwu : w = u
      · subst hwu
        obtain ⟨d1, d2⟩ := hprocF q hq
        refine ⟨d1, ?_⟩
        intro c1 c2
        rw [hmidF.pfroz w (Or.inl rfl)] at c2
        exact d2 c1 c2
      · exact hmidF.deep w hw hwu hw2 q hq
    · intro w hw hw2
      by_cases hwu : w = u
      · subst hwu
        exact le_refl _
      · exact hmidF.lowule w hw hwu hw2

theorem computeBridges_certs (edges : List UndirEdge) (n : Nat)
    (hwf : UEWF n edges) :
    ∀ i ∈ computeBridges n (undNeighbors edges), BridgeCert edges i := by
  rw [computeBridges]
  have hinv := foldl_invariant
    (fun (s : BridgeState) => DiscB n s ∧ Closed edges s [] ∧ Certs edges s)
    (fun s i => if s.disc i = -1 then dfsB (undNeighbors edges) (n + 1) i s
      else s)
    (List.range n)
    ⟨fun _ => -1, fun _ => -1, fun _ => -1, 0, []⟩
    ⟨fun w hw => absurd rfl hw, fun w hw => absurd rfl hw,
      fun i hi => absurd hi (List.not_mem_nil i)⟩
    ?_
  · exact hinv.2.2
  · intro s i hi hP
    obtain ⟨hdb, hclosed, hcerts⟩ := hP
    dsimp only
    by_cases hdi : s.disc i = -1
    · rw [if_pos hdi]
      have hucount : UCount n s < n + 1 := by
        rw [UCount]
        have h1 := List.countP_le_length (l := List.range n)
          (p := fun w => s.disc w == -1)
        rw [List.length_range] at h1
        omega
      have hpost := dfsB_main edges n hwf (n + 1) i s []
        ⟨hdi, List.mem_range.mp hi, hucount, hdb, hclosed,
          fun b hb => absurd hb (List.not_mem_nil b), hcerts⟩
      obtain ⟨_, _, _, _, _, _, P7, _, P9, _, _, _, P13⟩ := hpost
      exact ⟨P7, P9, P13⟩
    · rw [if_neg hdi]
      exact ⟨hdb, hclosed, hcerts⟩

theorem final_edge_decomp (m : GameMap) (rt : Nat)
    (e : UndirEdge) (he : e ∈ (buildRoadGraph m rt).undirEdges) :
    ∃ e0 ∈ (buildEdges m rt (buildNodes m rt)).undirEdges,
      e.id = e0.id ∧ e.u = e0.u ∧ e.v = e0.v ∧
      (e.isBridge = true →
        ((if (buildNodes m rt).length ≤ 1600 then
            computeBridges (buildNodes m rt).length
              (undNeighbors (buildEdges m rt (buildNodes m rt)).undirEdges)
          else []).contains e0.id) = true) := by
  rw [buildRoadGraph_undirEdges] at he
  obtain ⟨e1, he1, he1e⟩ := List.mem_map.mp he
  obtain ⟨e0, he0, he0e⟩ := List.mem_map.mp he1
  have hfalse := buildEdges_isBridge_false m rt (buildNodes m rt) e0 he0
  have he1a : e1 = (if ((if (buildNodes m rt).length ≤ 1600 then
      computeBridges (buildNodes m rt).length
        (undNeighbors (buildEdges m rt (buildNodes m rt)).undirEdges)
      else []).contains e0.id) then { e0 with isBridge := true } else e0) :=
    he0e.symm
  have hea : e.id = e1.id ∧ e.u = e1.u ∧ e.v = e1.v ∧
      e.isBridge = e1.isBridge := by
    refine ⟨?_, ?_, ?_, ?_⟩ <;> (rw [← he1e])
  refine ⟨e0, he0, ?_, ?_, ?_, ?_⟩
  · rw [hea.1, he1a]
    by_cases hc : ((if (buildNodes m rt).length ≤ 1600 then
        computeBridges (buildNodes m rt).length
          (undNeighbors (buildEdges m rt (buildNodes m rt)).undirEdges)
        else []).contains e0.id) = true
    · rw [if_pos hc]
    · rw [if_neg hc]
  · rw [hea.2.1, he1a]
    by_cases hc : ((if (buildNodes m rt).length ≤ 1600 then
        computeBridges (buildNodes m rt).length
          (undNeighbors (buildEdges m rt (buildNodes m rt)).undirEdges)
        else []).contains e0.id) = true
    · rw [if_pos hc]
    · rw [if_neg hc]
  · rw [hea.2.2.1, he1a]
    by_cases hc : ((if (buildNodes m rt).length ≤ 1600 then
        computeBridges (buildNodes m rt).length
          (undNeighbors (buildEdges m rt (buildNodes m rt)).undirEdges)
        else []).contains e0.id) = true
    · rw [if_pos hc]
    · rw [if_neg hc]
  · intro hbr
    rw [hea.2.2.2, he1a] at hbr
    by_cases hc : ((if (buildNodes m rt).length ≤ 1600 then
        computeBridges (buildNodes m rt).length
          (undNeighbors (buildEdges m rt (buildNodes m rt)).undirEdges)
        else []).contains e0.id) = true
    · exact hc
    · rw [if_neg hc] at hbr
      rw [hfalse] at hbr
      exact absurd hbr (by simp)

theorem bridgeCert_map (m : GameMap) (rt : Nat) (i : Nat)
    (hc : BridgeCert (buildEdges m rt (buildNodes m rt)).undirEdges i) :
    BridgeCert (buildRoadGraph m rt).undirEdges i := by
  obtain ⟨f, h1, h2⟩ := hc
  refine ⟨f, ?_, ?_⟩
  · intro ep hep hne
    obtain ⟨e0, he0, hid, hu, hv, _⟩ := final_edge_decomp m rt ep hep
    rw [hu, hv]
    exact h1 e0 he0 (by rw [← hid]; exact hne)
  · intro ep hep hide
    obtain ⟨e0, he0, hid, hu, hv, _⟩ := final_edge_decomp m rt ep hep
    rw [hu, hv]
    exact h2 e0 he0 (by rw [← hid]; exact hide)

/-- C2: for every graph built within the 1600-node bridge-detection safety
threshold, every undirected edge flagged isBridge = true is a true bridge:
deleting that edge from the undirected graph strictly increases the number of
connected components. -/
theorem bridge_flag_sound (m : GameMap) (rt : Nat)
    (hth : (buildRoadGraph m rt).nodes.length ≤ 1600)
    (e : UndirEdge) (he : e ∈ (buildRoadGraph m rt).undirEdges)
    (hb : e.isBridge = true) :
    numComponents (buildRoadGraph m rt).undirEdges none
        (buildRoadGraph m rt).nodes.length <
      numComponents (buildRoadGraph m rt).undirEdges (some e.id)
        (buildRoadGraph m rt).nodes.length := by
  have hth2 : (buildNodes m rt).length ≤ 1600 := hth
  obtain ⟨e0, he0, hid, hu, hv, hcont⟩ := final_edge_decomp m rt e he
  have hwf := buildEdges_uewf m rt
  have hcont2 := hcont hb
  rw [if_pos hth2] at hcont2
  have hmem : e0.id ∈ computeBridges (buildNodes m rt).length
      (undNeighbors (buildEdges m rt (buildNodes m rt)).undirEdges) := by
    simpa using hcont2
  have hcert0 := computeBridges_certs
    (buildEdges m rt (buildNodes m rt)).undirEdges (buildNodes m rt).length
    hwf e0.id hmem
  have hcert := bridgeCert_map m rt e0.id hcert0
  rw [← hid] at hcert
  have hdisc := cert_disconnects (buildRoadGraph m rt).undirEdges e.id hcert
    e he rfl
  obtain ⟨hlt, hvn⟩ := hwf.2.1 e0 he0
  refine components_increase (buildRoadGraph m rt).undirEdges e.id
    (buildRoadGraph m rt).nodes.length e he rfl ?_ ?_ hdisc
  · show e.u < (buildNodes m rt).length
    rw [hu]
    omega
  · show e.v < (buildNodes m rt).length
    rw [hv]
    omega

set_option maxRecDepth 100000 in
theorem bridge_flag_sound_witness :
    numComponents (buildRoadGraph corridorMap 2).undirEdges none
        (buildRoadGraph corridorMap 2).nodes.length <
      numComponents (buildRoadGraph corridorMap 2).undirEdges
        (some ((⟨0, 0, 1, 9, true, 9, [0, 1]⟩ : UndirEdge).id))
        (buildRoadGraph corridorMap 2).nodes.length :=
  bridge_flag_sound corridorMap 2 (by decide)
    ⟨0, 0, 1, 9, true, 9, [0, 1]⟩ (by decide) (by decide)

end

end GTA2Web
